import Mathlib

/-!
# scrollwm: a shallow embedding of `src/scrollwm.c`

The window manager keeps its whole state in file-level globals: a singly linked list of
`Client`s, a `focused` pointer, a singly linked list of `Checkpoint`s and a few tag masks.
Here the globals become one `State` record and every C function becomes a function on it.

Conventions of the embedding:

* C `int` is modelled by `Int`; signed overflow is undefined behaviour in C and is not modelled.
* C `float` is modelled by the carrier of a `FloatOps` record, which only names the
  operations the program uses.  Theorems that need a property of an operation say so
  through `FloatLaws` (exact facts) or `FloatRound` (the rounding errors of single
  precision); `ratFloat` (exact rational arithmetic) is a concrete instance on which
  examples are evaluated.
* A linked list is a `List`; a node keeps its address in `addr`, and a pointer to a node
  is that address (`none` is `NULL`).
* A function returns `Option State`: `none` means that the C program dereferences `NULL`
  or a pointer to a node that is not in the list, shifts by an invalid amount, or that a
  loop does not finish in the fuel given to it.
* `config.h` is not part of the sources; its constants are the fields of `Config`, and the
  three variables of it that the program assigns (`showbar`, `topbar`, `tilebias`) are
  fields of `State`.  Calls into Xlib that do not touch the globals are left out.
* A C string is the list of its characters before the terminating NUL, and a `char *`
  into it is the list from the character it points to on (`status`, `fgets`, `strchr`).
-/

namespace Scrollwm

/-- The operations on C `float` values that the program uses. `ofInt` is the implicit
conversion `int → float`, `toInt` the implicit conversion `float → int`; `lit_1_1` and
`lit_0_92` are the constants `1.1` and `.92`. The constant `1.0` is `ofInt 1`. -/
structure FloatOps where
  F : Type
  deq : DecidableEq F
  ofInt : Int → F
  toInt : F → Int
  add : F → F → F
  mul : F → F → F
  div : F → F → F
  lt : F → F → Bool
  lit_1_1 : F
  lit_0_92 : F

instance instDecEqF (M : FloatOps) : DecidableEq M.F := M.deq

/-- The facts about `float` arithmetic used below; all of them hold for IEEE single
precision (every integer of magnitude at most `2^24` is represented exactly). -/
structure FloatLaws (M : FloatOps) : Prop where
  mul_one : ∀ a : M.F, M.mul a (M.ofInt 1) = a
  div_one_one : M.div (M.ofInt 1) (M.ofInt 1) = M.ofInt 1
  add_zero : ∀ n : Int, M.add (M.ofInt n) (M.ofInt 0) = M.ofInt n
  toInt_ofInt : ∀ n : Int, |n| ≤ 2 ^ 24 → M.toInt (M.ofInt n) = n

/-- Exact rational arithmetic as a model of `float`; conversion to `int` truncates
towards zero as in C. -/
def ratFloat : FloatOps where
  F := ℚ
  deq := inferInstance
  ofInt n := (n : ℚ)
  toInt q := Int.tdiv q.num (q.den : Int)
  add a b := a + b
  mul a b := a * b
  div a b := a / b
  lt a b := decide (a < b)
  lit_1_1 := 11 / 10
  lit_0_92 := 23 / 25

/-- `struct Client` (the title and its length are only read by the renderer and are
left out); `addr` is the address of the node. -/
structure Client (M : FloatOps) where
  addr : Nat
  x : Int
  y : Int
  w : M.F
  h : M.F
  tags : Int
  win : Nat

instance instDecEqClient (M : FloatOps) : DecidableEq (Client M) := by
  intro a b
  cases a; cases b
  simp only [Client.mk.injEq]
  exact inferInstance

/-- `struct Checkpoint`. -/
structure Checkpoint (M : FloatOps) where
  x : Int
  y : Int
  zoom : M.F
  key : Char

instance instDecEqCheckpoint (M : FloatOps) : DecidableEq (Checkpoint M) := by
  intro a b
  cases a; cases b
  simp only [Checkpoint.mk.injEq]
  exact inferInstance

/-- The functions that `config.h` can bind to a key or a button
(every `void f(const char *)` of the program). -/
inductive Fn where
  | checkpoint | checkpoint_set | cycle | cycle_tile | desktop | killclient | monocle
  | quit | spawn | tag | tagconfig | tile | toggletag | window
deriving DecidableEq, Repr

/-- One entry of `keys[]` or `buttons[]`: the modifier mask, the key symbol or button,
the function (`none` for a null function pointer) and the argument, of which the
program only reads the first character (`none` for a `NULL` argument). -/
structure Binding where
  mod : Nat
  code : Nat
  func : Option Fn
  arg : Option Char
deriving DecidableEq, Repr

/-- The constants of `config.h` and the values `main` computes once at start-up
(`sw`, `sh`, `barheight`). `animatespeed` is a step magnitude, a natural number; with a
negative value the loop of `animate` need not end, and that case is left out.
`ntags` is the number of entries of `tag_name[]` before its `NULL`, `tile_modes` holds
the first characters of the entries of `tile_modes[]` before its `NULL`. -/
structure Config (M : FloatOps) where
  sw : Int
  sh : Int
  barheight : Int
  animations : Bool
  animatespeed : Nat
  scrolltofocused : Bool
  focusfollowmouse : Bool
  tilegap : Int
  borderwidth : Int
  win_min : Int
  zoom_min : M.F
  ntags : Nat
  tile_modes : List Char
  keys : List Binding
  buttons : List Binding

/-- The values of `mousemode`. -/
inductive MouseMode where
  | MOff | MWMove | MWResize | MDMove | MDResize
deriving DecidableEq, Repr

/-- The globals of the program. `start_x`, `start_y` are `start.x_root`, `start.y_root`. -/
structure State (M : FloatOps) where
  clients : List (Client M)
  focused : Option Nat
  checks : List (Checkpoint M)
  tags_stik : Int
  tags_hide : Int
  tags_urg : Int
  curtag : Nat
  ntilemode : Nat
  mousemode : MouseMode
  start_x : Int
  start_y : Int
  showbar : Bool
  topbar : Bool
  tilebias : Int
  running : Bool

instance instDecEqState (M : FloatOps) : DecidableEq (State M) := by
  intro a b
  cases a; cases b
  simp only [State.mk.injEq]
  exact inferInstance

/-- The value of `1<<k` for a valid shift amount. -/
def bit (k : Nat) : Int := (1 : Int) <<< (k : Int)

/-- The test `a & b` used as a C condition. -/
def meets (a b : Int) : Bool := decide (Int.land a b ≠ 0)

/-- Dereference of a `Client *`: the node with that address. -/
def lookup {M : FloatOps} : List (Client M) → Nat → Option (Client M)
  | [], _ => none
  | c :: l, a => if c.addr = a then some c else lookup l a

/-- The list that starts at `p->next`, for a pointer `p` into the list. -/
def nextOf {M : FloatOps} : List (Client M) → Nat → Option (List (Client M))
  | [], _ => none
  | c :: l, a => if c.addr = a then some l else nextOf l a

/-- Assignments through a `Client *`: the node with that address is replaced; `none`
when no node of the list has that address. -/
def modify {M : FloatOps} (f : Client M → Client M) :
    List (Client M) → Nat → Option (List (Client M))
  | [], _ => none
  | c :: l, a =>
    if c.addr = a then some (f c :: l)
    else match modify f l a with
      | none => none
      | some l1 => some (c :: l1)

/-- The pointer to the first node of a list (`NULL` for the empty list). -/
def headAddr {M : FloatOps} : List (Client M) → Option Nat
  | [] => none
  | c :: _ => some c.addr

/-- The effect of `draw` on the globals: the urgency bits of the focused client's tags
and of the current tag are cleared. -/
def draw {M : FloatOps} (s : State M) : Option (State M) :=
  match s.focused with
  | none => some { s with tags_urg := Int.land s.tags_urg (Int.lnot (bit s.curtag)) }
  | some a =>
    match lookup s.clients a with
    | none => none
    | some c =>
      let urg := Int.land s.tags_urg (Int.lnot c.tags)
      some { s with tags_urg := Int.land urg (Int.lnot (bit s.curtag)) }

/-- `focusclient`: only the assignment to `focused` touches the globals. -/
def focusclient {M : FloatOps} (s : State M) (c : Option Nat) : State M :=
  { s with focused := c }

/-- `onscreen` for a non-null client. -/
def onscreen {M : FloatOps} (cfg : Config M) (c : Client M) : Bool :=
  M.lt (M.ofInt 0) (M.add (M.ofInt c.x) (M.div c.w (M.ofInt 2))) &&
  M.lt (M.add (M.ofInt c.x) (M.div c.w (M.ofInt 2))) (M.ofInt cfg.sw) &&
  M.lt (M.ofInt 0) (M.add (M.ofInt c.y) (M.div c.h (M.ofInt 2))) &&
  M.lt (M.add (M.ofInt c.y) (M.div c.h (M.ofInt 2))) (M.ofInt cfg.sh)

/-- The loop body of `checkpoint_update` for one checkpoint. -/
def checkpoint_update1 {M : FloatOps} (x y : Int) (zoom : M.F) (cp : Checkpoint M) :
    Checkpoint M :=
  if zoom ≠ M.ofInt 1 then
    { cp with
      zoom := M.mul cp.zoom zoom
      x := M.toInt (M.add (M.mul (M.ofInt (cp.x - x)) zoom) (M.ofInt x))
      y := M.toInt (M.add (M.mul (M.ofInt (cp.y - y)) zoom) (M.ofInt y)) }
  else
    { cp with x := cp.x + x, y := cp.y + y }

/-- `checkpoint_update`. -/
def checkpoint_update {M : FloatOps} (x y : Int) (zoom : M.F) (s : State M) : State M :=
  { s with checks := s.checks.map (checkpoint_update1 x y zoom) }

/-- The loop body of `scrollwindows` for one client. -/
def scroll1 {M : FloatOps} (stik : Int) (x y : Int) (c : Client M) : Client M :=
  if !(meets c.tags stik) then { c with x := c.x + x, y := c.y + y } else c

/-- `scrollwindows(clients, x, y)`. -/
def scrollwindows {M : FloatOps} (x y : Int) (s : State M) : Option (State M) :=
  draw (checkpoint_update x y (M.ofInt 1)
    { s with clients := s.clients.map (scroll1 s.tags_stik x y) })

/-- The initial value of `dx` (and of `dy`) in `animate`. -/
def animStep (speed : Nat) (t : Int) : Int :=
  if t = 0 then 0 else if t > 0 then (speed : Int) + 1 else -((speed : Int) + 1)

/-- The `while` loop of `animate`, on the variables `tx`, `ty`, `dx`, `dy`; the result
carries the values of `tx` and `ty` at loop exit. The first argument is fuel. -/
def animateLoop {M : FloatOps} (speed : Nat) :
    Nat → Int → Int → Int → Int → State M → Option (Int × Int × State M)
  | 0, _, _, _, _, _ => none
  | n + 1, tx, ty, dx, dy, s =>
    if (tx.natAbs : Int) > speed ∨ (ty.natAbs : Int) > speed then
      match scrollwindows dx dy s with
      | none => none
      | some s1 =>
        let tx1 := tx - dx
        let ty1 := ty - dy
        let dx1 := if (tx1.natAbs : Int) < (speed : Int) + 1 then 0 else dx
        let dy1 := if (ty1.natAbs : Int) < (speed : Int) + 1 then 0 else dy
        animateLoop speed n tx1 ty1 dx1 dy1 s1
    else some (tx, ty, s)

/-- Fuel that is enough for the loop of `animate(tx, ty)`. -/
def animateFuel (tx ty : Int) : Nat := tx.natAbs + ty.natAbs + 3

/-- `animate(tx, ty)`. The loop runs on `animateFuel tx ty`, which is enough whenever the
focus pointer is valid (`animate_eq_panned`). -/
def animate {M : FloatOps} (cfg : Config M) (tx ty : Int) (s : State M) : Option (State M) :=
  if !cfg.animations then scrollwindows tx ty s
  else
    match animateLoop cfg.animatespeed (animateFuel tx ty) tx ty
        (animStep cfg.animatespeed tx) (animStep cfg.animatespeed ty) s with
    | none => none
    | some (tx1, ty1, s1) => scrollwindows tx1 ty1 s1

/-- `animatefocus`. -/
def animatefocus {M : FloatOps} (cfg : Config M) (s : State M) : Option (State M) :=
  if !cfg.animations then some s
  else match s.focused with
    | none => some s
    | some a =>
      if !cfg.scrolltofocused then some s
      else match lookup s.clients a with
        | none => none
        | some c =>
          if onscreen cfg c then some s
          else animate cfg (-c.x + cfg.tilegap)
            (-c.y + (if s.showbar then cfg.barheight else 0) + cfg.tilegap) s

/-- `zoomwindow` on one client. -/
def zoomwindow {M : FloatOps} (cfg : Config M) (factor : M.F) (x y : Int) (c : Client M) :
    Client M :=
  let w1 := M.mul c.w factor
  let h1 := M.mul c.h factor
  { c with
    w := if M.lt w1 cfg.zoom_min then cfg.zoom_min else w1
    h := if M.lt h1 cfg.zoom_min then cfg.zoom_min else h1
    x := M.toInt (M.add (M.mul (M.ofInt (c.x - x)) factor) (M.ofInt x))
    y := M.toInt (M.add (M.mul (M.ofInt (c.y - y)) factor) (M.ofInt y)) }

/-- The loop body of `zoom` for one client. -/
def zoom1 {M : FloatOps} (cfg : Config M) (stik : Int) (factor : M.F) (x y : Int)
    (c : Client M) : Client M :=
  if !(meets c.tags stik) then zoomwindow cfg factor x y c else c

/-- `zoom(clients, factor, x, y)`. -/
def zoom {M : FloatOps} (cfg : Config M) (factor : M.F) (x y : Int) (s : State M) :
    Option (State M) :=
  draw (checkpoint_update x y factor
    { s with clients := s.clients.map (zoom1 cfg s.tags_stik factor x y) })

/-- The assignment `checks->y = 0` at the end of `checkpoint_init`. -/
def setHeadY {M : FloatOps} : List (Checkpoint M) → List (Checkpoint M)
  | [] => []
  | cp :: l => { cp with y := 0 } :: l

/-- One round of the `for` loop of `checkpoint_init`: a zeroed checkpoint with zoom `1.0`,
key `48 + i` and `y = sh*(i-1)` is linked in front of the list. -/
def checkpoint_init1 {M : FloatOps} (sh : Int) (cs : List (Checkpoint M)) (i : Nat) :
    List (Checkpoint M) :=
  { x := 0, y := sh * ((i : Int) - 1), zoom := M.ofInt 1, key := Char.ofNat (48 + i) } :: cs

/-- `checkpoint_init`. -/
def checkpoint_init {M : FloatOps} (cfg : Config M) (s : State M) : State M :=
  { s with checks := setHeadY ((List.range 6).foldl (checkpoint_init1 cfg.sh) s.checks) }

/-- The search loop of `checkpoint_set`: the first checkpoint with the key is reset;
`none` when no checkpoint has the key. -/
def resetKey {M : FloatOps} (key : Char) : List (Checkpoint M) → Option (List (Checkpoint M))
  | [] => none
  | cp :: l =>
    if cp.key = key then some ({ cp with x := 0, y := 0, zoom := M.ofInt 1 } :: l)
    else match resetKey key l with
      | none => none
      | some l1 => some (cp :: l1)

/-- `checkpoint_set`, on the key that `checkpoint_helper` returns. -/
def checkpoint_set {M : FloatOps} (key : Char) (s : State M) : State M :=
  if key = '0' then s
  else match resetKey key s.checks with
    | some l => { s with checks := l }
    | none => { s with checks := { x := 0, y := 0, zoom := M.ofInt 1, key := key } :: s.checks }

/-- The first checkpoint of the list with the key (the `for` loop of `checkpoint`). -/
def findKey {M : FloatOps} (key : Char) : List (Checkpoint M) → Option (Checkpoint M)
  | [] => none
  | cp :: l => if cp.key = key then some cp else findKey key l

/-- The `while` loop of `checkpoint`: from the head, the first client that is on screen
or has a hidden tag. -/
def recallFocus {M : FloatOps} (cfg : Config M) (hide : Int) : List (Client M) → Option Nat
  | [] => none
  | c :: l => if !(onscreen cfg c || meets c.tags hide) then recallFocus cfg hide l
    else some c.addr

/-- `checkpoint` (recall), on the key that `checkpoint_helper` returns. The pointer `cp`
is read again after `animate`, which has changed the node it points to. -/
def checkpoint {M : FloatOps} (cfg : Config M) (key : Char) (s : State M) :
    Option (State M) :=
  match findKey key s.checks with
  | none => some s
  | some cp =>
    match animate cfg (-cp.x) (-cp.y) s with
    | none => none
    | some s1 =>
      match findKey key s1.checks with
      | none => none
      | some cp1 =>
        match zoom cfg (M.div (M.ofInt 1) cp1.zoom) 0 0 s1 with
        | none => none
        | some s2 =>
          match recallFocus cfg s2.tags_hide s2.clients with
          | some a => draw (focusclient s2 (some a))
          | none => draw { s2 with focused := s.focused }

/-- The search loops of `cycle` and `tag`: from the given node on, the first node that
satisfies `ok`, or `NULL`. -/
def seek {M : FloatOps} (ok : Client M → Bool) : List (Client M) → Option Nat
  | [] => none
  | c :: l => if ok c then some c.addr else seek ok l

/-- The value of `focused` after the mode-specific part of `cycle(arg)` with `arg[0] = a`
and `prev = p`; the outer `none` is a dereference of `NULL` or of a dangling pointer. -/
def cycleTarget {M : FloatOps} (cfg : Config M) (a : Char) (s : State M) (p : Nat) :
    Option (Option Nat) :=
  match nextOf s.clients p with
  | none => none
  | some rest =>
    if a = 'a' then
      match rest with
      | c :: _ => some (some c.addr)
      | [] => some (headAddr s.clients)
    else if a = 'v' then
      match seek (fun c => !(meets c.tags s.tags_hide)) rest with
      | some f => some (some f)
      | none =>
        match s.clients with
        | [] => some none
        | c :: l =>
          if meets c.tags s.tags_hide then
            match seek (fun c => !(meets c.tags s.tags_hide)) l with
            | some f => some (some f)
            | none => none
          else some (some c.addr)
    else if a = 's' then
      match seek (fun c => !(!(onscreen cfg c) || meets c.tags s.tags_hide)) rest with
      | some f => some (some f)
      | none =>
        match s.clients with
        | [] => some none
        | c :: l =>
          if !(onscreen cfg c) || meets c.tags s.tags_hide then
            some (seek (fun c => !(!(onscreen cfg c) || meets c.tags s.tags_hide)) l)
          else some (some c.addr)
    else if a = 't' then
      match lookup s.clients p with
      | none => none
      | some pc =>
        match seek (fun c => meets c.tags pc.tags) rest with
        | some f => some (some f)
        | none =>
          match s.clients with
          | [] => some none
          | c :: l =>
            if !(meets c.tags pc.tags) then some (seek (fun c => meets c.tags pc.tags) l)
            else some (some c.addr)
    else some (some p)

/-- `cycle(arg)`; the argument is `none` for `NULL`, else its first character. -/
def cycle {M : FloatOps} (cfg : Config M) (arg : Option Char) (s : State M) :
    Option (State M) :=
  match s.focused with
  | none => some s
  | some p =>
    match arg with
    | none => none
    | some a =>
      match cycleTarget cfg a s p with
      | none => none
      | some f =>
        match animatefocus cfg (focusclient s (some (f.getD p))) with
        | none => none
        | some s1 => draw s1

/-- The unlinking in `unmanage`: the list without the node at that address; `none` when
the node is not in the list (the `for` loop runs off the end). -/
def removeNode {M : FloatOps} : List (Client M) → Nat → Option (List (Client M))
  | [], _ => none
  | c :: l, a =>
    if c.addr = a then some l
    else match removeNode l a with
      | none => none
      | some l1 => some (c :: l1)

/-- `unmanage(c)` for the node at address `c`. -/
def unmanage {M : FloatOps} (cfg : Config M) (c : Nat) (s : State M) : Option (State M) :=
  match nextOf s.clients c with
  | none => none
  | some rest =>
    let s1 := if s.focused = some c then focusclient s (headAddr rest) else s
    match removeNode s1.clients c with
    | none => none
    | some l =>
      match s1.focused with
      | some _ => draw { s1 with clients := l }
      | none =>
        match headAddr l with
        | none => draw { s1 with clients := l }
        | some h =>
          match cycle cfg (some 's') { s1 with clients := l, focused := some h } with
          | none => none
          | some s2 => draw s2

/-- `wintoclient`: the first node with that window handle. -/
def wintoclient {M : FloatOps} : List (Client M) → Nat → Option (Client M)
  | [], _ => none
  | c :: l, w => if c.win = w then some c else wintoclient l w

/-- `maprequest`. `attrs_ok` is the result of the first `XGetWindowAttributes`,
`override` the flag `wa.override_redirect`, `ax ay aw ah` the geometry the second call
stores in `attr`, `newaddr` the result of `calloc` (`none` for `NULL`, on which the
program exits). -/
def maprequest {M : FloatOps} (cfg : Config M) (window : Nat) (attrs_ok override : Bool)
    (ax ay aw ah : Int) (newaddr : Option Nat) (s : State M) : Option (State M) :=
  if !attrs_ok then some s
  else if override then some s
  else match wintoclient s.clients window with
    | some _ => draw s
    | none =>
      match newaddr with
      | none => none
      | some a =>
        let top := (if s.topbar then cfg.barheight else 0) + cfg.tilegap
        let moved := decide (ay < top) && s.showbar
        let c : Client M :=
          { addr := a, win := window, tags := bit s.curtag,
            x := if moved then cfg.tilegap else ax,
            y := if moved then top else ay,
            w := M.ofInt aw, h := M.ofInt ah }
        draw (focusclient { s with clients := c :: s.clients } (some a))

/-- The macro `MAX(a, b)` on `int` arguments. -/
def cmax (a b : Int) : Int := if a > b then a else b

/-- The expression `(showbar && topbar ? barheight : 0)`. -/
def barTop {M : FloatOps} (cfg : Config M) (s : State M) : Int :=
  if s.showbar && s.topbar then cfg.barheight else 0

/-- The expression `(showbar ? barheight : 0)`. -/
def barBand {M : FloatOps} (cfg : Config M) (s : State M) : Int :=
  if s.showbar then cfg.barheight else 0

/-- `tile_one` on one client. -/
def tile_one {M : FloatOps} (cfg : Config M) (s : State M) (c : Client M) : Client M :=
  { c with
    x := cfg.tilegap
    y := barTop cfg s + cfg.tilegap
    w := M.ofInt (cfg.sw - 2 * (cfg.tilegap + cfg.borderwidth))
    h := M.ofInt (cfg.sh - barBand cfg s - 2 * (cfg.tilegap + cfg.borderwidth)) }

/-- The `while` loop of `tile_bstack`, with the loop counter `i`. -/
def tile_bstack_rest {M : FloatOps} (cfg : Config M) (s : State M) (w h : Int) :
    Int → List (Client M) → List (Client M)
  | _, [] => []
  | i, c :: l =>
    let x1 := cfg.tilegap + i * w
    let w1 := cmax (w - cfg.tilegap - 2 * cfg.borderwidth) cfg.win_min
    let w2 := if l.isEmpty then cmax (cfg.sw - x1 - cfg.tilegap - 2 * cfg.borderwidth) cfg.win_min
      else w1
    { c with
      x := x1
      y := barTop cfg s + h + 2 * (cfg.tilegap + cfg.borderwidth) + s.tilebias
      w := M.ofInt w2
      h := M.ofInt (h - s.tilebias) } :: tile_bstack_rest cfg s w h (i + 1) l

/-- `tile_bstack(clients, count)`. -/
def tile_bstack {M : FloatOps} (cfg : Config M) (s : State M) (count : Int) :
    List (Client M) → List (Client M)
  | [] => []
  | c :: l =>
    let w := Int.tdiv (cfg.sw - cfg.tilegap) (count - 1)
    let h := Int.tdiv (cfg.sh - barTop cfg s - cfg.tilegap) 2 - (cfg.tilegap + 2 * cfg.borderwidth)
    { c with
      x := cfg.tilegap
      y := barTop cfg s + cfg.tilegap
      w := M.ofInt (cfg.sw - 2 * (cfg.tilegap + cfg.borderwidth))
      h := M.ofInt (h + s.tilebias) } :: tile_bstack_rest cfg s w h 0 l

/-- `tile_flow(clients, count)`, with the counter `x` of the loop. -/
def tile_flow {M : FloatOps} (cfg : Config M) (s : State M) :
    Int → List (Client M) → List (Client M)
  | _, [] => []
  | i, c :: l =>
    { c with
      x := cfg.tilegap + cfg.sw * i
      y := barTop cfg s + cfg.tilegap
      w := M.ofInt (cfg.sw - 2 * (cfg.tilegap + cfg.borderwidth))
      h := M.ofInt (cfg.sh - barBand cfg s - 2 * (cfg.tilegap + cfg.borderwidth)) }
      :: tile_flow cfg s (i + 1) l

/-- The `while` loop of `tile_rstack`, with the loop counter `i`. -/
def tile_rstack_rest {M : FloatOps} (cfg : Config M) (s : State M) (w h : Int) :
    Int → List (Client M) → List (Client M)
  | _, [] => []
  | i, c :: l =>
    let y1 := barTop cfg s + cfg.tilegap + i * h
    let h1 := cmax (h - cfg.tilegap - 2 * cfg.borderwidth) cfg.win_min
    let h2 := if l.isEmpty then
        cmax (cfg.sh - (if s.topbar then 0 else cfg.barheight) - y1 - cfg.tilegap
          - 2 * cfg.borderwidth) cfg.win_min
      else h1
    { c with
      x := w + 2 * (cfg.tilegap + cfg.borderwidth) + s.tilebias
      y := y1
      w := M.ofInt (w - s.tilebias)
      h := M.ofInt h2 } :: tile_rstack_rest cfg s w h (i + 1) l

/-- `tile_rstack(clients, count)`. -/
def tile_rstack {M : FloatOps} (cfg : Config M) (s : State M) (count : Int) :
    List (Client M) → List (Client M)
  | [] => []
  | c :: l =>
    let w := Int.tdiv (cfg.sw - cfg.tilegap) 2 - (cfg.tilegap + 2 * cfg.borderwidth)
    let h := Int.tdiv (cfg.sh - barTop cfg s - cfg.tilegap) (count - 1)
    { c with
      x := cfg.tilegap
      y := barTop cfg s + cfg.tilegap
      w := M.ofInt (w + s.tilebias)
      h := M.ofInt (cfg.sh - barBand cfg s - 2 * (cfg.tilegap + cfg.borderwidth)) }
      :: tile_rstack_rest cfg s w h 0 l

/-- The `while` loop of `tile_ttwm`. -/
def tile_ttwm_rest {M : FloatOps} (cfg : Config M) (s : State M) (w : Int) :
    List (Client M) → List (Client M)
  | [] => []
  | c :: l =>
    { c with
      x := w + 2 * (cfg.tilegap + cfg.borderwidth) + s.tilebias
      y := barTop cfg s + cfg.tilegap
      w := M.ofInt (w - s.tilebias)
      h := M.ofInt (cfg.sh - barBand cfg s - 2 * (cfg.tilegap + cfg.borderwidth)) }
      :: tile_ttwm_rest cfg s w l

/-- `tile_ttwm(clients, count)`; it is only called with at least two clients, so that
`stack->next->win` is a valid read. -/
def tile_ttwm {M : FloatOps} (cfg : Config M) (s : State M) :
    List (Client M) → List (Client M)
  | [] => []
  | c :: l =>
    let w := Int.tdiv (cfg.sw - cfg.tilegap) 2 - (cfg.tilegap + 2 * cfg.borderwidth)
    { c with
      x := cfg.tilegap
      y := barTop cfg s + cfg.tilegap
      w := M.ofInt (w + s.tilebias)
      h := M.ofInt (cfg.sh - barBand cfg s - 2 * (cfg.tilegap + cfg.borderwidth)) }
      :: tile_ttwm_rest cfg s w l

/-- `tile(arg)`; the argument is `none` for `NULL`, else its first character. -/
def tile {M : FloatOps} (cfg : Config M) (arg : Option Char) (s : State M) :
    Option (State M) :=
  match s.clients with
  | [] => some s
  | [c] => some { s with clients := [tile_one cfg s c] }
  | c :: d :: l =>
    match arg with
    | none => none
    | some a =>
      let n : Int := ((c :: d :: l).length : Int)
      if a = 't' then draw { s with clients := tile_ttwm cfg s (c :: d :: l) }
      else if a = 'r' then draw { s with clients := tile_rstack cfg s n (c :: d :: l) }
      else if a = 'b' then draw { s with clients := tile_bstack cfg s n (c :: d :: l) }
      else if a = 'f' then draw { s with clients := tile_flow cfg s 0 (c :: d :: l) }
      else if a = 'i' then draw { s with tilebias := s.tilebias + 2 }
      else if a = 'd' then draw { s with tilebias := s.tilebias - 2 }
      else draw s

/-- `cycle_tile`: `tile_modes[n]` is `NULL` exactly at `n = tile_modes.length`; a read
beyond the terminator is outside the array. -/
def cycle_tile {M : FloatOps} (cfg : Config M) (s : State M) : Option (State M) :=
  let n := s.ntilemode + 1
  if n < cfg.tile_modes.length then
    tile cfg cfg.tile_modes[n]? { s with ntilemode := n }
  else if n = cfg.tile_modes.length then
    tile cfg cfg.tile_modes[0]? { s with ntilemode := 0 }
  else none

/-- `monocle`. -/
def monocle {M : FloatOps} (cfg : Config M) (s : State M) : Option (State M) :=
  match s.focused with
  | none => draw s
  | some a =>
    match modify (tile_one cfg s) s.clients a with
    | none => none
    | some l => draw { s with clients := l }

/-- `tag(arg)`: `curtag = arg[0] - 49`; a negative value makes `1<<curtag` undefined. -/
def tag {M : FloatOps} (arg : Option Char) (s : State M) : Option (State M) :=
  match arg with
  | none => none
  | some a =>
    if a.toNat < 49 then none
    else
      let k := a.toNat - 49
      let s1 := { s with curtag := k, tags_urg := Int.land s.tags_urg (Int.lnot (bit k)) }
      match s1.clients with
      | [] => draw s1
      | _ :: _ =>
        match s1.focused with
        | none => none
        | some f =>
          match lookup s1.clients f with
          | none => none
          | some fc =>
            match seek (fun c => meets c.tags (bit k)) s1.clients with
            | none => draw s1
            | some t => if !(meets fc.tags (bit k)) then draw (focusclient s1 (some t))
              else draw s1

/-- One round of the `for` loop of the isolate operation of `tagconfig`. -/
def isolate1 (curtag : Nat) (hide : Int) (i : Nat) : Int :=
  if i ≠ curtag then Int.lor hide (bit i) else Int.land hide (Int.lnot (bit i))

/-- `tagconfig(arg)`. -/
def tagconfig {M : FloatOps} (cfg : Config M) (arg : Option Char) (s : State M) :
    Option (State M) :=
  match arg with
  | none => none
  | some a =>
    if a = 'h' then draw { s with tags_hide := Int.lor s.tags_hide (bit s.curtag) }
    else if a = 's' then draw { s with tags_stik := Int.lor s.tags_stik (bit s.curtag) }
    else if a = 'n' then
      draw { s with
        tags_stik := Int.land s.tags_stik (Int.lnot (bit s.curtag))
        tags_hide := Int.land s.tags_hide (Int.lnot (bit s.curtag)) }
    else if a = 't' then draw { s with showbar := !s.showbar }
    else if a = 'm' then draw { s with topbar := !s.topbar }
    else if a = 'o' then
      draw { s with tags_hide := (List.range cfg.ntags).foldl (isolate1 s.curtag) s.tags_hide }
    else draw s

/-- `toggletag(arg)`. -/
def toggletag {M : FloatOps} (arg : Option Char) (s : State M) : Option (State M) :=
  match s.focused with
  | none => some s
  | some f =>
    match arg with
    | none => none
    | some a =>
      if a.toNat < 49 then none
      else
        match modify (fun c => { c with tags := Int.xor c.tags (bit (a.toNat - 49)) })
            s.clients f with
        | none => none
        | some l => draw { s with clients := l }

/-- The branch `'z'` of `window`, on the focused client. -/
def window_z {M : FloatOps} (cfg : Config M) (s : State M) (c : Client M) : Client M :=
  { c with
    x := -2
    w := M.ofInt cfg.sw
    y := if s.showbar && s.topbar then cfg.barheight - 2 else -2
    h := M.ofInt (if s.showbar then cfg.sh - cfg.barheight else cfg.sh + 4) }

/-- `window(arg)`. -/
def window {M : FloatOps} (cfg : Config M) (arg : Option Char) (s : State M) :
    Option (State M) :=
  match arg with
  | none => none
  | some a =>
    if a = 'm' then some { s with mousemode := MouseMode.MWMove }
    else if a = 'r' then some { s with mousemode := MouseMode.MWResize }
    else if a = 'g' ∨ a = 's' ∨ a = 'z' then
      match s.focused with
      | none => none
      | some f =>
        let g : Client M → Client M :=
          if a = 'g' then zoomwindow cfg M.lit_1_1 s.start_x s.start_y
          else if a = 's' then zoomwindow cfg M.lit_0_92 s.start_x s.start_y
          else window_z cfg s
        match modify g s.clients f with
        | none => none
        | some l => some { s with clients := l }
    else some s

/-- `desktop(arg)`. -/
def desktop {M : FloatOps} (cfg : Config M) (arg : Option Char) (s : State M) :
    Option (State M) :=
  match arg with
  | none => none
  | some a =>
    if a = 'm' then some { s with mousemode := MouseMode.MDMove }
    else if a = 'r' then some { s with mousemode := MouseMode.MDResize }
    else if a = 'g' then zoom cfg M.lit_1_1 s.start_x s.start_y s
    else if a = 's' then zoom cfg M.lit_0_92 s.start_x s.start_y s
    else some s

/-- `killclient`: it reads `focused->win` and sends a message, the globals stay. -/
def killclient {M : FloatOps} (s : State M) : Option (State M) :=
  match s.focused with
  | none => some s
  | some f =>
    match lookup s.clients f with
    | none => none
    | some _ => some s

/-- A configuration over exact rational arithmetic: a 1024x768 screen, a bar of height
16, animation in steps of 21, a minimum zoom size of 40 and five tags. -/
def cfgA : Config ratFloat :=
  { sw := 1024, sh := 768, barheight := 16, animations := true, animatespeed := 20,
    scrolltofocused := true, focusfollowmouse := true, tilegap := 4, borderwidth := 1,
    win_min := 20, zoom_min := (40 : ℚ), ntags := 5, tile_modes := ['t', 'r', 'b', 'f'],
    keys := [], buttons := [] }

/-- A client of size 300x200 at (100, 100). -/
def clientAt (addr : Nat) (tags : Int) : Client ratFloat :=
  { addr := addr, x := 100, y := 100, w := (300 : ℚ), h := (200 : ℚ), tags := tags, win := addr }

/-- The globals at start-up, before `checkpoint_init`, with the given registry and focus. -/
def stateOf (clients : List (Client ratFloat)) (focused : Option Nat) : State ratFloat :=
  { clients := clients, focused := focused, checks := [], tags_stik := 0, tags_hide := 0,
    tags_urg := 0, curtag := 0, ntilemode := 0, mousemode := MouseMode.MOff, start_x := 0,
    start_y := 0, showbar := true, topbar := true, tilebias := 0, running := true }

/-- A registry of two clients with a checkpoint store as `checkpoint_init` leaves it;
the first client is focused. -/
def stateA : State ratFloat :=
  checkpoint_init cfgA (stateOf [clientAt 1 1, clientAt 2 2] (some 1))

/-- A call that pans or zooms the canvas: `scrollwindows(clients, dx, dy)`,
`animate(tx, ty)` or `zoom(clients, factor, px, py)`. -/
inductive CanvasOp (M : FloatOps) where
  | scroll (dx dy : Int)
  | animate (tx ty : Int)
  | zoom (factor : M.F) (px py : Int)

/-- The effect of one canvas call. -/
def applyOp {M : FloatOps} (cfg : Config M) (op : CanvasOp M) (s : State M) :
    Option (State M) :=
  match op with
  | CanvasOp.scroll dx dy => scrollwindows dx dy s
  | CanvasOp.animate tx ty => animate cfg tx ty s
  | CanvasOp.zoom f px py => zoom cfg f px py s

/-- A sequence of canvas calls, one after the other. -/
def runOps {M : FloatOps} (cfg : Config M) : List (CanvasOp M) → State M → Option (State M)
  | [], s => some s
  | op :: ops, s =>
    match applyOp cfg op s with
    | none => none
    | some s1 => runOps cfg ops s1

/-- A canvas call that is a pan (`scrollwindows` or `animate`). -/
def CanvasOp.isPan {M : FloatOps} : CanvasOp M → Bool
  | CanvasOp.zoom _ _ _ => false
  | _ => true

/-- The addresses of the nodes of the registry, in traversal order. -/
def addrs {M : FloatOps} (l : List (Client M)) : List Nat := l.map Client.addr

/-- The pointer `focused` is `NULL` or points to a node of the registry. -/
def FocusOK {M : FloatOps} (s : State M) : Prop :=
  ∀ a, s.focused = some a → a ∈ addrs s.clients

/-- The state after a pan by `(X, Y)` in all: the non-sticky clients and all checkpoints
are shifted, and `draw` has left `u` in `tags_urg`. -/
def panned {M : FloatOps} (s : State M) (X Y : Int) (u : Int) : State M :=
  { s with
    clients := s.clients.map (scroll1 s.tags_stik X Y)
    checks := s.checks.map (fun cp => { cp with x := cp.x + X, y := cp.y + Y })
    tags_urg := u }

/-- What the loop of `animate` maintains for one axis: the step is zero and the rest is
within one step, or the step has the sign of the rest. -/
def AxisInv (speed : Nat) (t d : Int) : Prop :=
  (d = 0 ∧ (t.natAbs : Int) ≤ speed) ∨ (0 < t ∧ d = (speed : Int) + 1) ∨
    (t < 0 ∧ d = -((speed : Int) + 1))

/-- The number of rounds one axis can still ask for. -/
def axisFuel (t d : Int) : Nat := if d = 0 then 0 else t.natAbs + 1

/-- What a recall after pans makes of a client as it was when the checkpoint was set:
a sticky client is as it was, any other client has its position and its size back,
except that a width or height below `zoom_min` has become `zoom_min`. -/
def recalled {M : FloatOps} (cfg : Config M) (stik : Int) (c : Client M) : Client M :=
  if meets c.tags stik then c
  else { c with
    w := if M.lt c.w cfg.zoom_min then cfg.zoom_min else c.w
    h := if M.lt c.h cfg.zoom_min then cfg.zoom_min else c.h }

/-- A registry with one client of width 10, below the minimum zoom size 40 of `cfgA`. -/
def stateSmall : State ratFloat :=
  checkpoint_init cfgA (stateOf [{ clientAt 1 1 with w := (10 : ℚ) }] (some 1))

/-- A store in which the checkpoints `'1'` and `'0'` have non-zero offsets and zooms
other than 1. -/
def stateChecks : State ratFloat :=
  { stateOf [clientAt 1 1] (some 1) with
    checks := [{ x := 3, y := 4, zoom := (2 : ℚ), key := '2' },
               { x := 7, y := -9, zoom := (3 : ℚ), key := '1' },
               { x := 5, y := 6, zoom := (1 / 2 : ℚ), key := '0' }] }

/-- The registry of the scenario for same-tags cycling: traversal order C, B, A with
A in tag 1, B in tags 1 and 2, C in tag 2 (addresses 3, 2, 1); A is focused. -/
def stateCBA : State ratFloat :=
  stateOf [clientAt 3 2, clientAt 2 3, clientAt 1 1] (some 1)

/-- One client, focused, whose only tag is hidden. -/
def stateHidden : State ratFloat :=
  { stateOf [clientAt 1 1] (some 1) with tags_hide := 1 }

instance instDecFocusOK {M : FloatOps} (s : State M) : Decidable (FocusOK s) :=
  match h : s.focused with
  | none => isTrue (by intro a ha; rw [h] at ha; cases ha)
  | some b =>
    if hb : b ∈ addrs s.clients then isTrue (by intro a ha; rw [h] at ha; cases ha; exact hb)
    else isFalse (fun hf => hb (hf b h))

/-- Two clients: the first in tag 2, which is hidden, off screen at x = 1500; the second
in tag 1, on screen and focused. The store is the one `checkpoint_init` leaves. -/
def stateRecall : State ratFloat :=
  checkpoint_init cfgA
    { stateOf [{ clientAt 1 2 with x := 1500 }, clientAt 2 1] (some 2) with tags_hide := 2 }

/-- The top edge of the usable area: below the bar when the bar is shown at the top. -/
def usableTop {M : FloatOps} (cfg : Config M) (s : State M) : Int :=
  if s.showbar && s.topbar then cfg.barheight else 0

/-- The bottom edge of the usable area: above the bar when the bar is shown at the
bottom. -/
def usableBottom {M : FloatOps} (cfg : Config M) (s : State M) : Int :=
  if s.showbar && !s.topbar then cfg.sh - cfg.barheight else cfg.sh

/-- The configuration `cfgA` on a screen of odd width 1025. -/
def cfgOdd : Config ratFloat := { cfgA with sw := 1025 }

/-- Three clients, the first focused, bias 0. -/
def stateThree : State ratFloat :=
  stateOf [clientAt 1 1, clientAt 2 1, clientAt 3 1] (some 1)

/-- The window handles of the registry, in traversal order. -/
def wins {M : FloatOps} (l : List (Client M)) : List Nat := l.map Client.win

/-- The value `draw` leaves in `tags_urg`: the bits of the focused client's tags and of
the current tag are cleared. -/
def drawUrg {M : FloatOps} (s : State M) : Int :=
  match s.focused with
  | none => Int.land s.tags_urg (Int.lnot (bit s.curtag))
  | some a =>
    match lookup s.clients a with
    | none => s.tags_urg
    | some c => Int.land (Int.land s.tags_urg (Int.lnot c.tags)) (Int.lnot (bit s.curtag))

/-- A call that reads or writes the checkpoint store: `checkpoint_set` on a key,
`checkpoint_update(x, y, zoom)`, or the recall `checkpoint` on a key. -/
inductive StoreOp (M : FloatOps) where
  | checkpoint_set (key : Char)
  | checkpoint_update (x y : Int) (zoom : M.F)
  | checkpoint (key : Char)

/-- The effect of one store call. -/
def applyStoreOp {M : FloatOps} (cfg : Config M) (op : StoreOp M) (s : State M) :
    Option (State M) :=
  match op with
  | StoreOp.checkpoint_set k => some (checkpoint_set k s)
  | StoreOp.checkpoint_update x y z => some (checkpoint_update x y z s)
  | StoreOp.checkpoint k => checkpoint cfg k s

/-- A sequence of store calls, one after the other. -/
def runStoreOps {M : FloatOps} (cfg : Config M) :
    List (StoreOp M) → State M → Option (State M)
  | [], s => some s
  | op :: ops, s =>
    match applyStoreOp cfg op s with
    | none => none
    | some s1 => runStoreOps cfg ops s1

/-- The keys of the checkpoint store, in list order. -/
def keys {M : FloatOps} (l : List (Checkpoint M)) : List Char := l.map Checkpoint.key

/-- What `checkpoint_update(0, 0, f)` makes of an offset coordinate 0 when `f` is not 1:
the `float` expression `(0 - 0)*f + 0`, converted to `int`. In IEEE arithmetic it is 0
for every finite `f`. -/
def zeroScaled (M : FloatOps) (f : M.F) : Int :=
  M.toInt (M.add (M.mul (M.ofInt (0 - 0)) f) (M.ofInt 0))

/-- Rational arithmetic with one more value, `none`, that stands for the results that are
not finite (an infinity or a NaN): a division by zero gives it, every operation on it
gives it, every `<` with it is false and it differs from every number. Its conversion to
`int`, which C leaves undefined, gives `INT_MIN`, the value the x86 conversion
instruction delivers. -/
def extFloat : FloatOps where
  F := Option ℚ
  deq := inferInstance
  ofInt n := some (n : ℚ)
  toInt a :=
    match a with
    | some q => Int.tdiv q.num (q.den : Int)
    | none => -2147483648
  add a b :=
    match a, b with
    | some x, some y => some (x + y)
    | _, _ => none
  mul a b :=
    match a, b with
    | some x, some y => some (x * y)
    | _, _ => none
  div a b :=
    match a, b with
    | some x, some y => if y = 0 then none else some (x / y)
    | _, _ => none
  lt a b :=
    match a, b with
    | some x, some y => decide (x < y)
    | _, _ => false
  lit_1_1 := some (11 / 10)
  lit_0_92 := some (23 / 25)

/-- The configuration `cfgA` over `extFloat`. -/
def cfgE : Config extFloat :=
  { sw := 1024, sh := 768, barheight := 16, animations := true, animatespeed := 20,
    scrolltofocused := true, focusfollowmouse := true, tilegap := 4, borderwidth := 1,
    win_min := 20, zoom_min := some (40 : ℚ), ntags := 5, tile_modes := ['t', 'r', 'b', 'f'],
    keys := [], buttons := [] }

/-- An empty registry and a store whose only checkpoint, `'1'`, has the offset (3, 4)
and the zoom 0. -/
def stateZeroZoom : State extFloat :=
  { clients := [], focused := none,
    checks := [{ x := 3, y := 4, zoom := some (0 : ℚ), key := '1' }],
    tags_stik := 0, tags_hide := 0, tags_urg := 0, curtag := 0, ntilemode := 0,
    mousemode := MouseMode.MOff, start_x := 0, start_y := 0, showbar := true,
    topbar := true, tilebias := 0, running := true }

/-- The constant `max_status_line`. -/
def max_status_line : Nat := 512

/-- The characters that `fgets` stores when it may store at most `k` of them, and what
stays on the pipe: reading stops after the first newline, after `k` characters or at the
end of the input. -/
def fgetsChars : Nat → List Char → List Char × List Char
  | 0, rest => ([], rest)
  | _ + 1, [] => ([], [])
  | k + 1, c :: rest =>
    if c = '\n' then ([c], rest)
    else (c :: (fgetsChars k rest).1, (fgetsChars k rest).2)

/-- `fgets(line, n, inpipe)` for the characters `input` still to come on the pipe (none
of them NUL): the content of `line` before its terminating NUL and the rest of the pipe;
`none` is the `NULL` returned at end of file. -/
def fgets (n : Nat) (input : List Char) : Option (List Char × List Char) :=
  if input = [] then none else some (fgetsChars (n - 1) input)

/-- `strchr(c, ch) - c` for a string given by its characters before the terminating NUL
and a character `ch` other than NUL; `none` is `NULL`. -/
def strchr : List Char → Char → Option Nat
  | [], _ => none
  | d :: l, ch => if d = ch then some 0 else (strchr l ch).map (fun i => i + 1)

/-- What `status` writes besides the globals of `State`: the global `statuswidth`, the
name of the foreground colour set last (`none` is `colors[Default]`) and the calls of
`XDrawString` on the pixmap `sbar`, each with its x position, its colour and its text. -/
structure StatusBar where
  statuswidth : Int
  colour : Option (List Char)
  drawn : List (Int × Option (List Char) × List Char)
deriving DecidableEq

/-- The outcome of one test of the loop condition of `status` and, when it holds, one
round of the loop: the loop has ended, or the round has left new values of `c` and of
the bar, or `strchr(c,'}')` was `NULL` and the round has left `c = NULL + 1`, which the
next test dereferences. -/
inductive Scan where
  | exit (b : StatusBar)
  | next (c : List Char) (b : StatusBar)
  | fault
deriving DecidableEq

/-- One test and one round of the `while` loop of `status`; the pointer `c` is given by
the characters from `*c` up to the terminating NUL, `textwidth` is `XTextWidth` for the
font of the bar. -/
def statusStep (textwidth : List Char → Int) (c : List Char) (b : StatusBar) : Scan :=
  if c.head? = some '\n' then Scan.exit b
  else if c.head? = some '\x7b' then
    let c1 := c.tail
    let b1 := if c1.head? = some '#' then { b with colour := some (c1.take 7) } else b
    match strchr c1 '\x7d' with
    | none => Scan.fault
    | some i => Scan.next (c1.drop (i + 1)) b1
  else
    let t := match strchr c '\x7b' with
      | some i => some i
      | none => strchr c '\n'
    let l := match t with
      | none => 0
      | some i => i
    let b1 := if l ≠ 0 then
        { b with
          drawn := b.drawn ++ [(b.statuswidth, b.colour, c.take l)]
          statuswidth := b.statuswidth + textwidth (c.take l) }
      else b
    Scan.next (c.drop l) b1

/-- The `while` loop of `status`; the first argument is fuel, `none` is a fault or the
end of the fuel. -/
def statusLoop (textwidth : List Char → Int) : Nat → List Char → StatusBar → Option StatusBar
  | 0, _, _ => none
  | n + 1, c, b =>
    match statusStep textwidth c b with
    | Scan.exit b1 => some b1
    | Scan.fault => none
    | Scan.next c1 b1 => statusLoop textwidth n c1 b1

/-- `status(msg)`, for the characters of `msg` before its terminating NUL. The loop runs
on the fuel `msg.length + 1`, which is enough whenever it ends at all
(`statusLoop_fuel`). -/
def status {M : FloatOps} (textwidth : List Char → Int) (msg : List Char) (s : State M) :
    Option (StatusBar × State M) :=
  match statusLoop textwidth (msg.length + 1) msg
      { statuswidth := 0, colour := none, drawn := [] } with
  | none => none
  | some b =>
    match draw s with
    | none => none
    | some s1 => some (b, s1)

/-- Every opening brace of the line has a closing brace after it. -/
def closedBraces : List Char → Prop
  | [] => True
  | c :: l => (c = '\x7b' → '\x7d' ∈ l) ∧ closedBraces l

/-- A line of 600 letters and its newline, longer than `max_status_line`. -/
def longLine : List Char := List.replicate 600 'a' ++ ['\n']

/-- A width of 6 pixels for every character. -/
def width6 (t : List Char) : Int := 6 * (t.length : Int)

/-- The standard model of rounded `float` arithmetic (IEEE single precision, rounding to
nearest, gradual underflow). `val a` is the number that a finite `a` stands for, `none`
for an infinity or a NaN. An integer of magnitude at most `2^24` is represented exactly.
A product, sum or quotient of finite values whose exact result `e` has magnitude at most
`2^100` is finite and differs from `e` by at most `|e|/2^24 + 1/2^149`. The conversion
of a finite value below `2^31` in magnitude to `int` truncates towards zero, `<` compares
the values, and the constant `.92` is within `1/2^24` of 23/25. -/
structure FloatRound (M : FloatOps) where
  val : M.F → Option ℚ
  ofInt_val : ∀ n : Int, |n| ≤ 2 ^ 24 → val (M.ofInt n) = some (n : ℚ)
  mul_val : ∀ (a b : M.F) (x y : ℚ), val a = some x → val b = some y →
    |x * y| ≤ 2 ^ 100 →
    ∃ z, val (M.mul a b) = some z ∧ |z - x * y| ≤ |x * y| / 2 ^ 24 + 1 / 2 ^ 149
  add_val : ∀ (a b : M.F) (x y : ℚ), val a = some x → val b = some y →
    |x + y| ≤ 2 ^ 100 →
    ∃ z, val (M.add a b) = some z ∧ |z - (x + y)| ≤ |x + y| / 2 ^ 24 + 1 / 2 ^ 149
  div_val : ∀ (a b : M.F) (x y : ℚ), val a = some x → val b = some y → y ≠ 0 →
    |x / y| ≤ 2 ^ 100 →
    ∃ z, val (M.div a b) = some z ∧ |z - x / y| ≤ |x / y| / 2 ^ 24 + 1 / 2 ^ 149
  toInt_val : ∀ (a : M.F) (x : ℚ), val a = some x → |x| < 2 ^ 31 →
    M.toInt a = Int.tdiv x.num (x.den : Int)
  lt_val : ∀ (a b : M.F) (x y : ℚ), val a = some x → val b = some y →
    M.lt a b = decide (x < y)
  lit_0_92_val : ∃ a, val M.lit_0_92 = some a ∧ |a - 23 / 25| ≤ 1 / 2 ^ 24

/-- Exact rational arithmetic satisfies the rounding model, with no error at all. -/
def ratRound : FloatRound ratFloat where
  val q := some q
  ofInt_val _ _ := rfl
  mul_val a b x y ha hb _ := by
    refine ⟨x * y, ?_, ?_⟩
    · cases ha; cases hb; rfl
    · rw [sub_self, abs_zero]
      exact add_nonneg (div_nonneg (abs_nonneg _) (pow_nonneg (by norm_num) _))
        (div_nonneg zero_le_one (pow_nonneg (by norm_num) _))
  add_val a b x y ha hb _ := by
    refine ⟨x + y, ?_, ?_⟩
    · cases ha; cases hb; rfl
    · rw [sub_self, abs_zero]
      exact add_nonneg (div_nonneg (abs_nonneg _) (pow_nonneg (by norm_num) _))
        (div_nonneg zero_le_one (pow_nonneg (by norm_num) _))
  div_val a b x y ha hb _ _ := by
    refine ⟨x / y, ?_, ?_⟩
    · cases ha; cases hb; rfl
    · rw [sub_self, abs_zero]
      exact add_nonneg (div_nonneg (abs_nonneg _) (pow_nonneg (by norm_num) _))
        (div_nonneg zero_le_one (pow_nonneg (by norm_num) _))
  toInt_val a x ha _ := by
    cases ha
    rfl
  lt_val a b x y ha hb := by
    cases ha; cases hb
    rfl
  lit_0_92_val := ⟨23 / 25, rfl, by norm_num⟩

/-! ## Basic facts about the list primitives -/

theorem lookup_isSome_of_mem {M : FloatOps} (l : List (Client M)) (a : Nat)
    (h : a ∈ addrs l) : ∃ c, lookup l a = some c ∧ c ∈ l ∧ c.addr = a := by
  induction l with
  | nil => simp [addrs] at h
  | cons c l ih =>
    by_cases hc : c.addr = a
    · exact ⟨c, by simp [lookup, hc], by simp, hc⟩
    · have h1 : a ∈ addrs l := by
        simp only [addrs, List.map_cons, List.mem_cons] at h
        rcases h with h | h
        · exact absurd h.symm hc
        · exact h
      obtain ⟨d, hd, hm, ha⟩ := ih h1
      exact ⟨d, by simp [lookup, hc, hd], by simp [hm], ha⟩

theorem lookup_some {M : FloatOps} (l : List (Client M)) (a : Nat) (c : Client M)
    (h : lookup l a = some c) : c ∈ l ∧ c.addr = a := by
  induction l with
  | nil => simp [lookup] at h
  | cons d l ih =>
    by_cases hd : d.addr = a
    · simp [lookup, hd] at h
      subst h
      exact ⟨by simp, hd⟩
    · simp [lookup, hd] at h
      exact ⟨by simp [(ih h).1], (ih h).2⟩

theorem addrs_map {M : FloatOps} (f : Client M → Client M) (hf : ∀ c, (f c).addr = c.addr)
    (l : List (Client M)) : addrs (l.map f) = addrs l := by
  induction l with
  | nil => rfl
  | cons c l ih =>
    simp only [addrs, List.map_cons, List.cons.injEq] at ih ⊢
    exact ⟨hf c, ih⟩

theorem draw_of_focusOK {M : FloatOps} (s : State M) (h : FocusOK s) :
    ∃ u, draw s = some { s with tags_urg := u } := by
  unfold draw
  cases hf : s.focused with
  | none => exact ⟨_, rfl⟩
  | some a =>
    obtain ⟨c, hc, -, -⟩ := lookup_isSome_of_mem s.clients a (h a hf)
    simp only [hc]
    exact ⟨_, rfl⟩

theorem draw_frame {M : FloatOps} (s t : State M) (h : draw s = some t) :
    t = { s with tags_urg := t.tags_urg } := by
  unfold draw at h
  cases hf : s.focused with
  | none =>
    simp only [hf, Option.some.injEq] at h
    subst h
    rfl
  | some a =>
    simp only [hf] at h
    cases hl : lookup s.clients a with
    | none => simp [hl] at h
    | some c =>
      simp only [hl, Option.some.injEq] at h
      subst h
      rfl

theorem scroll1_addr {M : FloatOps} (stik x y : Int) (c : Client M) :
    (scroll1 stik x y c).addr = c.addr := by
  unfold scroll1
  split <;> rfl

theorem scroll1_inverse {M : FloatOps} (stik x y : Int) (c : Client M) :
    scroll1 stik (-x) (-y) (scroll1 stik x y c) = c := by
  unfold scroll1
  by_cases h : meets c.tags stik = true
  · simp [h]
  · simp only [h, Bool.not_false, if_true]
    cases c
    simp

theorem checkpoint_update1_pan {M : FloatOps} (x y : Int) (cp : Checkpoint M) :
    checkpoint_update1 x y (M.ofInt 1) cp = { cp with x := cp.x + x, y := cp.y + y } := by
  simp [checkpoint_update1]

theorem scrollwindows_of_focusOK {M : FloatOps} (x y : Int) (s : State M) (h : FocusOK s) :
    ∃ u, scrollwindows x y s = some
      { s with
        clients := s.clients.map (scroll1 s.tags_stik x y)
        checks := s.checks.map (fun cp => { cp with x := cp.x + x, y := cp.y + y })
        tags_urg := u } := by
  have hok : FocusOK (checkpoint_update x y (M.ofInt 1)
      { s with clients := s.clients.map (scroll1 s.tags_stik x y) }) := by
    intro a ha
    have := h a ha
    simpa [checkpoint_update, addrs_map _ (scroll1_addr s.tags_stik x y)] using this
  obtain ⟨u, hu⟩ := draw_of_focusOK _ hok
  refine ⟨u, ?_⟩
  unfold scrollwindows
  rw [hu]
  simp only [checkpoint_update]
  congr 2
  apply List.map_congr_left
  intro cp _
  exact checkpoint_update1_pan x y cp

/-! ## C1: a pan followed by the opposite pan -/

/-- C1: in a state whose focus pointer is valid, `scrollwindows(clients, dx, dy)` and
then `scrollwindows(clients, -dx, -dy)` both return, and afterwards the registry (every
client, hence every client's `x` and `y`) and the checkpoint store (every offset) are
exactly what they were before the first call. -/
theorem scrollwindows_inverse {M : FloatOps} (s : State M) (dx dy : Int) (h : FocusOK s) :
    ∃ s1 s2, scrollwindows dx dy s = some s1 ∧ scrollwindows (-dx) (-dy) s1 = some s2 ∧
      s2.clients = s.clients ∧ s2.checks = s.checks := by
  obtain ⟨u, hu⟩ := scrollwindows_of_focusOK dx dy s h
  have hok : FocusOK { s with
        clients := s.clients.map (scroll1 s.tags_stik dx dy)
        checks := s.checks.map (fun cp => { cp with x := cp.x + dx, y := cp.y + dy })
        tags_urg := u } := by
    intro a ha
    have := h a ha
    simpa [addrs_map _ (scroll1_addr s.tags_stik dx dy)] using this
  obtain ⟨v, hv⟩ := scrollwindows_of_focusOK (-dx) (-dy) _ hok
  refine ⟨_, _, hu, hv, ?_, ?_⟩
  · simp only [List.map_map]
    conv_rhs => rw [← List.map_id s.clients]
    apply List.map_congr_left
    intro c _
    exact scroll1_inverse s.tags_stik dx dy c
  · simp only [List.map_map]
    conv_rhs => rw [← List.map_id s.checks]
    apply List.map_congr_left
    intro cp _
    cases cp
    simp

/-- The first pan moves the first client of `stateA` from (100, 100) to (105, 97); the
second pan moves it back. -/
theorem scrollwindows_inverse_witness :
    ∃ s1 s2, scrollwindows 5 (-3) stateA = some s1 ∧
      scrollwindows (-5) (-(-3)) s1 = some s2 ∧
      s2.clients = stateA.clients ∧ s2.checks = stateA.checks :=
  scrollwindows_inverse stateA 5 (-3) (by decide)

/-! ## Pans and zooms on a state with a valid focus pointer -/

theorem zoom1_addr {M : FloatOps} (cfg : Config M) (stik : Int) (f : M.F) (x y : Int)
    (c : Client M) : (zoom1 cfg stik f x y c).addr = c.addr := by
  unfold zoom1 zoomwindow
  split <;> rfl

theorem zoom_of_focusOK {M : FloatOps} (cfg : Config M) (f : M.F) (x y : Int) (s : State M)
    (h : FocusOK s) :
    ∃ u, zoom cfg f x y s = some
      { s with
        clients := s.clients.map (zoom1 cfg s.tags_stik f x y)
        checks := s.checks.map (checkpoint_update1 x y f)
        tags_urg := u } := by
  have hok : FocusOK (checkpoint_update x y f
      { s with clients := s.clients.map (zoom1 cfg s.tags_stik f x y) }) := by
    intro a ha
    have := h a ha
    simpa [checkpoint_update, addrs_map _ (zoom1_addr cfg s.tags_stik f x y)] using this
  obtain ⟨u, hu⟩ := draw_of_focusOK _ hok
  exact ⟨u, by unfold zoom; rw [hu]; rfl⟩

theorem scroll1_sticky {M : FloatOps} (stik x y : Int) (c : Client M)
    (h : meets c.tags stik = true) : scroll1 stik x y c = c := by
  simp [scroll1, h]

theorem zoom1_sticky {M : FloatOps} (cfg : Config M) (stik : Int) (f : M.F) (x y : Int)
    (c : Client M) (h : meets c.tags stik = true) : zoom1 cfg stik f x y c = c := by
  simp [zoom1, h]

theorem scroll1_zero {M : FloatOps} (stik : Int) (c : Client M) : scroll1 stik 0 0 c = c := by
  unfold scroll1
  split
  · cases c; simp
  · rfl

theorem scroll1_scroll1 {M : FloatOps} (stik a b x y : Int) (c : Client M) :
    scroll1 stik x y (scroll1 stik a b c) = scroll1 stik (a + x) (b + y) c := by
  unfold scroll1
  by_cases h : meets c.tags stik = true
  · simp [h]
  · simp only [h, Bool.not_false, if_true]
    cases c
    simp [add_assoc]

theorem panned_zero {M : FloatOps} (s : State M) : panned s 0 0 s.tags_urg = s := by
  unfold panned
  have h1 : s.clients.map (scroll1 s.tags_stik 0 0) = s.clients := by
    conv_rhs => rw [← List.map_id s.clients]
    exact List.map_congr_left (fun c _ => scroll1_zero s.tags_stik c)
  have h2 : s.checks.map (fun cp => { cp with x := cp.x + 0, y := cp.y + 0 }) = s.checks := by
    conv_rhs => rw [← List.map_id s.checks]
    exact List.map_congr_left (fun cp _ => by cases cp; simp)
  rw [h1, h2]

theorem panned_focusOK {M : FloatOps} (s : State M) (X Y u : Int) (h : FocusOK s) :
    FocusOK (panned s X Y u) := by
  intro a ha
  have := h a ha
  simpa [panned, addrs_map _ (scroll1_addr s.tags_stik X Y)] using this

theorem scrollwindows_panned {M : FloatOps} (s : State M) (X Y u x y : Int) (h : FocusOK s) :
    ∃ v, scrollwindows x y (panned s X Y u) = some (panned s (X + x) (Y + y) v) := by
  obtain ⟨v, hv⟩ := scrollwindows_of_focusOK x y _ (panned_focusOK s X Y u h)
  refine ⟨v, ?_⟩
  rw [hv]
  simp only [panned, List.map_map]
  congr 2
  · exact List.map_congr_left (fun c _ => scroll1_scroll1 s.tags_stik X Y x y c)
  · exact List.map_congr_left (fun cp _ => by cases cp; simp [add_assoc])

theorem scrollwindows_eq_panned {M : FloatOps} (s : State M) (x y : Int) (h : FocusOK s) :
    ∃ v, scrollwindows x y s = some (panned s x y v) := by
  obtain ⟨v, hv⟩ := scrollwindows_panned s 0 0 s.tags_urg x y h
  rw [panned_zero] at hv
  exact ⟨v, by simpa using hv⟩

/-! ## The loop of `animate` -/

theorem axis_step (speed : Nat) (t d : Int) (h : AxisInv speed t d) :
    AxisInv speed (t - d) (if ((t - d).natAbs : Int) < (speed : Int) + 1 then 0 else d) ∧
    axisFuel (t - d) (if ((t - d).natAbs : Int) < (speed : Int) + 1 then 0 else d)
      ≤ axisFuel t d ∧
    ((t.natAbs : Int) > speed →
      axisFuel (t - d) (if ((t - d).natAbs : Int) < (speed : Int) + 1 then 0 else d)
        < axisFuel t d) := by
  unfold AxisInv axisFuel at *
  rcases h with ⟨h1, h2⟩ | ⟨h1, h2⟩ | ⟨h1, h2⟩
  · subst h1
    simp only [sub_zero, ite_self, if_true]
    refine ⟨Or.inl ⟨trivial, h2⟩, le_refl _, ?_⟩
    intro h3
    omega
  · subst h2
    split_ifs <;> refine ⟨?_, ?_, ?_⟩ <;> omega
  · subst h2
    split_ifs <;> refine ⟨?_, ?_, ?_⟩ <;> omega

theorem animateLoop_panned {M : FloatOps} (speed : Nat) (s : State M) (hs : FocusOK s) :
    ∀ (n : Nat) (tx ty dx dy X Y u : Int), AxisInv speed tx dx → AxisInv speed ty dy →
      axisFuel tx dx + axisFuel ty dy < n →
      ∃ tx1 ty1 X1 Y1 u1,
        animateLoop speed n tx ty dx dy (panned s X Y u) = some (tx1, ty1, panned s X1 Y1 u1) ∧
        X1 + tx1 = X + tx ∧ Y1 + ty1 = Y + ty := by
  intro n
  induction n with
  | zero => intro tx ty dx dy X Y u _ _ h; omega
  | succ n ih =>
    intro tx ty dx dy X Y u hx hy hn
    unfold animateLoop
    by_cases hc : (tx.natAbs : Int) > speed ∨ (ty.natAbs : Int) > speed
    · obtain ⟨v, hv⟩ := scrollwindows_panned s X Y u dx dy hs
      simp only [hc, if_true, hv]
      obtain ⟨ax1, ax2, ax3⟩ := axis_step speed tx dx hx
      obtain ⟨ay1, ay2, ay3⟩ := axis_step speed ty dy hy
      have hfuel : axisFuel (tx - dx) (if ((tx - dx).natAbs : Int) < (speed : Int) + 1 then 0 else dx)
          + axisFuel (ty - dy) (if ((ty - dy).natAbs : Int) < (speed : Int) + 1 then 0 else dy)
          < n := by
        rcases hc with hc | hc
        · have := ax3 hc; omega
        · have := ay3 hc; omega
      obtain ⟨tx1, ty1, X1, Y1, u1, h1, h2, h3⟩ := ih _ _ _ _ (X + dx) (Y + dy) v ax1 ay1 hfuel
      exact ⟨tx1, ty1, X1, Y1, u1, h1, by omega, by omega⟩
    · simp only [hc, if_false]
      exact ⟨tx, ty, X, Y, u, rfl, rfl, rfl⟩

theorem animStep_inv (speed : Nat) (t : Int) : AxisInv speed t (animStep speed t) := by
  unfold AxisInv animStep
  split_ifs <;> omega

theorem animStep_fuel (speed : Nat) (t : Int) : axisFuel t (animStep speed t) ≤ t.natAbs + 1 := by
  unfold axisFuel
  split_ifs <;> omega

theorem animate_eq_panned {M : FloatOps} (cfg : Config M) (tx ty : Int) (s : State M)
    (hs : FocusOK s) : ∃ v, animate cfg tx ty s = some (panned s tx ty v) := by
  unfold animate
  by_cases ha : cfg.animations = true
  · simp only [ha, Bool.not_true, Bool.false_eq_true, if_false]
    have hfuel : axisFuel tx (animStep cfg.animatespeed tx) +
        axisFuel ty (animStep cfg.animatespeed ty) < animateFuel tx ty := by
      have h1 := animStep_fuel cfg.animatespeed tx
      have h2 := animStep_fuel cfg.animatespeed ty
      unfold animateFuel
      omega
    obtain ⟨tx1, ty1, X1, Y1, u1, h1, h2, h3⟩ :=
      animateLoop_panned cfg.animatespeed s hs (animateFuel tx ty) tx ty _ _ 0 0 s.tags_urg
        (animStep_inv _ tx) (animStep_inv _ ty) hfuel
    rw [panned_zero] at h1
    rw [h1]
    obtain ⟨v, hv⟩ := scrollwindows_panned s X1 Y1 u1 tx1 ty1 hs
    refine ⟨v, ?_⟩
    simp only [hv]
    have e1 : X1 + tx1 = tx := by omega
    have e2 : Y1 + ty1 = ty := by omega
    rw [e1, e2]
  · simp only [Bool.not_eq_true] at ha
    simp only [ha, Bool.not_false, if_true]
    exact scrollwindows_eq_panned s tx ty hs

/-! ## C2: sticky clients are not moved by pans and zooms -/

theorem getElem?_map_fixed {M : FloatOps} (f : Client M → Client M) (l : List (Client M))
    (i : Nat) (c : Client M) (h : l[i]? = some c) (hf : f c = c) : (l.map f)[i]? = some c := by
  simp [List.getElem?_map, h, hf]

theorem applyOp_sticky {M : FloatOps} (cfg : Config M) (op : CanvasOp M) (s : State M)
    (h : FocusOK s) :
    ∃ s1, applyOp cfg op s = some s1 ∧ FocusOK s1 ∧ s1.tags_stik = s.tags_stik ∧
      ∀ (i : Nat) (c : Client M), s.clients[i]? = some c → meets c.tags s.tags_stik = true →
        s1.clients[i]? = some c := by
  cases op with
  | scroll dx dy =>
    obtain ⟨v, hv⟩ := scrollwindows_eq_panned s dx dy h
    exact ⟨_, hv, panned_focusOK s dx dy v h, rfl, fun i c hi hc =>
      getElem?_map_fixed (scroll1 s.tags_stik dx dy) s.clients i c hi
        (scroll1_sticky _ _ _ c hc)⟩
  | animate tx ty =>
    obtain ⟨v, hv⟩ := animate_eq_panned cfg tx ty s h
    exact ⟨_, hv, panned_focusOK s tx ty v h, rfl, fun i c hi hc =>
      getElem?_map_fixed (scroll1 s.tags_stik tx ty) s.clients i c hi
        (scroll1_sticky _ _ _ c hc)⟩
  | zoom f px py =>
    obtain ⟨v, hv⟩ := zoom_of_focusOK cfg f px py s h
    refine ⟨_, hv, ?_, rfl, fun i c hi hc =>
      getElem?_map_fixed (zoom1 cfg s.tags_stik f px py) s.clients i c hi
        (zoom1_sticky cfg _ f px py c hc)⟩
    intro a ha
    have := h a ha
    simpa [addrs_map _ (zoom1_addr cfg s.tags_stik f px py)] using this

/-- C2: from a state whose focus pointer is valid, every sequence of `scrollwindows`,
`animate` and `zoom` calls (any vectors, factors and centres, any length) returns, leaves
the sticky mask as it was, and leaves every client whose tags intersect the sticky mask
at its place in the registry with all its fields, so `x`, `y`, `w` and `h`, unchanged. -/
theorem sticky_clients_unmoved {M : FloatOps} (cfg : Config M) (ops : List (CanvasOp M))
    (s : State M) (h : FocusOK s) :
    ∃ s1, runOps cfg ops s = some s1 ∧ s1.tags_stik = s.tags_stik ∧
      ∀ (i : Nat) (c : Client M), s.clients[i]? = some c → meets c.tags s.tags_stik = true →
        s1.clients[i]? = some c := by
  induction ops generalizing s with
  | nil => exact ⟨s, rfl, rfl, fun i c hi _ => hi⟩
  | cons op ops ih =>
    obtain ⟨s1, h1, hok, hst, hfix⟩ := applyOp_sticky cfg op s h
    obtain ⟨s2, h2, hst2, hfix2⟩ := ih s1 hok
    refine ⟨s2, by simp [runOps, h1, h2], by rw [hst2, hst], ?_⟩
    intro i c hi hc
    exact hfix2 i c (hfix i c hi hc) (by rw [hst]; exact hc)

/-- With tag 1 sticky, a pan, a zoom about (10, 10) and an animated pan leave the first
client of the registry (tag 1) as it was. -/
theorem sticky_clients_unmoved_witness :
    ∃ s1, runOps cfgA [CanvasOp.scroll 5 7, CanvasOp.zoom (23 / 25 : ℚ) 10 10,
        CanvasOp.animate (-300) 40] { stateA with tags_stik := 1 } = some s1 ∧
      s1.clients[0]? = some (clientAt 1 1) :=
  (sticky_clients_unmoved cfgA [CanvasOp.scroll 5 7, CanvasOp.zoom (23 / 25 : ℚ) 10 10,
      CanvasOp.animate (-300) 40] { stateA with tags_stik := 1 } (by decide)).imp
    (fun _ hs => ⟨hs.1, hs.2.2 0 (clientAt 1 1) rfl (by decide)⟩)

/-! ## C3: recall of a checkpoint after pans -/

theorem ratFloat_laws : FloatLaws ratFloat where
  mul_one := fun (a : ℚ) => by show a * ((1 : Int) : ℚ) = a; simp
  div_one_one := by show ((1 : Int) : ℚ) / ((1 : Int) : ℚ) = ((1 : Int) : ℚ); simp
  add_zero n := by show (n : ℚ) + ((0 : Int) : ℚ) = (n : ℚ); simp
  toInt_ofInt n _ := by
    show Int.tdiv ((n : ℚ).num) (((n : ℚ).den : Nat) : Int) = n
    simp

theorem findKey_resetKey {M : FloatOps} (k : Char) (l l1 : List (Checkpoint M))
    (h : resetKey k l = some l1) :
    findKey k l1 = some { x := 0, y := 0, zoom := M.ofInt 1, key := k } := by
  induction l generalizing l1 with
  | nil => simp [resetKey] at h
  | cons cp l ih =>
    unfold resetKey at h
    by_cases hk : cp.key = k
    · simp only [hk, if_true, Option.some.injEq] at h
      subst h
      simp [findKey, hk]
    · simp only [hk, if_false] at h
      cases hr : resetKey k l with
      | none => simp [hr] at h
      | some l2 =>
        simp only [hr, Option.some.injEq] at h
        subst h
        simp [findKey, hk, ih l2 hr]

theorem findKey_checkpoint_set {M : FloatOps} (k : Char) (hk : k ≠ '0') (s : State M) :
    findKey k (checkpoint_set k s).checks =
      some { x := 0, y := 0, zoom := M.ofInt 1, key := k } := by
  unfold checkpoint_set
  simp only [hk, if_false]
  cases hr : resetKey k s.checks with
  | none => simp [findKey]
  | some l => exact findKey_resetKey k s.checks l hr

theorem findKey_shift {M : FloatOps} (k : Char) (X Y : Int) (l : List (Checkpoint M)) :
    findKey k (l.map (fun cp => { cp with x := cp.x + X, y := cp.y + Y })) =
      (findKey k l).map (fun cp => { cp with x := cp.x + X, y := cp.y + Y }) := by
  induction l with
  | nil => rfl
  | cons cp l ih =>
    by_cases hk : cp.key = k
    · simp [findKey, hk]
    · simp [findKey, hk, ih]

theorem panned_panned {M : FloatOps} (s : State M) (X Y u x y v : Int) :
    panned (panned s X Y u) x y v = panned s (X + x) (Y + y) v := by
  simp only [panned, List.map_map]
  congr 2
  · funext c
    exact scroll1_scroll1 s.tags_stik X Y x y c
  · funext cp
    cases cp
    simp [add_assoc]

theorem runOps_pans {M : FloatOps} (cfg : Config M) (ops : List (CanvasOp M))
    (hp : ∀ op ∈ ops, op.isPan = true) (s : State M) (hs : FocusOK s) (X Y u : Int) :
    ∃ X1 Y1 u1, runOps cfg ops (panned s X Y u) = some (panned s X1 Y1 u1) := by
  induction ops generalizing X Y u with
  | nil => exact ⟨X, Y, u, rfl⟩
  | cons op ops ih =>
    have hp1 : ∀ op ∈ ops, op.isPan = true := fun o ho => hp o (List.mem_cons_of_mem _ ho)
    have hop := hp op (List.mem_cons_self _ _)
    cases op with
    | scroll dx dy =>
      obtain ⟨v, hv⟩ := scrollwindows_panned s X Y u dx dy hs
      obtain ⟨X1, Y1, u1, h1⟩ := ih hp1 (X + dx) (Y + dy) v
      exact ⟨X1, Y1, u1, by simp [runOps, applyOp, hv, h1]⟩
    | animate tx ty =>
      obtain ⟨v, hv⟩ := animate_eq_panned cfg tx ty _ (panned_focusOK s X Y u hs)
      rw [panned_panned] at hv
      obtain ⟨X1, Y1, u1, h1⟩ := ih hp1 (X + tx) (Y + ty) v
      exact ⟨X1, Y1, u1, by simp [runOps, applyOp, hv, h1]⟩
    | zoom f px py => simp [CanvasOp.isPan] at hop

theorem zoom1_one {M : FloatOps} (hM : FloatLaws M) (cfg : Config M) (stik : Int)
    (c : Client M) (hb : meets c.tags stik = false → |c.x| ≤ 2 ^ 24 ∧ |c.y| ≤ 2 ^ 24) :
    zoom1 cfg stik (M.ofInt 1) 0 0 c = recalled cfg stik c := by
  unfold zoom1 recalled
  by_cases h : meets c.tags stik = true
  · simp [h]
  · simp only [Bool.not_eq_true] at h
    obtain ⟨hx, hy⟩ := hb h
    simp only [h, Bool.not_false, if_true, Bool.false_eq_true, if_false, zoomwindow,
      hM.mul_one, sub_zero, hM.add_zero, hM.toInt_ofInt c.x hx, hM.toInt_ofInt c.y hy]

theorem recallFocus_mem {M : FloatOps} (cfg : Config M) (hide : Int) (l : List (Client M))
    (a : Nat) (h : recallFocus cfg hide l = some a) : a ∈ addrs l := by
  induction l with
  | nil => simp [recallFocus] at h
  | cons c l ih =>
    unfold recallFocus at h
    split at h
    · simp [addrs] at ih ⊢
      exact Or.inr (ih h)
    · simp only [Option.some.injEq] at h
      simp [addrs, h]
theorem checkpoint_set_frame {M : FloatOps} (k : Char) (s : State M) :
    (checkpoint_set k s).clients = s.clients ∧ (checkpoint_set k s).focused = s.focused ∧
      (checkpoint_set k s).tags_stik = s.tags_stik := by
  unfold checkpoint_set
  split
  · exact ⟨rfl, rfl, rfl⟩
  · split <;> exact ⟨rfl, rfl, rfl⟩

theorem zoom1_one_client {M : FloatOps} (hM : FloatLaws M) (cfg : Config M) (stik : Int)
    (c : Client M) :
    (zoom1 cfg stik (M.ofInt 1) 0 0 c).addr = c.addr ∧
    (zoom1 cfg stik (M.ofInt 1) 0 0 c).win = c.win ∧
    (zoom1 cfg stik (M.ofInt 1) 0 0 c).tags = c.tags ∧
    (zoom1 cfg stik (M.ofInt 1) 0 0 c).w = (recalled cfg stik c).w ∧
    (zoom1 cfg stik (M.ofInt 1) 0 0 c).h = (recalled cfg stik c).h ∧
    (meets c.tags stik = true → zoom1 cfg stik (M.ofInt 1) 0 0 c = c) ∧
    (|c.x| ≤ 2 ^ 24 → (zoom1 cfg stik (M.ofInt 1) 0 0 c).x = c.x) ∧
    (|c.y| ≤ 2 ^ 24 → (zoom1 cfg stik (M.ofInt 1) 0 0 c).y = c.y) := by
  unfold zoom1 recalled
  by_cases h : meets c.tags stik = true
  · simp [h]
  · simp only [Bool.not_eq_true] at h
    simp only [h, Bool.not_false, if_true, Bool.false_eq_true, if_false, zoomwindow,
      hM.mul_one, sub_zero, hM.add_zero, false_implies, true_and]
    exact ⟨fun hx => hM.toInt_ofInt c.x hx, fun hy => hM.toInt_ofInt c.y hy⟩

/-- C3, as the code has it: after `checkpoint_set(k)` for a key other than `'0'` and any
sequence of pans (`scrollwindows` and `animate` calls), the recall `checkpoint(k)`
returns, and client by client the registry is as it was when the checkpoint was set: a
sticky client is untouched; a non-sticky client has its tags, and its width and height
except that a width or height that was below `zoom_min` is now `zoom_min`; its `x` is
back exactly when `|x| ≤ 2^24` and its `y` when `|y| ≤ 2^24`, the magnitudes that the
conversion to `float` in `zoomwindow` represents exactly. A client that is sticky or
has both coordinates in that range is `recalled` of what it was. -/
theorem recall_after_pans {M : FloatOps} (hM : FloatLaws M) (cfg : Config M) (k : Char)
    (hk : k ≠ '0') (ops : List (CanvasOp M)) (hp : ∀ op ∈ ops, op.isPan = true)
    (s0 : State M) (hs : FocusOK s0) :
    ∃ s1 s2, runOps cfg ops (checkpoint_set k s0) = some s1 ∧
      checkpoint cfg k s1 = some s2 ∧
      s2.clients.length = s0.clients.length ∧
      ∀ (i : Nat) (c : Client M), s0.clients[i]? = some c →
        ∃ c2, s2.clients[i]? = some c2 ∧
          c2.addr = c.addr ∧ c2.win = c.win ∧ c2.tags = c.tags ∧
          c2.w = (recalled cfg s0.tags_stik c).w ∧
          c2.h = (recalled cfg s0.tags_stik c).h ∧
          (meets c.tags s0.tags_stik = true → c2 = c) ∧
          (|c.x| ≤ 2 ^ 24 → c2.x = c.x) ∧
          (|c.y| ≤ 2 ^ 24 → c2.y = c.y) ∧
          (meets c.tags s0.tags_stik = true ∨ (|c.x| ≤ 2 ^ 24 ∧ |c.y| ≤ 2 ^ 24) →
            c2 = recalled cfg s0.tags_stik c) := by
  obtain ⟨hcl, hfo, hst⟩ := checkpoint_set_frame k s0
  have hsc : FocusOK (checkpoint_set k s0) := by
    intro a ha
    rw [hfo] at ha
    rw [hcl]
    exact hs a ha
  obtain ⟨X, Y, u, hrun⟩ := runOps_pans cfg ops hp _ hsc 0 0 (checkpoint_set k s0).tags_urg
  rw [panned_zero] at hrun
  have hs1 := panned_focusOK _ X Y u hsc
  -- the checkpoint found at recall time carries the accumulated offset
  have hfind : findKey k (panned (checkpoint_set k s0) X Y u).checks =
      some { x := 0 + X, y := 0 + Y, zoom := M.ofInt 1, key := k } := by
    show findKey k ((checkpoint_set k s0).checks.map _) = _
    rw [findKey_shift, findKey_checkpoint_set k hk]
    rfl
  obtain ⟨v, hv⟩ := animate_eq_panned cfg (-(0 + X)) (-(0 + Y)) _ hs1
  rw [panned_panned] at hv
  have hX : X + -(0 + X) = 0 := by omega
  have hY : Y + -(0 + Y) = 0 := by omega
  rw [hX, hY] at hv
  have hs3 := panned_focusOK _ 0 0 v hsc
  have hfind3 : findKey k (panned (checkpoint_set k s0) 0 0 v).checks =
      some { x := 0 + 0, y := 0 + 0, zoom := M.ofInt 1, key := k } := by
    show findKey k ((checkpoint_set k s0).checks.map _) = _
    rw [findKey_shift, findKey_checkpoint_set k hk]
    rfl
  obtain ⟨w, hw⟩ := zoom_of_focusOK cfg (M.ofInt 1) 0 0 _ hs3
  have hclients : (panned (checkpoint_set k s0) 0 0 v).clients.map
      (zoom1 cfg (panned (checkpoint_set k s0) 0 0 v).tags_stik (M.ofInt 1) 0 0) =
      s0.clients.map (zoom1 cfg s0.tags_stik (M.ofInt 1) 0 0) := by
    show ((checkpoint_set k s0).clients.map _).map (zoom1 cfg (checkpoint_set k s0).tags_stik _ 0 0) = _
    rw [hcl, hst, List.map_map]
    apply List.map_congr_left
    intro c hc
    simp only [Function.comp, scroll1_zero]
  have hadd : addrs ((panned (checkpoint_set k s0) 0 0 v).clients.map
      (zoom1 cfg (panned (checkpoint_set k s0) 0 0 v).tags_stik (M.ofInt 1) 0 0)) =
      addrs s0.clients := by
    rw [addrs_map _ (zoom1_addr cfg _ (M.ofInt 1) 0 0)]
    show addrs ((checkpoint_set k s0).clients.map _) = _
    rw [addrs_map _ (scroll1_addr _ 0 0), hcl]
  have hrec : ∃ s2, checkpoint cfg k (panned (checkpoint_set k s0) X Y u) = some s2 ∧
      s2.clients = s0.clients.map (zoom1 cfg s0.tags_stik (M.ofInt 1) 0 0) := by
    unfold checkpoint
    simp only [hfind, hv, hfind3, hM.div_one_one, hw]
    cases hr : recallFocus cfg (panned (checkpoint_set k s0) 0 0 v).tags_hide
        ((panned (checkpoint_set k s0) 0 0 v).clients.map
          (zoom1 cfg (panned (checkpoint_set k s0) 0 0 v).tags_stik (M.ofInt 1) 0 0)) with
    | none =>
      simp only []
      have hok : FocusOK ({ ({ panned (checkpoint_set k s0) 0 0 v with
            clients := (panned (checkpoint_set k s0) 0 0 v).clients.map
              (zoom1 cfg (panned (checkpoint_set k s0) 0 0 v).tags_stik (M.ofInt 1) 0 0)
            checks := (panned (checkpoint_set k s0) 0 0 v).checks.map
              (checkpoint_update1 0 0 (M.ofInt 1))
            tags_urg := w } : State M) with
          focused := (panned (checkpoint_set k s0) X Y u).focused }) := by
        intro a ha
        show a ∈ addrs _
        rw [hadd]
        exact hs a (by rw [← hfo]; exact ha)
      obtain ⟨u1, hu1⟩ := draw_of_focusOK _ hok
      exact ⟨_, hu1, hclients⟩
    | some a =>
      simp only []
      have hok : FocusOK (focusclient ({ panned (checkpoint_set k s0) 0 0 v with
            clients := (panned (checkpoint_set k s0) 0 0 v).clients.map
              (zoom1 cfg (panned (checkpoint_set k s0) 0 0 v).tags_stik (M.ofInt 1) 0 0)
            checks := (panned (checkpoint_set k s0) 0 0 v).checks.map
              (checkpoint_update1 0 0 (M.ofInt 1))
            tags_urg := w } : State M) (some a)) := by
        intro b hb1
        have hb2 : a = b := by simpa [focusclient] using hb1
        subst hb2
        exact recallFocus_mem cfg _ _ a hr
      obtain ⟨u1, hu1⟩ := draw_of_focusOK _ hok
      exact ⟨_, hu1, hclients⟩
  obtain ⟨s2, h2, h3⟩ := hrec
  refine ⟨_, s2, hrun, h2, by rw [h3, List.length_map], ?_⟩
  intro i c hi
  obtain ⟨e1, e2, e3, e4, e5, e6, e7, e8⟩ := zoom1_one_client hM cfg s0.tags_stik c
  refine ⟨zoom1 cfg s0.tags_stik (M.ofInt 1) 0 0 c, ?_, e1, e2, e3, e4, e5, e6, e7, e8, ?_⟩
  · rw [h3]
    simp [List.getElem?_map, hi]
  · intro hc
    rcases hc with hc | hc
    · rw [e6 hc]
      simp [recalled, hc]
    · by_cases hm : meets c.tags s0.tags_stik = true
      · rw [e6 hm]
        simp [recalled, hm]
      · simp only [Bool.not_eq_true] at hm
        exact zoom1_one hM cfg s0.tags_stik c (fun _ => hc)

/-- After a pan and an animated pan, the recall brings the first client of `stateA`
back to (100, 100) with its size 300 by 200. -/
theorem recall_after_pans_witness :
    ∃ s1 s2 c2, runOps cfgA [CanvasOp.scroll 5 7, CanvasOp.animate (-300) 40]
        (checkpoint_set '1' stateA) = some s1 ∧
      checkpoint cfgA '1' s1 = some s2 ∧
      s2.clients[0]? = some c2 ∧ c2 = clientAt 1 1 := by
  obtain ⟨s1, s2, h1, h2, -, h4⟩ := recall_after_pans ratFloat_laws cfgA '1' (by decide)
    [CanvasOp.scroll 5 7, CanvasOp.animate (-300) 40] (by decide) stateA (by decide)
  obtain ⟨c2, h5, -, -, -, -, -, -, -, -, h6⟩ := h4 0 (clientAt 1 1) rfl
  refine ⟨s1, s2, c2, h1, h2, h5, ?_⟩
  rw [h6 (Or.inr ⟨by decide, by decide⟩)]
  rfl

/-- C3 fails as stated: with `zoom_min = 40`, a non-sticky client of width 10 at
(100, 100) has width 40 after `checkpoint_set('1')` followed at once by the recall
`checkpoint('1')`; its position and height are as before. -/
theorem recall_raises_small_width :
    stateSmall.tags_stik = 0 ∧
    stateSmall.clients.map (fun c => (c.x, c.y, c.w, c.h)) =
      [(100, 100, (10 : ℚ), (200 : ℚ))] ∧
    ((runOps cfgA [] (checkpoint_set '1' stateSmall)).bind (checkpoint cfgA '1')).map
      (fun s => s.clients.map (fun c => (c.x, c.y, c.w, c.h))) =
      some [(100, 100, (40 : ℚ), (200 : ℚ))] := by
  refine ⟨by decide, by decide, ?_⟩
  with_unfolding_all decide

/-! ## C4: the store after `checkpoint_init` -/

/-- The store that `checkpoint_init` builds from the empty store, for every screen
height: six checkpoints with keys `'5'` down to `'0'` and zoom 1. The final assignment
`checks->y = 0` has hit the head of the list, the checkpoint `'5'`; the checkpoint `'0'`
keeps the offset `(0, sh*(0-1))`. -/
theorem checkpoint_init_store {M : FloatOps} (cfg : Config M) (s : State M) :
    (checkpoint_init cfg { s with checks := [] }).checks =
      [{ x := 0, y := 0, zoom := M.ofInt 1, key := '5' },
       { x := 0, y := cfg.sh * 3, zoom := M.ofInt 1, key := '4' },
       { x := 0, y := cfg.sh * 2, zoom := M.ofInt 1, key := '3' },
       { x := 0, y := cfg.sh * 1, zoom := M.ofInt 1, key := '2' },
       { x := 0, y := cfg.sh * 0, zoom := M.ofInt 1, key := '1' },
       { x := 0, y := cfg.sh * (-1), zoom := M.ofInt 1, key := '0' }] := by
  simp [checkpoint_init, List.range, List.range.loop, checkpoint_init1, setHeadY]

/-- C4 at the screen height 768: after `checkpoint_init` on the empty store the
checkpoint with key `'0'` has the offset `(0, -768)`, not `(0, 0)`; the checkpoint with
key `'1'` has the offset `(0, 0)`. -/
theorem checkpoint_init_key0_offset :
    (findKey '0' (checkpoint_init cfgA (stateOf [] none)).checks).map
        (fun cp => (cp.x, cp.y)) = some (0, -768) ∧
    (findKey '1' (checkpoint_init cfgA (stateOf [] none)).checks).map
        (fun cp => (cp.x, cp.y)) = some (0, 0) := by
  decide

/-! ## C5: `checkpoint_set` -/

theorem resetKey_none {M : FloatOps} (k : Char) (l : List (Checkpoint M))
    (h : ∀ c ∈ l, c.key ≠ k) : resetKey k l = none := by
  induction l with
  | nil => rfl
  | cons cp l ih =>
    have h1 : cp.key ≠ k := h cp (List.mem_cons_self _ _)
    have h2 := ih (fun c hc => h c (List.mem_cons_of_mem _ hc))
    simp [resetKey, h1, h2]

theorem resetKey_split {M : FloatOps} (k : Char) (pre : List (Checkpoint M))
    (cp : Checkpoint M) (post : List (Checkpoint M)) (hk : cp.key = k)
    (h : ∀ c ∈ pre, c.key ≠ k) :
    resetKey k (pre ++ cp :: post) =
      some (pre ++ { x := 0, y := 0, zoom := M.ofInt 1, key := k } :: post) := by
  induction pre with
  | nil => simp [resetKey, hk]
  | cons d pre ih =>
    have h1 : d.key ≠ k := h d (List.mem_cons_self _ _)
    have h2 := ih (fun c hc => h c (List.mem_cons_of_mem _ hc))
    simp [resetKey, h1, h2]

/-- C5: `checkpoint_set` with key `'0'` changes nothing. With another key `k` that is in
the store, the first checkpoint with key `k` gets offset `(0, 0)` and zoom 1 and all
other checkpoints, and all other globals, stay. With a key `k` that is not in the store,
one checkpoint with key `k`, offset `(0, 0)` and zoom 1 is linked in front of the store,
which is otherwise unchanged. -/
theorem checkpoint_set_spec {M : FloatOps} (k : Char) (s : State M) :
    (k = '0' → checkpoint_set k s = s) ∧
    (k ≠ '0' → ∀ (pre : List (Checkpoint M)) (cp : Checkpoint M) (post : List (Checkpoint M)),
      s.checks = pre ++ cp :: post → cp.key = k → (∀ c ∈ pre, c.key ≠ k) →
      checkpoint_set k s =
        { s with checks := pre ++ { x := 0, y := 0, zoom := M.ofInt 1, key := k } :: post }) ∧
    (k ≠ '0' → (∀ c ∈ s.checks, c.key ≠ k) →
      checkpoint_set k s =
        { s with checks := { x := 0, y := 0, zoom := M.ofInt 1, key := k } :: s.checks }) := by
  refine ⟨?_, ?_, ?_⟩
  · intro h
    simp [checkpoint_set, h]
  · intro h pre cp post hs hk hpre
    simp [checkpoint_set, h, hs, resetKey_split k pre cp post hk hpre]
  · intro h hno
    simp [checkpoint_set, h, resetKey_none k s.checks hno]

/-- On the store of `stateChecks`: key `'0'` changes nothing, key `'1'` resets the second
checkpoint only, key `'x'` puts a fresh checkpoint in front. -/
theorem checkpoint_set_spec_witness :
    checkpoint_set '0' stateChecks = stateChecks ∧
    checkpoint_set '1' stateChecks =
      { stateChecks with
        checks := [{ x := 3, y := 4, zoom := (2 : ℚ), key := '2' }] ++
          { x := 0, y := 0, zoom := ratFloat.ofInt 1, key := '1' } ::
          [{ x := 5, y := 6, zoom := (1 / 2 : ℚ), key := '0' }] } ∧
    checkpoint_set 'x' stateChecks =
      { stateChecks with
        checks := { x := 0, y := 0, zoom := ratFloat.ofInt 1, key := 'x' } ::
          stateChecks.checks } :=
  ⟨(checkpoint_set_spec '0' stateChecks).1 rfl,
   (checkpoint_set_spec '1' stateChecks).2.1 (by decide) _ _ _ rfl rfl (by decide),
   (checkpoint_set_spec 'x' stateChecks).2.2 (by decide) (by decide)⟩

/-! ## The registry as a linked list -/

theorem mem_addrs_split {M : FloatOps} (l : List (Client M)) (a : Nat) (h : a ∈ addrs l) :
    ∃ pre c rest, l = pre ++ c :: rest ∧ c.addr = a ∧ ∀ d ∈ pre, d.addr ≠ a := by
  induction l with
  | nil => simp [addrs] at h
  | cons c l ih =>
    by_cases hc : c.addr = a
    · exact ⟨[], c, l, rfl, hc, by simp⟩
    · have h1 : a ∈ addrs l := by
        simp only [addrs, List.map_cons, List.mem_cons] at h
        rcases h with h | h
        · exact absurd h.symm hc
        · exact h
      obtain ⟨pre, d, rest, e, hd, hpre⟩ := ih h1
      refine ⟨c :: pre, d, rest, by simp [e], hd, ?_⟩
      intro x hx
      rcases List.mem_cons.mp hx with hx | hx
      · rw [hx]; exact hc
      · exact hpre x hx

theorem nextOf_split {M : FloatOps} (pre : List (Client M)) (c : Client M)
    (rest : List (Client M)) (h : ∀ d ∈ pre, d.addr ≠ c.addr) :
    nextOf (pre ++ c :: rest) c.addr = some rest ∧
      lookup (pre ++ c :: rest) c.addr = some c ∧
      removeNode (pre ++ c :: rest) c.addr = some (pre ++ rest) := by
  induction pre with
  | nil => simp [nextOf, lookup, removeNode]
  | cons d pre ih =>
    have h1 : d.addr ≠ c.addr := h d (List.mem_cons_self _ _)
    obtain ⟨i1, i2, i3⟩ := ih (fun x hx => h x (List.mem_cons_of_mem _ hx))
    simp [nextOf, lookup, removeNode, h1, i1, i2, i3]

theorem lookup_of_mem_nodup {M : FloatOps} (l : List (Client M)) (c : Client M)
    (hn : (addrs l).Nodup) (hc : c ∈ l) : lookup l c.addr = some c := by
  induction l with
  | nil => simp at hc
  | cons d l ih =>
    simp only [addrs, List.map_cons, List.nodup_cons] at hn
    rcases List.mem_cons.mp hc with h | h
    · subst h
      simp [lookup]
    · have hd : d.addr ≠ c.addr := by
        intro e
        apply hn.1
        rw [e]
        exact List.mem_map_of_mem _ h
      simp only [lookup, hd, if_false]
      exact ih hn.2 h

theorem seek_eq_find {M : FloatOps} (ok : Client M → Bool) (l : List (Client M)) :
    seek ok l = (l.find? ok).map Client.addr := by
  induction l with
  | nil => rfl
  | cons c l ih =>
    by_cases h : ok c = true
    · simp [seek, List.find?, h]
    · simp only [Bool.not_eq_true] at h
      simp [seek, List.find?, h, ih]

theorem seek_some {M : FloatOps} (ok : Client M → Bool) (l : List (Client M)) (a : Nat)
    (h : seek ok l = some a) : ∃ c ∈ l, c.addr = a ∧ ok c = true := by
  induction l with
  | nil => simp [seek] at h
  | cons c l ih =>
    by_cases hc : ok c = true
    · simp only [seek, hc, if_true, Option.some.injEq] at h
      exact ⟨c, List.mem_cons_self _ _, h, hc⟩
    · simp only [seek, hc] at h
      obtain ⟨d, hd, hda, hdo⟩ := ih h
      exact ⟨d, List.mem_cons_of_mem _ hd, hda, hdo⟩

theorem seek_none {M : FloatOps} (ok : Client M → Bool) (l : List (Client M))
    (h : ∀ c ∈ l, ok c = false) : seek ok l = none := by
  induction l with
  | nil => rfl
  | cons c l ih =>
    have h1 := h c (List.mem_cons_self _ _)
    simp [seek, h1, ih (fun d hd => h d (List.mem_cons_of_mem _ hd))]

theorem mem_addrs_of_mem {M : FloatOps} (l : List (Client M)) (c : Client M) (h : c ∈ l) :
    c.addr ∈ addrs l := List.mem_map_of_mem _ h

theorem seek_mem_addrs {M : FloatOps} (ok : Client M → Bool) (l : List (Client M)) (a : Nat)
    (h : seek ok l = some a) : a ∈ addrs l := by
  obtain ⟨c, hc, hca, -⟩ := seek_some ok l a h
  rw [← hca]
  exact mem_addrs_of_mem l c hc

theorem headAddr_mem {M : FloatOps} (l : List (Client M)) (a : Nat) (h : headAddr l = some a) :
    a ∈ addrs l := by
  cases l with
  | nil => simp [headAddr] at h
  | cons c l =>
    simp only [headAddr, Option.some.injEq] at h
    simp [addrs, h]

theorem nextOf_sub {M : FloatOps} (l rest : List (Client M)) (a : Nat)
    (h : nextOf l a = some rest) : ∀ c ∈ rest, c ∈ l := by
  induction l with
  | nil => simp [nextOf] at h
  | cons d l ih =>
    by_cases hd : d.addr = a
    · simp only [nextOf, hd, if_true, Option.some.injEq] at h
      subst h
      exact fun c hc => List.mem_cons_of_mem _ hc
    · simp only [nextOf, hd, if_false] at h
      exact fun c hc => List.mem_cons_of_mem _ (ih h c hc)

/-! ## `animatefocus` and `cycle` -/

theorem animatefocus_spec {M : FloatOps} (cfg : Config M) (s : State M) (h : FocusOK s) :
    ∃ s1, animatefocus cfg s = some s1 ∧
      (s1 = s ∨ ∃ a c v, s.focused = some a ∧ lookup s.clients a = some c ∧
        onscreen cfg c = false ∧ cfg.animations = true ∧ cfg.scrolltofocused = true ∧
        s1 = panned s (-c.x + cfg.tilegap)
          (-c.y + (if s.showbar then cfg.barheight else 0) + cfg.tilegap) v) := by
  unfold animatefocus
  by_cases ha : cfg.animations = true
  · simp only [ha, Bool.not_true, Bool.false_eq_true, if_false]
    cases hf : s.focused with
    | none => exact ⟨s, rfl, Or.inl rfl⟩
    | some a =>
      simp only []
      by_cases hsc : cfg.scrolltofocused = true
      · simp only [hsc, Bool.not_true, Bool.false_eq_true, if_false]
        obtain ⟨c, hc, -, -⟩ := lookup_isSome_of_mem s.clients a (h a hf)
        simp only [hc]
        by_cases hon : onscreen cfg c = true
        · simp only [hon, if_true]
          exact ⟨s, rfl, Or.inl rfl⟩
        · simp only [hon, if_false]
          obtain ⟨v, hv⟩ := animate_eq_panned cfg (-c.x + cfg.tilegap)
            (-c.y + (if s.showbar then cfg.barheight else 0) + cfg.tilegap) s h
          simp only [Bool.not_eq_true] at hon
          exact ⟨_, hv, Or.inr ⟨a, c, v, rfl, hc, hon, trivial, trivial, rfl⟩⟩
      · simp only [Bool.not_eq_true] at hsc
        simp only [hsc, Bool.not_false, if_true]
        exact ⟨s, rfl, Or.inl rfl⟩
  · simp only [Bool.not_eq_true] at ha
    simp only [ha, Bool.not_false, if_true]
    exact ⟨s, rfl, Or.inl rfl⟩
theorem cycle_of_target {M : FloatOps} (cfg : Config M) (a : Char) (s : State M) (p : Nat)
    (t : Option Nat) (hok : FocusOK s) (hf : s.focused = some p)
    (ht : cycleTarget cfg a s p = some t) (htin : ∀ b, t = some b → b ∈ addrs s.clients) :
    ∃ s1 u, cycle cfg (some a) s = some s1 ∧
      (s1 = { focusclient s (some (t.getD p)) with tags_urg := u } ∨
        ∃ c, lookup s.clients (t.getD p) = some c ∧ onscreen cfg c = false ∧
          cfg.animations = true ∧ cfg.scrolltofocused = true ∧
          s1 = panned (focusclient s (some (t.getD p))) (-c.x + cfg.tilegap)
            (-c.y + (if s.showbar then cfg.barheight else 0) + cfg.tilegap) u) := by
  have hok1 : FocusOK (focusclient s (some (t.getD p))) := by
    intro b hb
    have hb1 : t.getD p = b := by simpa [focusclient] using hb
    show b ∈ addrs s.clients
    cases t with
    | none => rw [← hb1]; exact hok p hf
    | some x =>
      have hx : x = b := by simpa using hb1
      rw [← hx]
      exact htin x rfl
  obtain ⟨s2, h2, hcase⟩ := animatefocus_spec cfg _ hok1
  unfold cycle
  simp only [hf, ht, h2]
  rcases hcase with hcase | ⟨b, c, v, hb, hc, hon, han, hsc, hcase⟩
  · subst hcase
    obtain ⟨u, hu⟩ := draw_of_focusOK _ hok1
    exact ⟨_, u, hu, Or.inl rfl⟩
  · subst hcase
    obtain ⟨u, hu⟩ := draw_of_focusOK _ (panned_focusOK _ _ _ v hok1)
    have hb1 : b = t.getD p := by simpa [focusclient] using hb.symm
    subst hb1
    exact ⟨_, u, hu, Or.inr ⟨c, hc, hon, han, hsc, rfl⟩⟩

theorem cycleTarget_mem {M : FloatOps} (cfg : Config M) (a : Char) (s : State M) (p : Nat)
    (t : Option Nat) (hp : p ∈ addrs s.clients) (ht : cycleTarget cfg a s p = some t) :
    ∀ b, t = some b → b ∈ addrs s.clients := by
  intro b hb
  subst hb
  unfold cycleTarget at ht
  cases hn : nextOf s.clients p with
  | none => simp [hn] at ht
  | some rest =>
    have hsub := nextOf_sub s.clients rest p hn
    have hrest : ∀ ok x, seek ok rest = some x → x ∈ addrs s.clients := by
      intro ok x hx
      obtain ⟨c, hc, hca, -⟩ := seek_some ok rest x hx
      rw [← hca]
      exact mem_addrs_of_mem _ c (hsub c hc)
    simp only [hn] at ht
    split_ifs at ht with h1 h2 h3 h4
    · cases rest with
      | nil =>
        simp only [Option.some.injEq] at ht
        exact headAddr_mem _ _ ht
      | cons c r =>
        simp only [Option.some.injEq] at ht
        rw [← ht]
        exact mem_addrs_of_mem _ c (hsub c (List.mem_cons_self _ _))
    · cases hs1 : seek (fun c => !(meets c.tags s.tags_hide)) rest with
      | some f =>
        simp only [hs1, Option.some.injEq] at ht
        rw [← ht]
        exact hrest _ _ hs1
      | none =>
        simp only [hs1] at ht
        cases hcl : s.clients with
        | nil => simp [hcl] at ht
        | cons c l =>
          simp only [hcl] at ht
          split_ifs at ht with h5
          · cases hs2 : seek (fun c => !(meets c.tags s.tags_hide)) l with
            | none => simp [hs2] at ht
            | some f =>
              simp only [hs2, Option.some.injEq] at ht
              rw [← ht]
              have := seek_mem_addrs _ l f hs2
              simp only [addrs, List.map_cons, List.mem_cons] at this ⊢
              exact Or.inr this
          · simp only [Option.some.injEq] at ht
            simp [addrs, ← ht]
    · cases hs1 : seek (fun c => !(!(onscreen cfg c) || meets c.tags s.tags_hide)) rest with
      | some f =>
        simp only [hs1, Option.some.injEq] at ht
        rw [← ht]
        exact hrest _ _ hs1
      | none =>
        simp only [hs1] at ht
        cases hcl : s.clients with
        | nil => simp [hcl] at ht
        | cons c l =>
          simp only [hcl] at ht
          split_ifs at ht with h5
          · simp only [Option.some.injEq] at ht
            have := seek_mem_addrs _ l b ht
            simp only [addrs, List.map_cons, List.mem_cons] at this ⊢
            exact Or.inr this
          · simp only [Option.some.injEq] at ht
            simp [addrs, ← ht]
    · cases hl : lookup s.clients p with
      | none => simp [hl] at ht
      | some pc =>
        simp only [hl] at ht
        cases hs1 : seek (fun c => meets c.tags pc.tags) rest with
        | some f =>
          simp only [hs1, Option.some.injEq] at ht
          rw [← ht]
          exact hrest _ _ hs1
        | none =>
          simp only [hs1] at ht
          cases hcl : s.clients with
          | nil => simp [hcl] at ht
          | cons c l =>
            simp only [hcl] at ht
            split_ifs at ht with h5
            · simp only [Option.some.injEq] at ht
              have := seek_mem_addrs _ l b ht
              simp only [addrs, List.map_cons, List.mem_cons] at this ⊢
              exact Or.inr this
            · simp only [Option.some.injEq] at ht
              simp [addrs, ← ht]
    · simp only [Option.some.injEq] at ht
      rw [← ht]
      exact hp

theorem cycleTarget_total {M : FloatOps} (cfg : Config M) (a : Char) (s : State M) (p : Nat)
    (hp : p ∈ addrs s.clients) (ha : a ≠ 'v') : ∃ t, cycleTarget cfg a s p = some t := by
  obtain ⟨pre, pc, rest, hl, hpc, hpre⟩ := mem_addrs_split s.clients p hp
  subst hpc
  obtain ⟨h1, h2, -⟩ := nextOf_split pre pc rest hpre
  rw [← hl] at h1 h2
  unfold cycleTarget
  simp only [h1, h2, ha, if_false]
  split_ifs
  · cases rest <;> exact ⟨_, rfl⟩
  · split
    · exact ⟨_, rfl⟩
    · split
      · exact ⟨_, rfl⟩
      · split <;> exact ⟨_, rfl⟩
  · split
    · exact ⟨_, rfl⟩
    · split
      · exact ⟨_, rfl⟩
      · split <;> exact ⟨_, rfl⟩
  · exact ⟨_, rfl⟩

theorem draw_pres {M : FloatOps} (s : State M) (hok : FocusOK s) :
    ∃ t, draw s = some t ∧ t.clients = s.clients ∧ t.focused = s.focused := by
  obtain ⟨u, hu⟩ := draw_of_focusOK s hok
  exact ⟨_, hu, rfl, rfl⟩

theorem draw_some_pres {M : FloatOps} (s t : State M) (h : draw s = some t) :
    t.clients = s.clients ∧ t.focused = s.focused := by
  have := draw_frame s t h
  rw [this]
  exact ⟨rfl, rfl⟩

theorem draw_some_focusOK {M : FloatOps} (s t : State M) (h : draw s = some t) :
    FocusOK t := by
  obtain ⟨h1, h2⟩ := draw_some_pres s t h
  intro a ha
  rw [h2] at ha
  rw [h1]
  unfold draw at h
  simp only [ha] at h
  cases hl : lookup s.clients a with
  | none => simp [hl] at h
  | some c =>
    obtain ⟨hc, hca⟩ := lookup_some s.clients a c hl
    rw [← hca]
    exact mem_addrs_of_mem _ c hc

theorem cycle_pres {M : FloatOps} (cfg : Config M) (arg : Option Char) (s s1 : State M)
    (hok : FocusOK s) (h : cycle cfg arg s = some s1) :
    addrs s1.clients = addrs s.clients ∧ FocusOK s1 ∧ (s.focused ≠ none → s1.focused ≠ none) := by
  cases hf : s.focused with
  | none =>
    simp only [cycle, hf, Option.some.injEq] at h
    subst h
    exact ⟨rfl, hok, fun hne => absurd rfl hne⟩
  | some p =>
    cases arg with
    | none => simp [cycle, hf] at h
    | some a =>
      cases ht : cycleTarget cfg a s p with
      | none => simp [cycle, hf, ht] at h
      | some t =>
        have htin := cycleTarget_mem cfg a s p t (hok p hf) ht
        obtain ⟨s2, u, h2, hcase⟩ := cycle_of_target cfg a s p t hok hf ht htin
        rw [h2] at h
        simp only [Option.some.injEq] at h
        subst h
        have hfoc : t.getD p ∈ addrs s.clients := by
          cases t with
          | none => exact hok p hf
          | some x => exact htin x rfl
        rcases hcase with hcase | ⟨c, -, -, -, -, hcase⟩
        · subst hcase
          refine ⟨rfl, ?_, by simp [focusclient]⟩
          intro b hb
          have : t.getD p = b := by simpa [focusclient] using hb
          rw [← this]
          exact hfoc
        · subst hcase
          have hadd : addrs (panned (focusclient s (some (t.getD p))) (-c.x + cfg.tilegap)
              (-c.y + (if s.showbar then cfg.barheight else 0) + cfg.tilegap) u).clients =
              addrs s.clients := by
            show addrs (s.clients.map _) = _
            exact addrs_map _ (scroll1_addr _ _ _) _
          refine ⟨hadd, ?_, by simp [panned, focusclient]⟩
          intro b hb
          have : t.getD p = b := by simpa [panned, focusclient] using hb
          rw [hadd, ← this]
          exact hfoc

theorem cycle_s_total {M : FloatOps} (cfg : Config M) (s : State M) (hok : FocusOK s) :
    ∃ s1, cycle cfg (some 's') s = some s1 := by
  cases hf : s.focused with
  | none => exact ⟨s, by simp [cycle, hf]⟩
  | some p =>
    obtain ⟨t, ht⟩ := cycleTarget_total cfg 's' s p (hok p hf) (by decide)
    obtain ⟨s2, u, h2, -⟩ := cycle_of_target cfg 's' s p t hok hf ht
      (cycleTarget_mem cfg 's' s p t (hok p hf) ht)
    exact ⟨s2, h2⟩

/-! ## C6: `unmanage` -/

theorem addrs_append {M : FloatOps} (l1 l2 : List (Client M)) :
    addrs (l1 ++ l2) = addrs l1 ++ addrs l2 := by
  simp [addrs]

/-- The steps of `unmanage` after the node has been unlinked: with a valid focus pointer
they return, keep the registry order and leave the focus on a client when there is one. -/
theorem unmanage_tail {M : FloatOps} (cfg : Config M) (s : State M) (hok : FocusOK s) :
    ∃ s1, (match s.focused with
      | some _ => draw s
      | none =>
        match headAddr s.clients with
        | none => draw s
        | some h =>
          match cycle cfg (some 's') { s with focused := some h } with
          | none => none
          | some s2 => draw s2) = some s1 ∧
      addrs s1.clients = addrs s.clients ∧ FocusOK s1 ∧
      (s.focused ≠ none → s1.focused = s.focused) ∧
      (s1.clients ≠ [] → s1.focused ≠ none) := by
  cases hf : s.focused with
  | some a =>
    obtain ⟨t, ht, h1, h2⟩ := draw_pres s hok
    refine ⟨t, ht, by rw [h1], draw_some_focusOK s t ht, fun _ => by rw [h2, hf], ?_⟩
    intro _
    rw [h2, hf]
    simp
  | none =>
    cases hh : headAddr s.clients with
    | none =>
      obtain ⟨t, ht, h1, h2⟩ := draw_pres s hok
      refine ⟨t, ht, by rw [h1], draw_some_focusOK s t ht, fun hne => absurd rfl hne, ?_⟩
      intro hne
      rw [h1] at hne
      cases hcl : s.clients with
      | nil => exact absurd hcl hne
      | cons c l => simp [hcl, headAddr] at hh
    | some h =>
      have hok1 : FocusOK { s with focused := some h } := by
        intro b hb
        have : h = b := by simpa using hb
        rw [← this]
        exact headAddr_mem _ _ hh
      obtain ⟨s2, h2⟩ := cycle_s_total cfg _ hok1
      obtain ⟨c1, c2, c3⟩ := cycle_pres cfg _ _ s2 hok1 h2
      obtain ⟨t, ht, t1, t2⟩ := draw_pres s2 c2
      simp only [h2, ht]
      refine ⟨t, rfl, by rw [t1, c1], draw_some_focusOK s2 t ht, fun hne => absurd rfl hne, ?_⟩
      intro _
      rw [t2]
      exact c3 (by simp)

/-- C6: in a registry whose nodes have pairwise distinct addresses and with a valid focus
pointer, `unmanage(c)` for a client `c` of the registry returns; the traversal order of
the new registry is the old one with `c` removed; the focus pointer is not `c`; and if a
client remains, the focus pointer is on a client of the new registry. -/
theorem unmanage_spec {M : FloatOps} (cfg : Config M) (s : State M) (c : Nat)
    (hnd : (addrs s.clients).Nodup) (hc : c ∈ addrs s.clients) (hok : FocusOK s) :
    ∃ s1, unmanage cfg c s = some s1 ∧
      addrs s1.clients = (addrs s.clients).erase c ∧
      s1.focused ≠ some c ∧
      (s1.clients ≠ [] → ∃ a, s1.focused = some a ∧ a ∈ addrs s1.clients) := by
  obtain ⟨pre, x, rest, hl, hx, hpre⟩ := mem_addrs_split s.clients c hc
  subst hx
  obtain ⟨h1, -, h3⟩ := nextOf_split pre x rest hpre
  rw [← hl] at h1 h3
  have hpre1 : x.addr ∉ addrs pre := by
    intro hm
    obtain ⟨d, hd, hda⟩ := List.mem_map.mp hm
    exact hpre d hd hda
  have herase : (addrs s.clients).erase x.addr = addrs (pre ++ rest) := by
    rw [hl, addrs_append, addrs_append]
    show (addrs pre ++ x.addr :: addrs rest).erase x.addr = _
    rw [List.erase_append_right _ hpre1, List.erase_cons_head]
  have hnotin : x.addr ∉ addrs (pre ++ rest) := by
    rw [hl, addrs_append] at hnd
    rw [addrs_append]
    have hnd1 : (addrs pre ++ x.addr :: addrs rest).Nodup := hnd
    rw [List.nodup_append] at hnd1
    obtain ⟨-, hr, hdis⟩ := hnd1
    rw [List.nodup_cons] at hr
    intro hm
    rcases List.mem_append.mp hm with hm | hm
    · exact hpre1 hm
    · exact hr.1 hm
  -- the state after the unlinking
  have hmid : ∃ s2 : State M, addrs s2.clients = addrs (pre ++ rest) ∧ FocusOK s2 ∧
      s2.focused ≠ some x.addr ∧
      unmanage cfg x.addr s = (match s2.focused with
        | some _ => draw s2
        | none =>
          match headAddr s2.clients with
          | none => draw s2
          | some h =>
            match cycle cfg (some 's') { s2 with focused := some h } with
            | none => none
            | some s3 => draw s3) := by
    by_cases hfc : s.focused = some x.addr
    · refine ⟨{ focusclient s (headAddr rest) with clients := pre ++ rest }, rfl, ?_, ?_, ?_⟩
      · intro b hb
        have hb1 : headAddr rest = some b := by simpa [focusclient] using hb
        show b ∈ addrs (pre ++ rest)
        rw [addrs_append]
        exact List.mem_append_right _ (headAddr_mem rest b hb1)
      · intro hb
        have hb1 : headAddr rest = some x.addr := by simpa [focusclient] using hb
        apply hnotin
        rw [addrs_append]
        exact List.mem_append_right _ (headAddr_mem rest _ hb1)
      · unfold unmanage
        simp only [h1, hfc, if_true]
        have h3' : removeNode (focusclient s (headAddr rest)).clients x.addr
            = some (pre ++ rest) := h3
        simp only [h3']
    · refine ⟨{ s with clients := pre ++ rest }, rfl, ?_, hfc, ?_⟩
      · intro b hb
        have hb1 : s.focused = some b := hb
        have hb2 := hok b hb1
        show b ∈ addrs (pre ++ rest)
        rw [← herase]
        have hne : b ≠ x.addr := by
          intro e
          rw [e] at hb1
          exact hfc hb1
        exact (List.mem_erase_of_ne hne).mpr hb2
      · unfold unmanage
        simp only [h1, hfc, if_false, h3]
  obtain ⟨s2, ha, hok2, hne, hun⟩ := hmid
  obtain ⟨s1, e1, e2, e3, e4, e5⟩ := unmanage_tail cfg s2 hok2
  refine ⟨s1, by rw [hun]; exact e1, by rw [e2, ha, herase], ?_, ?_⟩
  · intro hs1
    have := e3 x.addr hs1
    rw [e2, ha] at this
    exact hnotin this
  · intro hne1
    have h5 := e5 hne1
    cases hf1 : s1.focused with
    | none => exact absurd hf1 h5
    | some a => exact ⟨a, rfl, e3 a hf1⟩

/-- Unmanaging the focused first client of `stateA` leaves the second client, focused. -/
theorem unmanage_spec_witness :
    ∃ s1, unmanage cfgA 1 stateA = some s1 ∧
      addrs s1.clients = (addrs stateA.clients).erase 1 ∧
      s1.focused ≠ some 1 ∧
      (s1.clients ≠ [] → ∃ a, s1.focused = some a ∧ a ∈ addrs s1.clients) :=
  unmanage_spec cfgA stateA 1 (by decide) (by decide) (by decide)

/-! ## C8: `cycle` in onscreen mode -/

theorem cycleTarget_s {M : FloatOps} (cfg : Config M) (s : State M) (p : Nat)
    (t : Option Nat) (ht : cycleTarget cfg 's' s p = some t) :
    ∀ b, t = some b → ∃ c ∈ s.clients, c.addr = b ∧ onscreen cfg c = true ∧
      meets c.tags s.tags_hide = false := by
  intro b hb
  subst hb
  have hok : ∀ (l : List (Client M)) (x : Nat),
      seek (fun c => !(!(onscreen cfg c) || meets c.tags s.tags_hide)) l = some x →
      ∃ c ∈ l, c.addr = x ∧ onscreen cfg c = true ∧ meets c.tags s.tags_hide = false := by
    intro l x hx
    obtain ⟨c, hc, hca, hcok⟩ := seek_some _ l x hx
    refine ⟨c, hc, hca, ?_⟩
    simpa using hcok
  unfold cycleTarget at ht
  cases hn : nextOf s.clients p with
  | none => simp [hn] at ht
  | some rest =>
    have hsub := nextOf_sub s.clients rest p hn
    simp only [hn, show ('s' : Char) ≠ 'a' by decide, show ('s' : Char) ≠ 'v' by decide,
      if_false, if_true] at ht
    cases hs1 : seek (fun c => !(!(onscreen cfg c) || meets c.tags s.tags_hide)) rest with
    | some f =>
      simp only [hs1, Option.some.injEq] at ht
      subst ht
      obtain ⟨c, hc, h⟩ := hok rest _ hs1
      exact ⟨c, hsub c hc, h⟩
    | none =>
      simp only [hs1] at ht
      cases hcl : s.clients with
      | nil => simp [hcl] at ht
      | cons c l =>
        simp only [hcl] at ht
        split_ifs at ht with h5
        · simp only [Option.some.injEq] at ht
          obtain ⟨d, hd, h⟩ := hok l _ ht
          exact ⟨d, List.mem_cons_of_mem _ hd, h⟩
        · simp only [Option.some.injEq] at ht
          refine ⟨c, List.mem_cons_self _ _, ht, ?_⟩
          simpa using h5

/-- C8: in a registry with pairwise distinct node addresses whose focused client `p` is
in the registry, `cycle` with an argument starting with `'s'` returns, and afterwards the
focused client is `p` or a client that satisfies `onscreen` and has no tag in the hidden
mask; if no client of the registry satisfies `onscreen`, the focus stays on `p`. -/
theorem cycle_onscreen_spec {M : FloatOps} (cfg : Config M) (s : State M) (p : Nat)
    (hnd : (addrs s.clients).Nodup) (hf : s.focused = some p) (hp : p ∈ addrs s.clients) :
    ∃ s1, cycle cfg (some 's') s = some s1 ∧
      (s1.focused = some p ∨ ∃ a c, s1.focused = some a ∧ lookup s1.clients a = some c ∧
        onscreen cfg c = true ∧ meets c.tags s1.tags_hide = false) ∧
      ((∀ c ∈ s.clients, onscreen cfg c = false) → s1.focused = some p) := by
  have hok : FocusOK s := by
    intro a ha
    rw [hf] at ha
    cases ha
    exact hp
  obtain ⟨t, ht⟩ := cycleTarget_total cfg 's' s p hp (by decide)
  have hts := cycleTarget_s cfg s p t ht
  obtain ⟨s1, u, h1, hcase⟩ := cycle_of_target cfg 's' s p t hok hf ht
    (cycleTarget_mem cfg 's' s p t hp ht)
  have hfoc : s1.focused = some (t.getD p) := by
    rcases hcase with hcase | ⟨c, -, -, -, -, hcase⟩ <;> subst hcase <;> rfl
  refine ⟨s1, h1, ?_, ?_⟩
  · cases t with
    | none => exact Or.inl hfoc
    | some b =>
      obtain ⟨c, hc, hcb, hon, hhid⟩ := hts b rfl
      have hlk : lookup s.clients b = some c := by
        rw [← hcb]
        exact lookup_of_mem_nodup s.clients c hnd hc
      rcases hcase with hcase | ⟨c1, hc1, hoff, -, -, -⟩
      · subst hcase
        exact Or.inr ⟨b, c, rfl, hlk, hon, hhid⟩
      · have hc1' : lookup s.clients b = some c1 := hc1
        rw [hlk] at hc1'
        cases hc1'
        rw [hon] at hoff
        cases hoff
  · intro hnone
    cases t with
    | none => exact hfoc
    | some b =>
      obtain ⟨c, hc, -, hon, -⟩ := hts b rfl
      rw [hnone c hc] at hon
      cases hon

/-- In `stateA` both clients are on screen and no tag is hidden: from the first client
onscreen cycling returns and the postcondition of C8 holds. -/
theorem cycle_onscreen_spec_witness :
    ∃ s1, cycle cfgA (some 's') stateA = some s1 ∧
      (s1.focused = some 1 ∨ ∃ a c, s1.focused = some a ∧ lookup s1.clients a = some c ∧
        onscreen cfgA c = true ∧ meets c.tags s1.tags_hide = false) ∧
      ((∀ c ∈ stateA.clients, onscreen cfgA c = false) → s1.focused = some 1) :=
  cycle_onscreen_spec cfgA stateA 1 (by decide) rfl (by decide)

/-! ## C9: `cycle` in same-tags mode -/

theorem seek_append {M : FloatOps} (ok : Client M → Bool) (l1 l2 : List (Client M)) :
    seek ok (l1 ++ l2) = (match seek ok l1 with
      | some a => some a
      | none => seek ok l2) := by
  induction l1 with
  | nil => rfl
  | cons c l ih =>
    by_cases h : ok c = true
    · simp [seek, h]
    · simp only [Bool.not_eq_true] at h
      simp [seek, h, ih]

theorem cycleTarget_t {M : FloatOps} (cfg : Config M) (s : State M)
    (pre : List (Client M)) (pc : Client M) (post : List (Client M))
    (hl : s.clients = pre ++ pc :: post) (hpre : ∀ d ∈ pre, d.addr ≠ pc.addr) :
    ∃ t, cycleTarget cfg 't' s pc.addr = some t ∧
      t.getD pc.addr = (seek (fun c => meets c.tags pc.tags) (post ++ pre)).getD pc.addr := by
  obtain ⟨h1, h2, -⟩ := nextOf_split pre pc post hpre
  rw [← hl] at h1 h2
  unfold cycleTarget
  simp only [h1, h2, show ('t' : Char) ≠ 'a' by decide, show ('t' : Char) ≠ 'v' by decide,
    show ('t' : Char) ≠ 's' by decide, if_false, if_true]
  rw [seek_append]
  cases hs1 : seek (fun c => meets c.tags pc.tags) post with
  | some f => exact ⟨_, rfl, rfl⟩
  | none =>
    simp only []
    have hwrap : (match s.clients with
        | [] => some none
        | c :: l =>
          if (!(meets c.tags pc.tags)) = true then
            some (seek (fun c => meets c.tags pc.tags) l)
          else some (some c.addr)) =
        some (seek (fun c => meets c.tags pc.tags) s.clients) := by
      cases s.clients with
      | nil => rfl
      | cons c l =>
        by_cases hc : meets c.tags pc.tags = true
        · simp [seek, hc]
        · simp only [Bool.not_eq_true] at hc
          simp [seek, hc]
    rw [hwrap, hl, seek_append]
    refine ⟨_, rfl, ?_⟩
    cases hs2 : seek (fun c => meets c.tags pc.tags) pre with
    | some f => rfl
    | none =>
      simp only []
      by_cases hc : meets pc.tags pc.tags = true
      · simp [seek, hc]
      · simp only [Bool.not_eq_true] at hc
        simp [seek, hc, hs1]

/-- C9: in a registry `pre ++ p :: post` with pairwise distinct node addresses and the
focus on `p`, `cycle` with an argument starting with `'t'` returns, and the focus is then
on the first client of `post ++ pre` (the clients after `p` in circular traversal order)
whose tags share a bit with the tags of `p`, or on `p` when there is no such client. -/
theorem cycle_same_tags_spec {M : FloatOps} (cfg : Config M) (s : State M)
    (pre : List (Client M)) (p : Client M) (post : List (Client M))
    (hl : s.clients = pre ++ p :: post) (hnd : (addrs s.clients).Nodup)
    (hf : s.focused = some p.addr) :
    ∃ s1, cycle cfg (some 't') s = some s1 ∧
      s1.focused = some
        ((((post ++ pre).find? (fun c => meets c.tags p.tags)).map Client.addr).getD p.addr) := by
  have hpre : ∀ d ∈ pre, d.addr ≠ p.addr := by
    intro d hd e
    rw [hl, addrs_append] at hnd
    have hnd1 : (addrs pre ++ p.addr :: addrs post).Nodup := hnd
    rw [List.nodup_append] at hnd1
    exact hnd1.2.2 (mem_addrs_of_mem pre d hd) (by rw [e]; exact List.mem_cons_self _ _)
  have hp : p.addr ∈ addrs s.clients := by
    rw [hl]
    exact mem_addrs_of_mem _ p (by simp)
  have hok : FocusOK s := by
    intro a ha
    rw [hf] at ha
    cases ha
    exact hp
  obtain ⟨t, ht, hget⟩ := cycleTarget_t cfg s pre p post hl hpre
  obtain ⟨s1, u, h1, hcase⟩ := cycle_of_target cfg 't' s p.addr t hok hf ht
    (cycleTarget_mem cfg 't' s p.addr t hp ht)
  refine ⟨s1, h1, ?_⟩
  rw [← seek_eq_find, ← hget]
  rcases hcase with hcase | ⟨c, -, -, -, -, hcase⟩ <;> subst hcase <;> rfl

/-- The scenario of C9: traversal order C, B, A with tags A = {1}, B = {1, 2}, C = {2}
and the focus on A: same-tags cycling puts the focus on B (address 2), not on C. -/
theorem cycle_same_tags_spec_witness :
    ∃ s1, cycle cfgA (some 't') stateCBA = some s1 ∧ s1.focused = some 2 :=
  (cycle_same_tags_spec cfgA stateCBA [clientAt 3 2, clientAt 2 3] (clientAt 1 1) []
    rfl (by decide) rfl).imp (fun _ h => ⟨h.1, h.2.trans (by decide)⟩)

/-! ## C10: `cycle` in visible-tags mode -/

/-- When every client of the registry has a hidden tag, `cycle` with an argument starting
with `'v'` does not return: the second search loop reads `->tags` through `NULL`. -/
theorem cycle_visible_all_hidden {M : FloatOps} (cfg : Config M) (s : State M) (p : Nat)
    (hf : s.focused = some p) (hp : p ∈ addrs s.clients)
    (hall : ∀ c ∈ s.clients, meets c.tags s.tags_hide = true) :
    cycle cfg (some 'v') s = none := by
  obtain ⟨pre, pc, rest, hl, hpc, hpre⟩ := mem_addrs_split s.clients p hp
  subst hpc
  obtain ⟨h1, -, -⟩ := nextOf_split pre pc rest hpre
  rw [← hl] at h1
  have hnone : ∀ l : List (Client M), (∀ c ∈ l, c ∈ s.clients) →
      seek (fun c => !(meets c.tags s.tags_hide)) l = none := by
    intro l hsub
    apply seek_none
    intro c hc
    simp [hall c (hsub c hc)]
  have ht : cycleTarget cfg 'v' s pc.addr = none := by
    unfold cycleTarget
    simp only [h1, show ('v' : Char) ≠ 'a' by decide, if_false, if_true,
      hnone rest (nextOf_sub s.clients rest pc.addr h1)]
    cases hcl : s.clients with
    | nil => simp [hcl] at hl
    | cons c l =>
      have hc : meets c.tags s.tags_hide = true := hall c (by simp [hcl])
      have hl1 := hnone l (fun d hd => by simp [hcl, hd])
      simp [hc, hl1]
  simp [cycle, hf, ht]

/-- C10 at a registry with one client whose tag is hidden: `cycle("visible")` does not
return (the focus does not stay on the client, the program dereferences `NULL`). -/
theorem cycle_visible_hidden_crash : cycle cfgA (some 'v') stateHidden = none := by
  decide

/-! ## C7: the focus pointer in every reachable state -/

theorem focusOK_of_same {M : FloatOps} (s t : State M) (h1 : addrs t.clients = addrs s.clients)
    (h2 : t.focused = s.focused) (hok : FocusOK s) : FocusOK t := by
  intro a ha
  rw [h1]
  exact hok a (by rw [← h2]; exact ha)

theorem draw_keeps {M : FloatOps} (s t : State M) (h : draw s = some t) :
    addrs t.clients = addrs s.clients ∧ FocusOK t := by
  obtain ⟨h1, -⟩ := draw_some_pres s t h
  exact ⟨by rw [h1], draw_some_focusOK s t h⟩

theorem tile_bstack_rest_addrs {M : FloatOps} (cfg : Config M) (s : State M) (w h : Int)
    (i : Int) (l : List (Client M)) : addrs (tile_bstack_rest cfg s w h i l) = addrs l := by
  induction l generalizing i with
  | nil => rfl
  | cons c l ih =>
    have := ih (i + 1)
    simp only [addrs, List.map_cons, tile_bstack_rest] at this ⊢
    rw [this]

theorem tile_bstack_addrs {M : FloatOps} (cfg : Config M) (s : State M) (n : Int)
    (l : List (Client M)) : addrs (tile_bstack cfg s n l) = addrs l := by
  cases l with
  | nil => rfl
  | cons c l =>
    have := tile_bstack_rest_addrs cfg s (Int.tdiv (cfg.sw - cfg.tilegap) (n - 1))
      (Int.tdiv (cfg.sh - barTop cfg s - cfg.tilegap) 2 - (cfg.tilegap + 2 * cfg.borderwidth)) 0 l
    simp only [addrs, List.map_cons, tile_bstack] at this ⊢
    rw [this]

theorem zoom_pres {M : FloatOps} (cfg : Config M) (f : M.F) (x y : Int) (s s1 : State M)
    (h : zoom cfg f x y s = some s1) : addrs s1.clients = addrs s.clients ∧ FocusOK s1 := by
  obtain ⟨h1, h2⟩ := draw_keeps _ _ h
  refine ⟨?_, h2⟩
  rw [h1]
  exact addrs_map _ (zoom1_addr cfg s.tags_stik f x y) _

theorem checkpoint_pres {M : FloatOps} (cfg : Config M) (key : Char) (s s1 : State M)
    (hok : FocusOK s) (h : checkpoint cfg key s = some s1) :
    addrs s1.clients = addrs s.clients ∧ FocusOK s1 := by
  unfold checkpoint at h
  cases hk : findKey key s.checks with
  | none =>
    simp only [hk, Option.some.injEq] at h
    subst h
    exact ⟨rfl, hok⟩
  | some cp =>
    simp only [hk] at h
    obtain ⟨v, hv⟩ := animate_eq_panned cfg (-cp.x) (-cp.y) s hok
    simp only [hv] at h
    have hadd1 : addrs (panned s (-cp.x) (-cp.y) v).clients = addrs s.clients :=
      addrs_map _ (scroll1_addr _ _ _) _
    cases hk1 : findKey key (panned s (-cp.x) (-cp.y) v).checks with
    | none => simp [hk1] at h
    | some cp1 =>
      simp only [hk1] at h
      cases hz : zoom cfg (M.div (M.ofInt 1) cp1.zoom) 0 0 (panned s (-cp.x) (-cp.y) v) with
      | none => simp [hz] at h
      | some s2 =>
        simp only [hz] at h
        obtain ⟨z1, -⟩ := zoom_pres cfg _ 0 0 _ s2 hz
        split at h
        · obtain ⟨d1, d2⟩ := draw_keeps _ _ h
          exact ⟨by rw [d1]; show addrs s2.clients = _; rw [z1, hadd1], d2⟩
        · obtain ⟨d1, d2⟩ := draw_keeps _ _ h
          exact ⟨by rw [d1]; show addrs s2.clients = _; rw [z1, hadd1], d2⟩

theorem checkpoint_set_pres {M : FloatOps} (key : Char) (s : State M) (hok : FocusOK s) :
    addrs (checkpoint_set key s).clients = addrs s.clients ∧ FocusOK (checkpoint_set key s) := by
  obtain ⟨h1, h2, -⟩ := checkpoint_set_frame key s
  exact ⟨by rw [h1], focusOK_of_same s _ (by rw [h1]) h2 hok⟩

theorem zoomwindow_addr {M : FloatOps} (cfg : Config M) (f : M.F) (x y : Int) (c : Client M) :
    (zoomwindow cfg f x y c).addr = c.addr := rfl

theorem lookup_map {M : FloatOps} (f : Client M → Client M) (hf : ∀ c, (f c).addr = c.addr)
    (l : List (Client M)) (a : Nat) : lookup (l.map f) a = (lookup l a).map f := by
  induction l with
  | nil => rfl
  | cons c l ih =>
    by_cases hc : c.addr = a
    · simp [lookup, hf, hc]
    · simp [lookup, hf, hc, ih]

/-- C12 at `stateRecall`: the recall `checkpoint('1')` finds the checkpoint and leaves
the focus on the first client, which is off screen and in a hidden tag, although the
second client is on screen and in no hidden tag: the search loop stops at the first
client that is on screen or hidden. -/
theorem recall_focuses_hidden_client :
    stateRecall.clients.map
      (fun c => (c.addr, onscreen cfgA c, meets c.tags stateRecall.tags_hide)) =
      [(1, false, true), (2, true, false)] ∧
    (checkpoint cfgA '1' stateRecall).map
      (fun s => (s.focused, s.clients.map
        (fun c => (c.addr, onscreen cfgA c, meets c.tags s.tags_hide)))) =
      some (some 1, [(1, false, true), (2, true, false)]) := by
  refine ⟨?_, ?_⟩ <;> with_unfolding_all decide

/-- When no checkpoint has the key, the recall changes nothing: it returns the state
it was given. -/
theorem recall_unknown_key {M : FloatOps} (cfg : Config M) (key : Char) (s : State M)
    (h : findKey key s.checks = none) : checkpoint cfg key s = some s := by
  simp [checkpoint, h]

/-! ## C13: `checkpoint_update` -/

/-- C13: `checkpoint_update(a, b, factor)` changes the checkpoint store and no other
global; the store keeps its length and order and every checkpoint keeps its key. When
`factor` is 1 the checkpoint at every place gets the offset `(x + a, y + b)` and keeps
its zoom; when `factor` is not 1 its zoom is multiplied by `factor` and its offset
becomes `((x - a)*factor + a, (y - b)*factor + b)`, computed in `float` and converted
to `int`. -/
theorem checkpoint_update_spec {M : FloatOps} (a b : Int) (factor : M.F) (s : State M) :
    checkpoint_update a b factor s =
      { s with checks := (checkpoint_update a b factor s).checks } ∧
    (checkpoint_update a b factor s).checks.length = s.checks.length ∧
    (checkpoint_update a b factor s).checks.map Checkpoint.key =
      s.checks.map Checkpoint.key ∧
    (factor = M.ofInt 1 → ∀ (i : Nat) (cp : Checkpoint M), s.checks[i]? = some cp →
      (checkpoint_update a b factor s).checks[i]? =
        some { cp with x := cp.x + a, y := cp.y + b }) ∧
    (factor ≠ M.ofInt 1 → ∀ (i : Nat) (cp : Checkpoint M), s.checks[i]? = some cp →
      (checkpoint_update a b factor s).checks[i]? =
        some { cp with
          zoom := M.mul cp.zoom factor
          x := M.toInt (M.add (M.mul (M.ofInt (cp.x - a)) factor) (M.ofInt a))
          y := M.toInt (M.add (M.mul (M.ofInt (cp.y - b)) factor) (M.ofInt b)) }) := by
  refine ⟨rfl, by simp [checkpoint_update], ?_, ?_, ?_⟩
  · simp only [checkpoint_update, List.map_map]
    apply List.map_congr_left
    intro cp _
    simp only [Function.comp, checkpoint_update1]
    split <;> rfl
  · intro hf i cp hi
    simp [checkpoint_update, List.getElem?_map, hi, checkpoint_update1, hf]
  · intro hf i cp hi
    simp [checkpoint_update, List.getElem?_map, hi, checkpoint_update1, hf]

/-- On the store of `stateChecks`: a pan by (10, 20) adds to every offset, a zoom by 2
about (1, 1) doubles every zoom and maps the offset (7, -9) of the second checkpoint
to (13, -19). -/
theorem checkpoint_update_spec_witness :
    (checkpoint_update 10 20 (ratFloat.ofInt 1) stateChecks).checks[1]? =
      some { x := 7 + 10, y := -9 + 20, zoom := (3 : ℚ), key := '1' } ∧
    (checkpoint_update 1 1 (2 : ℚ) stateChecks).checks[1]? =
      some { x := ratFloat.toInt (ratFloat.add (ratFloat.mul (ratFloat.ofInt (7 - 1)) (2 : ℚ))
                (ratFloat.ofInt 1)),
             y := ratFloat.toInt (ratFloat.add (ratFloat.mul (ratFloat.ofInt (-9 - 1)) (2 : ℚ))
                (ratFloat.ofInt 1)),
             zoom := ratFloat.mul (3 : ℚ) (2 : ℚ), key := '1' } ∧
    ratFloat.toInt (ratFloat.add (ratFloat.mul (ratFloat.ofInt (7 - 1)) (2 : ℚ))
      (ratFloat.ofInt 1)) = 13 ∧
    ratFloat.toInt (ratFloat.add (ratFloat.mul (ratFloat.ofInt (-9 - 1)) (2 : ℚ))
      (ratFloat.ofInt 1)) = -19 :=
  ⟨(checkpoint_update_spec 10 20 (ratFloat.ofInt 1) stateChecks).2.2.2.1 rfl 1 _ rfl,
   (checkpoint_update_spec 1 1 (2 : ℚ) stateChecks).2.2.2.2
     (by show (2 : ℚ) ≠ ((1 : Int) : ℚ); norm_num) 1 _ rfl,
   by with_unfolding_all decide, by with_unfolding_all decide⟩

/-! ## C15 and C16: `tile` on small registries, `tile_one` -/

/-- C15: whatever the argument (a layout name, a bias command, even `NULL`), `tile` on
an empty registry returns the state unchanged, and `tile` on a registry of exactly one
client returns the state in which that client has the geometry `tile_one` assigns and
nothing else (no bias, no other global) has changed. -/
theorem tile_small_registry {M : FloatOps} (cfg : Config M) (arg : Option Char)
    (s : State M) :
    (s.clients = [] → tile cfg arg s = some s) ∧
    (∀ c, s.clients = [c] → tile cfg arg s = some { s with clients := [tile_one cfg s c] }) := by
  refine ⟨?_, ?_⟩
  · intro h
    unfold tile
    rw [h]
  · intro c h
    unfold tile
    rw [h]

/-- The bias command `"increase"` on the empty registry and on a registry of one client. -/
theorem tile_small_registry_witness :
    tile cfgA (some 'i') (stateOf [] none) = some (stateOf [] none) ∧
    tile cfgA (some 'i') (stateOf [clientAt 1 1] (some 1)) =
      some { stateOf [clientAt 1 1] (some 1) with
        clients := [tile_one cfgA (stateOf [clientAt 1 1] (some 1)) (clientAt 1 1)] } :=
  ⟨(tile_small_registry cfgA (some 'i') (stateOf [] none)).1 rfl,
   (tile_small_registry cfgA (some 'i') (stateOf [clientAt 1 1] (some 1))).2 _ rfl⟩

/-- C16: for every screen size, gap, border width and bar setting, `tile_one` gives the
client integer width `W` and height `H` (stored as `float`) and a position such that the
outer rectangle lies exactly `tilegap` inside the usable area: `x = tilegap`,
`x + W + 2*borderwidth = sw - tilegap`, `y = usableTop + tilegap`,
`y + H + 2*borderwidth = usableBottom - tilegap`. -/
theorem tile_one_rectangle {M : FloatOps} (cfg : Config M) (s : State M) (c : Client M) :
    ∃ W H : Int, (tile_one cfg s c).w = M.ofInt W ∧ (tile_one cfg s c).h = M.ofInt H ∧
      (tile_one cfg s c).x = cfg.tilegap ∧
      (tile_one cfg s c).x + W + 2 * cfg.borderwidth = cfg.sw - cfg.tilegap ∧
      (tile_one cfg s c).y = usableTop cfg s + cfg.tilegap ∧
      (tile_one cfg s c).y + H + 2 * cfg.borderwidth = usableBottom cfg s - cfg.tilegap := by
  refine ⟨cfg.sw - 2 * (cfg.tilegap + cfg.borderwidth),
    cfg.sh - barBand cfg s - 2 * (cfg.tilegap + cfg.borderwidth), rfl, rfl, rfl, ?_, rfl, ?_⟩
  · simp only [tile_one]
    omega
  · simp only [tile_one, barTop, barBand, usableBottom]
    cases s.showbar <;> cases s.topbar <;> simp <;> omega

/-! ## C14: `tile` in vertical-stack mode on three clients -/

/-- C14, as the code has it: on a registry of exactly three clients with bias 0 and a
valid focus pointer, `tile` with an argument starting with `'b'` returns; the first
client gets the height `(sh - (showbar && topbar ? barheight : 0) - tilegap)/2 -
(tilegap + 2*borderwidth)`, which with the bar hidden or at the top is half of the
usable height `sh - (showbar ? barheight : 0)` less the gap, less gap and borders; the
second client gets the width `MAX((sw - tilegap)/2 - tilegap - 2*borderwidth, win_min)`
and the third, the last of the row, the rest of the row
`MAX(sw - (tilegap + (sw - tilegap)/2) - tilegap - 2*borderwidth, win_min)`; the two
widths are equal when `sw - tilegap` is even. -/
theorem tile_bstack_three {M : FloatOps} (cfg : Config M) (s : State M)
    (c1 c2 c3 : Client M) (hcl : s.clients = [c1, c2, c3]) (hb : s.tilebias = 0)
    (hok : FocusOK s) :
    ∃ s1 d1 d2 d3, tile cfg (some 'b') s = some s1 ∧ s1.clients = [d1, d2, d3] ∧
      d1.h = M.ofInt (Int.tdiv (cfg.sh - barTop cfg s - cfg.tilegap) 2
        - (cfg.tilegap + 2 * cfg.borderwidth)) ∧
      ((s.showbar = true → s.topbar = true) →
        d1.h = M.ofInt (Int.tdiv (cfg.sh - barBand cfg s - cfg.tilegap) 2
          - (cfg.tilegap + 2 * cfg.borderwidth))) ∧
      d2.w = M.ofInt (cmax (Int.tdiv (cfg.sw - cfg.tilegap) 2 - cfg.tilegap
        - 2 * cfg.borderwidth) cfg.win_min) ∧
      d3.w = M.ofInt (cmax (cfg.sw - (cfg.tilegap + Int.tdiv (cfg.sw - cfg.tilegap) 2)
        - cfg.tilegap - 2 * cfg.borderwidth) cfg.win_min) ∧
      ((cfg.sw - cfg.tilegap) % 2 = 0 → d2.w = d3.w) := by
  have hok1 : FocusOK { s with clients := tile_bstack cfg s 3 [c1, c2, c3] } := by
    have hadd : addrs (tile_bstack cfg s 3 [c1, c2, c3]) = addrs s.clients := by
      rw [tile_bstack_addrs, hcl]
    exact focusOK_of_same s _ hadd rfl hok
  obtain ⟨u, hu⟩ := draw_of_focusOK _ hok1
  have ht : tile cfg (some 'b') s =
      draw { s with clients := tile_bstack cfg s 3 [c1, c2, c3] } := by
    unfold tile
    rw [hcl]
    simp
  rw [ht, hu]
  refine ⟨_, _, _, _, rfl, rfl, ?_, ?_, ?_, ?_, ?_⟩
  · simp [hb]
  · intro hbar
    have : barTop cfg s = barBand cfg s := by
      unfold barTop barBand
      cases hs : s.showbar <;> cases ht : s.topbar <;> simp_all
    simp [hb, this]
  · rfl
  · simp
  · intro hev
    have : Int.tdiv (cfg.sw - cfg.tilegap) 2 - cfg.tilegap - 2 * cfg.borderwidth =
        cfg.sw - (cfg.tilegap + 1 * Int.tdiv (cfg.sw - cfg.tilegap) 2) - cfg.tilegap
          - 2 * cfg.borderwidth := by
      have h2 : 2 * Int.tdiv (cfg.sw - cfg.tilegap) 2 = cfg.sw - cfg.tilegap :=
        Int.mul_tdiv_cancel' (Int.dvd_of_emod_eq_zero hev)
      omega
    simp [this]

/-- On a 1024 pixel wide screen with gap 4 (`sw - tilegap` even) the second and third
client of `stateThree` get the same width. -/
theorem tile_bstack_three_witness :
    ∃ s1 d1 d2 d3, tile cfgA (some 'b') stateThree = some s1 ∧ s1.clients = [d1, d2, d3] ∧
      d2.w = d3.w :=
  (tile_bstack_three cfgA stateThree (clientAt 1 1) (clientAt 2 1) (clientAt 3 1) rfl rfl
    (by decide)).imp (fun _ h => h.imp (fun _ h => h.imp (fun _ h => h.imp (fun _ h =>
      ⟨h.1, h.2.1, h.2.2.2.2.2.2 (by rfl)⟩))))

/-- C14 fails as stated: on a screen of width 1025 with gap 4, border 1 and bias 0,
vertical-stack tiling of three clients gives the second client the width 504 and the
third the width 505. -/
theorem tile_bstack_unequal_widths :
    stateThree.tilebias = 0 ∧
    (tile cfgOdd (some 'b') stateThree).map (fun s => s.clients.map (fun c => c.w)) =
      some [ratFloat.ofInt 1015, ratFloat.ofInt 504, ratFloat.ofInt 505] := by
  refine ⟨rfl, ?_⟩
  decide

/-! ## C18: `maprequest` -/

theorem wintoclient_none_iff {M : FloatOps} (l : List (Client M)) (w : Nat) :
    wintoclient l w = none ↔ w ∉ wins l := by
  induction l with
  | nil => simp [wintoclient, wins]
  | cons c l ih =>
    by_cases hc : c.win = w
    · simp [wintoclient, wins, hc]
    · have hc' : w ≠ c.win := fun e => hc e.symm
      simp only [wintoclient, hc, if_false, ih, wins, List.map_cons, List.mem_cons, not_or]
      exact ⟨fun h => ⟨hc', h⟩, fun h => h.2⟩

/-- C18: a map request whose window attributes can be read, for a window that is not
override-redirect and not in the registry, returns (when `calloc` gives a node) with
exactly one new client linked in front of the unchanged registry; the new client has the
window's handle, the tag mask `1<<curtag = 2^curtag` and is the focused client. A map
request for an override-redirect window returns the state unchanged; one for a window
that is already in the registry leaves the registry unchanged (and returns when the
focus pointer is valid). In every case a registry without duplicate window handles stays
without duplicates. -/
theorem maprequest_spec {M : FloatOps} (cfg : Config M) (window : Nat)
    (ax ay aw ah : Int) (s : State M) :
    (∀ a, wintoclient s.clients window = none →
      ∃ s1 c, maprequest cfg window true false ax ay aw ah (some a) s = some s1 ∧
        s1.clients = c :: s.clients ∧ c.addr = a ∧ c.win = window ∧
        c.tags = bit s.curtag ∧ bit s.curtag = 2 ^ s.curtag ∧ s1.focused = some a) ∧
    (∀ ok na, maprequest cfg window ok true ax ay aw ah na s = some s) ∧
    (∀ ok ov na, wintoclient s.clients window ≠ none →
      (FocusOK s → ∃ s1, maprequest cfg window ok ov ax ay aw ah na s = some s1) ∧
      ∀ s1, maprequest cfg window ok ov ax ay aw ah na s = some s1 →
        s1.clients = s.clients) ∧
    (∀ ok ov na s1, maprequest cfg window ok ov ax ay aw ah na s = some s1 →
      (wins s.clients).Nodup → (wins s1.clients).Nodup) := by
  have hnew : ∀ a, wintoclient s.clients window = none →
      ∃ s1 c, maprequest cfg window true false ax ay aw ah (some a) s = some s1 ∧
        s1.clients = c :: s.clients ∧ c.addr = a ∧ c.win = window ∧
        c.tags = bit s.curtag ∧ s1.focused = some a := by
    intro a hw
    simp only [maprequest, hw, Bool.not_true, Bool.false_eq_true, if_false]
    simp only [draw, focusclient, lookup, if_true]
    exact ⟨_, _, rfl, rfl, rfl, rfl, rfl, rfl⟩
  have htracked : ∀ ok ov na s1, wintoclient s.clients window ≠ none →
      maprequest cfg window ok ov ax ay aw ah na s = some s1 → s1.clients = s.clients := by
    intro ok ov na s1 hw h
    cases hw1 : wintoclient s.clients window with
    | none => exact absurd hw1 hw
    | some c =>
      cases ok <;> cases ov <;>
        simp only [maprequest, hw1, Bool.not_true, Bool.not_false, Bool.false_eq_true,
          if_false, if_true, Option.some.injEq] at h
      · rw [← h]
      · rw [← h]
      · exact (draw_some_pres s s1 h).1
      · rw [← h]
  refine ⟨?_, ?_, ?_, ?_⟩
  · intro a hw
    obtain ⟨s1, c, h1, h2, h3, h4, h5, h6⟩ := hnew a hw
    refine ⟨s1, c, h1, h2, h3, h4, h5, ?_, h6⟩
    unfold bit
    rw [Int.one_shiftLeft]
    simp
  · intro ok na
    unfold maprequest
    cases ok <;> simp
  · intro ok ov na hw
    refine ⟨?_, fun s1 h => htracked ok ov na s1 hw h⟩
    intro hok
    cases hw1 : wintoclient s.clients window with
    | none => exact absurd hw1 hw
    | some c =>
      obtain ⟨t, ht, -, -⟩ := draw_pres s hok
      cases ok <;> cases ov <;>
        simp only [maprequest, hw1, Bool.not_true, Bool.not_false, Bool.false_eq_true,
          if_false, if_true]
      · exact ⟨s, rfl⟩
      · exact ⟨s, rfl⟩
      · exact ⟨t, ht⟩
      · exact ⟨s, rfl⟩
  · intro ok ov na s1 h hnd
    cases hw : wintoclient s.clients window with
    | some c =>
      rw [htracked ok ov na s1 (by rw [hw]; simp) h]
      exact hnd
    | none =>
      cases ok with
      | false =>
        simp only [maprequest, Bool.not_false, if_true, Option.some.injEq] at h
        rw [← h]
        exact hnd
      | true =>
        cases ov with
        | true =>
          simp only [maprequest, Bool.not_true, Bool.false_eq_true, if_false, if_true,
            Option.some.injEq] at h
          rw [← h]
          exact hnd
        | false =>
          cases na with
          | none => simp [maprequest, hw] at h
          | some a =>
            obtain ⟨s2, c, h1, h2, -, h4, -, -⟩ := hnew a hw
            rw [h1] at h
            cases h
            rw [h2]
            show (c.win :: wins s.clients).Nodup
            rw [List.nodup_cons, h4]
            exact ⟨(wintoclient_none_iff s.clients window).mp hw, hnd⟩

/-- A map request for the new window 7 on the registry of `stateA` (windows 1 and 2)
puts a client for window 7 in front and focuses it; a second request for window 2
leaves the registry as it is. -/
theorem maprequest_spec_witness :
    (∃ s1 c, maprequest cfgA 7 true false 10 50 300 200 (some 9) stateA = some s1 ∧
      s1.clients = c :: stateA.clients ∧ c.addr = 9 ∧ c.win = 7 ∧
      c.tags = bit stateA.curtag ∧ bit stateA.curtag = 2 ^ stateA.curtag ∧
      s1.focused = some 9) ∧
    (∃ s1, maprequest cfgA 2 true false 10 50 300 200 (some 9) stateA = some s1) ∧
    (wins stateA.clients).Nodup :=
  ⟨(maprequest_spec cfgA 7 10 50 300 200 stateA).1 9 (by decide),
   ((maprequest_spec cfgA 2 10 50 300 200 stateA).2.2.1 true false (some 9)
      (by decide)).1 (by decide),
   by decide⟩

/-! ## C19: `tag` -/

theorem testBit_bit_self (k : Nat) : Int.testBit (bit k) k = true := by
  unfold bit
  rw [Int.one_shiftLeft]
  show Nat.testBit (2 ^ k) k = true
  exact Nat.testBit_two_pow_self

theorem testBit_clear (u : Int) (k : Nat) :
    Int.testBit (Int.land u (Int.lnot (bit k))) k = false := by
  rw [Int.testBit_land, Int.testBit_lnot, testBit_bit_self]
  simp

theorem draw_clears_curtag {M : FloatOps} (s t : State M) (h : draw s = some t) :
    Int.testBit t.tags_urg s.curtag = false := by
  unfold draw at h
  split at h
  · cases h
    exact testBit_clear _ _
  · split at h
    · simp at h
    · cases h
      exact testBit_clear _ _

/-- C19: for an argument whose first character is `'1' + k` (so `k = arg[0] - 49`) and
every state with a non-empty registry and a focused client `p` in it, `tag` returns;
afterwards `k` is the active tag and bit `k` of the urgent mask is clear; if `p` is not
in tag `k` and some client is, the focus is on the first client in traversal order that
is in tag `k`, otherwise the focus is still on `p`; the registry (order, geometry and
tags of every client) and the hidden and sticky masks are unchanged. -/
theorem tag_spec {M : FloatOps} (a : Char) (s : State M) (p : Nat) (pc : Client M)
    (ha : 49 ≤ a.toNat) (hne : s.clients ≠ []) (hf : s.focused = some p)
    (hp : lookup s.clients p = some pc) :
    ∃ s1, tag (some a) s = some s1 ∧ s1.curtag = a.toNat - 49 ∧
      Int.testBit s1.tags_urg (a.toNat - 49) = false ∧
      s1.focused = (if meets pc.tags (bit (a.toNat - 49)) then some p
        else match s.clients.find? (fun c => meets c.tags (bit (a.toNat - 49))) with
          | some t => some t.addr
          | none => some p) ∧
      s1.clients = s.clients ∧ s1.tags_hide = s.tags_hide ∧ s1.tags_stik = s.tags_stik := by
  have hlt : ¬ a.toNat < 49 := by omega
  obtain ⟨c0, l0, hcl⟩ : ∃ c0 l0, s.clients = c0 :: l0 := by
    cases hs : s.clients with
    | nil => exact absurd hs hne
    | cons c l => exact ⟨c, l, rfl⟩
  have hfind : seek (fun c => meets c.tags (bit (a.toNat - 49))) s.clients =
      (s.clients.find? (fun c => meets c.tags (bit (a.toNat - 49)))).map Client.addr :=
    seek_eq_find _ _
  -- the state that `draw` is called on
  have key : ∃ s0 : State M, tag (some a) s = draw s0 ∧ s0.curtag = a.toNat - 49 ∧
      s0.clients = s.clients ∧ s0.tags_hide = s.tags_hide ∧ s0.tags_stik = s.tags_stik ∧
      s0.focused = (if meets pc.tags (bit (a.toNat - 49)) then some p
        else match s.clients.find? (fun c => meets c.tags (bit (a.toNat - 49))) with
          | some t => some t.addr
          | none => some p) := by
    unfold tag
    simp only [hlt, if_false, hcl]
    rw [← hcl]
    simp only [hf, hp, hfind]
    cases hfd : s.clients.find? (fun c => meets c.tags (bit (a.toNat - 49))) with
    | none =>
      simp only [Option.map_none']
      refine ⟨_, rfl, rfl, rfl, rfl, rfl, ?_⟩
      split <;> rfl
    | some t =>
      simp only [Option.map_some']
      by_cases hm : meets pc.tags (bit (a.toNat - 49)) = true
      · simp only [hm, Bool.not_true, Bool.false_eq_true, if_false, if_true]
        exact ⟨_, rfl, rfl, rfl, rfl, rfl, rfl⟩
      · simp only [hm, Bool.not_eq_true] at hm ⊢
        simp only [hm, Bool.not_false, if_true, Bool.false_eq_true, if_false]
        exact ⟨_, rfl, rfl, rfl, rfl, rfl, rfl⟩
  obtain ⟨s0, h0, k1, k2, k3, k4, k5⟩ := key
  have hok0 : FocusOK s0 := by
    intro b hb
    rw [k5] at hb
    rw [k2]
    have hpin : p ∈ addrs s.clients := by
      obtain ⟨h1, h2⟩ := lookup_some s.clients p pc hp
      rw [← h2]
      exact mem_addrs_of_mem _ _ h1
    split_ifs at hb
    · cases hb
      exact hpin
    · split at hb
      · rename_i t hfd
        cases hb
        exact mem_addrs_of_mem _ _ (List.mem_of_find?_eq_some hfd)
      · cases hb
        exact hpin
  obtain ⟨u, hu⟩ := draw_of_focusOK s0 hok0
  refine ⟨{ s0 with tags_urg := u }, by rw [h0, hu], k1, ?_, k5, k2, k3, k4⟩
  have := draw_clears_curtag s0 _ hu
  rw [k1] at this
  exact this

/-- In `stateCBA` (order C, B, A; A in tag 1 focused, C in tag 2 first in the order)
`tag("2")` makes tag index 1 active and moves the focus to C (address 3). -/
theorem tag_spec_witness :
    ∃ s1, tag (some '2') stateCBA = some s1 ∧ s1.curtag = 1 ∧
      Int.testBit s1.tags_urg 1 = false ∧ s1.focused = some 3 ∧
      s1.clients = stateCBA.clients :=
  (tag_spec '2' stateCBA 1 (clientAt 1 1) (by decide) (by decide) rfl rfl).imp
    (fun _ h => ⟨h.1, h.2.1, h.2.2.1, h.2.2.2.1.trans (by decide), h.2.2.2.2.1⟩)

/-! ## C20: the isolate operation of `tagconfig` -/

theorem int_eq_of_testBit_eq (m n : Int) (h : ∀ i, Int.testBit m i = Int.testBit n i) :
    m = n := by
  cases m with
  | ofNat a =>
    cases n with
    | ofNat b =>
      have : a = b := Nat.eq_of_testBit_eq (fun i => h i)
      rw [this]
    | negSucc b =>
      exfalso
      have h1 := h (a + b)
      have ha : Nat.testBit a (a + b) = false :=
        Nat.testBit_eq_false_of_lt (lt_of_lt_of_le (Nat.lt_two_pow a)
          (Nat.pow_le_pow_right (by decide) (Nat.le_add_right a b)))
      have hb : Nat.testBit b (a + b) = false :=
        Nat.testBit_eq_false_of_lt (lt_of_lt_of_le (Nat.lt_two_pow b)
          (Nat.pow_le_pow_right (by decide) (Nat.le_add_left b a)))
      simp [Int.testBit, ha, hb] at h1
  | negSucc a =>
    cases n with
    | ofNat b =>
      exfalso
      have h1 := h (a + b)
      have ha : Nat.testBit a (a + b) = false :=
        Nat.testBit_eq_false_of_lt (lt_of_lt_of_le (Nat.lt_two_pow a)
          (Nat.pow_le_pow_right (by decide) (Nat.le_add_right a b)))
      have hb : Nat.testBit b (a + b) = false :=
        Nat.testBit_eq_false_of_lt (lt_of_lt_of_le (Nat.lt_two_pow b)
          (Nat.pow_le_pow_right (by decide) (Nat.le_add_left b a)))
      simp [Int.testBit, ha, hb] at h1
    | negSucc b =>
      have : a = b := Nat.eq_of_testBit_eq (fun i => by
        have := h i
        simpa [Int.testBit] using this)
      rw [this]

theorem testBit_bit (n j : Nat) : Int.testBit (bit n) j = decide (n = j) := by
  unfold bit
  rw [Int.one_shiftLeft]
  show Nat.testBit (2 ^ n) j = decide (n = j)
  exact Nat.testBit_two_pow

theorem testBit_isolate1 (cur : Nat) (h : Int) (n j : Nat) :
    Int.testBit (isolate1 cur h n) j =
      if n = j then decide (j ≠ cur) else Int.testBit h j := by
  unfold isolate1
  by_cases hn : n = cur
  · simp only [hn, ne_eq, not_true_eq_false, if_false, Int.testBit_land, Int.testBit_lnot,
      testBit_bit]
    by_cases hj : cur = j
    · simp [hj]
    · simp [hj]
  · simp only [ne_eq, hn, not_false_eq_true, if_true, Int.testBit_lor, testBit_bit]
    by_cases hj : n = j
    · subst hj
      simp [hn]
    · simp [hj]

theorem testBit_isolate (cur : Nat) (h : Int) (n j : Nat) :
    Int.testBit ((List.range n).foldl (isolate1 cur) h) j =
      if j < n then decide (j ≠ cur) else Int.testBit h j := by
  induction n with
  | zero => simp
  | succ n ih =>
    rw [List.range_succ, List.foldl_append]
    simp only [List.foldl_cons, List.foldl_nil, testBit_isolate1, ih]
    by_cases hj : n = j
    · subst hj
      simp
    · by_cases hlt : j < n
      · have : j < n + 1 := by omega
        simp [hj, hlt, this]
      · have : ¬ j < n + 1 := by omega
        simp [hj, hlt, this]

theorem isolate_idem (cur : Nat) (h : Int) (n : Nat) :
    (List.range n).foldl (isolate1 cur) ((List.range n).foldl (isolate1 cur) h) =
      (List.range n).foldl (isolate1 cur) h := by
  apply int_eq_of_testBit_eq
  intro j
  rw [testBit_isolate, testBit_isolate]
  split <;> rfl

theorem land_lnot_idem (u a : Int) :
    Int.land (Int.land u (Int.lnot a)) (Int.lnot a) = Int.land u (Int.lnot a) := by
  apply int_eq_of_testBit_eq
  intro j
  simp only [Int.testBit_land, Int.testBit_lnot]
  cases Int.testBit u j <;> cases Int.testBit a j <;> rfl

theorem land_lnot_idem2 (u a b : Int) :
    Int.land (Int.land (Int.land (Int.land u (Int.lnot a)) (Int.lnot b)) (Int.lnot a))
      (Int.lnot b) = Int.land (Int.land u (Int.lnot a)) (Int.lnot b) := by
  apply int_eq_of_testBit_eq
  intro j
  simp only [Int.testBit_land, Int.testBit_lnot]
  cases Int.testBit u j <;> cases Int.testBit a j <;> cases Int.testBit b j <;> rfl

theorem draw_idem {M : FloatOps} (s t : State M) (h : draw s = some t) : draw t = some t := by
  unfold draw at h
  cases hf : s.focused with
  | none =>
    simp only [hf, Option.some.injEq] at h
    subst h
    simp only [draw, hf, land_lnot_idem]
  | some a =>
    simp only [hf] at h
    cases hl : lookup s.clients a with
    | none => simp [hl] at h
    | some c =>
      simp only [hl, Option.some.injEq] at h
      subst h
      simp only [draw, hf, hl, land_lnot_idem2]

/-- C20: from a state with a valid focus pointer, `tagconfig` with an argument starting
with `'o'` returns; afterwards, for every tag index `i` below the tag count, bit `i` of
the hidden mask is set exactly when `i` is not the active tag; the sticky mask, the
active tag and the bar settings are as before; and a second isolate returns the very
same state. -/
theorem tagconfig_isolate {M : FloatOps} (cfg : Config M) (s : State M) (hok : FocusOK s) :
    ∃ s1, tagconfig cfg (some 'o') s = some s1 ∧
      (∀ i, i < cfg.ntags → Int.testBit s1.tags_hide i = decide (i ≠ s.curtag)) ∧
      s1.tags_stik = s.tags_stik ∧ s1.curtag = s.curtag ∧
      s1.showbar = s.showbar ∧ s1.topbar = s.topbar ∧
      tagconfig cfg (some 'o') s1 = some s1 := by
  have hdef : ∀ t : State M, tagconfig cfg (some 'o') t =
      draw { t with tags_hide := (List.range cfg.ntags).foldl (isolate1 t.curtag) t.tags_hide } := by
    intro t
    simp [tagconfig]
  have hok1 : FocusOK { s with
      tags_hide := (List.range cfg.ntags).foldl (isolate1 s.curtag) s.tags_hide } :=
    focusOK_of_same s _ rfl rfl hok
  obtain ⟨u, hu⟩ := draw_of_focusOK _ hok1
  refine ⟨{ s with
      tags_hide := (List.range cfg.ntags).foldl (isolate1 s.curtag) s.tags_hide
      tags_urg := u }, ?_, ?_, rfl, rfl, rfl, rfl, ?_⟩
  · rw [hdef]
    exact hu
  · intro i hi
    show Int.testBit ((List.range cfg.ntags).foldl (isolate1 s.curtag) s.tags_hide) i = _
    rw [testBit_isolate]
    simp [hi]
  · rw [hdef]
    have hid := draw_idem _ _ hu
    simp only [isolate_idem]
    exact hid

/-- With five tags and tag index 0 active, isolate leaves bit 0 of the hidden mask clear
and bit 3 set, and a second isolate changes nothing. -/
theorem tagconfig_isolate_witness :
    ∃ s1, tagconfig cfgA (some 'o') stateA = some s1 ∧
      Int.testBit s1.tags_hide 0 = false ∧ Int.testBit s1.tags_hide 3 = true ∧
      tagconfig cfgA (some 'o') s1 = some s1 :=
  (tagconfig_isolate cfgA stateA (by decide)).imp
    (fun _ h => ⟨h.1, (h.2.1 0 (by decide)).trans (by decide),
      (h.2.1 3 (by decide)).trans (by decide), h.2.2.2.2.2.2⟩)

/-! ## C17: zooming out and back in -/

/-- The conversion to `int` of the rational model truncates: it is less than 1 away from
its argument. -/
theorem ratFloat_toInt_near (q : ℚ) : |((ratFloat.toInt q : Int) : ℚ) - q| < 1 := by
  show |((Int.tdiv q.num (q.den : Int) : Int) : ℚ) - q| < 1
  by_cases hq : 0 ≤ q.num
  · rw [Int.tdiv_eq_ediv hq (Int.ofNat_nonneg _), ← Rat.floor_def]
    have h1 := Int.floor_le q
    have h2 := Int.lt_floor_add_one q
    rw [abs_lt]
    constructor <;> linarith
  · have hneg : 0 ≤ (-q).num := by
      rw [Rat.num_neg_eq_neg_num]
      omega
    have hd : (-q).den = q.den := Rat.den_neg_eq_den q
    have : Int.tdiv q.num (q.den : Int) = -⌊-q⌋ := by
      rw [Rat.floor_def, hd, Rat.num_neg_eq_neg_num, ← Int.tdiv_eq_ediv (by omega) (Int.ofNat_nonneg _),
        Int.neg_tdiv, neg_neg]
    rw [this]
    have h1 := Int.floor_le (-q)
    have h2 := Int.lt_floor_add_one (-q)
    rw [abs_lt]
    push_cast
    constructor <;> linarith

theorem abs_mul_le_mul (x y X Y : ℚ) (hx : |x| ≤ X) (hy : |y| ≤ Y) : |x * y| ≤ X * Y := by
  rw [abs_mul]
  exact mul_le_mul hx hy (abs_nonneg _) (le_trans (abs_nonneg _) hx)

/-- The value of `.92` lies between 9/10 and 93/100, its reciprocal `r` between 107/100
and 10/9, and a value within the rounding error of `r` is within `1/2^23` of it. -/
theorem lit_bounds (a r v : ℚ) (ha : |a - 23 / 25| ≤ 1 / 2 ^ 24) (har : a * r = 1)
    (hv : |v - r| ≤ |r| / 2 ^ 24 + 1 / 2 ^ 149) :
    9 / 10 ≤ a ∧ a ≤ 93 / 100 ∧ 107 / 100 ≤ r ∧ r ≤ 10 / 9 ∧ |v - r| ≤ 1 / 2 ^ 23 ∧
      |a * v - 1| ≤ 1 / 2 ^ 23 ∧ 53 / 50 ≤ v ∧ v ≤ 9 / 8 := by
  rw [abs_le] at ha
  have ha1 : 9 / 10 ≤ a := by norm_num at ha ⊢; linarith [ha.1]
  have ha2 : a ≤ 93 / 100 := by norm_num at ha ⊢; linarith [ha.2]
  have hr0 : 0 < r := by
    by_contra h
    push_neg at h
    nlinarith
  have hr1 : 107 / 100 ≤ r := by nlinarith
  have hr2 : r ≤ 10 / 9 := by nlinarith
  rw [abs_of_pos hr0] at hv
  have hv1 : |v - r| ≤ 1 / 2 ^ 23 := by
    refine le_trans hv ?_
    norm_num
    linarith
  have hav : |a * v - 1| ≤ 1 / 2 ^ 23 := by
    have e : a * v - 1 = a * (v - r) := by rw [mul_sub, har]
    rw [e]
    have := abs_mul_le_mul a (v - r) 1 (1 / 2 ^ 23) (by rw [abs_le]; constructor <;> linarith) hv1
    linarith
  rw [abs_le] at hv1
  refine ⟨ha1, ha2, hr1, hr2, abs_le.mpr hv1, hav, ?_, ?_⟩
  · have := hv1.1
    norm_num at this ⊢
    linarith
  · have := hv1.2
    norm_num at this ⊢
    linarith

theorem err_le (z e B c : ℚ) (h : |z - e| ≤ |e| / 2 ^ 24 + 1 / 2 ^ 149) (hB : |e| ≤ B)
    (hc : B / 2 ^ 24 + 1 / 2 ^ 149 ≤ c) : |z - e| ≤ c := by
  refine le_trans h (le_trans ?_ hc)
  have h1 : |e| / 2 ^ 24 ≤ B / 2 ^ 24 :=
    div_le_div_of_nonneg_right hB (pow_nonneg (by norm_num) _)
  linarith

theorem toInt_near {M : FloatOps} (R : FloatRound M) (a : M.F) (x : ℚ)
    (h : R.val a = some x) (hx : |x| < 2 ^ 31) : |((M.toInt a : Int) : ℚ) - x| < 1 := by
  rw [R.toInt_val a x h hx]
  exact ratFloat_toInt_near x

theorem lit_val {M : FloatOps} (R : FloatRound M) :
    ∃ a v, R.val M.lit_0_92 = some a ∧ R.val (M.div (M.ofInt 1) M.lit_0_92) = some v ∧
      9 / 10 ≤ a ∧ a ≤ 93 / 100 ∧ |a * v - 1| ≤ 1 / 2 ^ 23 ∧ 53 / 50 ≤ v ∧ v ≤ 9 / 8 := by
  obtain ⟨a, ha, hab⟩ := R.lit_0_92_val
  have h1v : R.val (M.ofInt 1) = some (1 : ℚ) := by
    have := R.ofInt_val 1 (by norm_num)
    simpa using this
  have ha1 : 9 / 10 ≤ a := by
    have := (abs_le.mp hab).1
    norm_num at this ⊢
    linarith
  have ha0 : a ≠ 0 := by
    intro h
    rw [h] at ha1
    norm_num at ha1
  have har : a * (1 / a) = 1 := by field_simp
  have hr : |1 / a| ≤ 2 ^ 100 := by
    have h0 : 0 < a := by linarith
    have h2 : 0 < 1 / a := by positivity
    rw [abs_of_pos h2]
    have : 1 / a ≤ 10 / 9 := by
      rw [div_le_div_iff₀ h0 (by norm_num)]
      linarith
    refine le_trans this ?_
    norm_num
  obtain ⟨v, hv, hve⟩ := R.div_val _ _ 1 a h1v ha ha0 hr
  obtain ⟨b1, b2, -, -, -, b6, b7, b8⟩ := lit_bounds a (1 / a) v hab har hve
  exact ⟨a, v, ha, hv, b1, b2, b6, b7, b8⟩

/-- One coordinate through the round trip: scaled about `p` by `.92`, converted to `int`,
scaled back by `1/.92` and converted again, a coordinate `x` with `|x - p| ≤ 2^20` and
`|p| ≤ 2^20` is at most 2 away from where it was, in every model of rounded arithmetic. -/
theorem roundtrip_coord {M : FloatOps} (R : FloatRound M) (x p : Int)
    (hd : |x - p| ≤ 2 ^ 20) (hp : |p| ≤ 2 ^ 20) :
    |M.toInt (M.add (M.mul (M.ofInt
        (M.toInt (M.add (M.mul (M.ofInt (x - p)) M.lit_0_92) (M.ofInt p)) - p))
        (M.div (M.ofInt 1) M.lit_0_92)) (M.ofInt p)) - x| ≤ 2 := by
  obtain ⟨a, v, ha, hv, a1, a2, hav, v1, v2⟩ := lit_val R
  have hdQ : |(x : ℚ) - (p : ℚ)| ≤ 2 ^ 20 := by exact_mod_cast hd
  have hpQ : |(p : ℚ)| ≤ 2 ^ 20 := by exact_mod_cast hp
  have hdv := R.ofInt_val (x - p) (le_trans hd (by norm_num))
  have hpv := R.ofInt_val p (le_trans hp (by norm_num))
  rw [Int.cast_sub] at hdv
  have habs : |a| ≤ 1 := by rw [abs_le]; constructor <;> linarith
  have hvabs : |v| ≤ 9 / 8 := by rw [abs_le]; constructor <;> linarith
  -- the first product and sum
  have hda : |((x : ℚ) - (p : ℚ)) * a| ≤ 2 ^ 20 := by
    have := abs_mul_le_mul ((x : ℚ) - (p : ℚ)) a (2 ^ 20) 1 hdQ habs
    linarith
  obtain ⟨p1, hp1v, hp1e⟩ := R.mul_val _ _ _ a hdv ha (le_trans hda (by norm_num))
  have hp1e := err_le _ _ _ (1 / 15) hp1e hda (by norm_num)
  have hp1p : |p1 + (p : ℚ)| ≤ 2 ^ 21 + 1 := by
    rw [abs_le] at hp1e hda hpQ ⊢
    constructor <;> linarith
  obtain ⟨s1, hs1v, hs1e⟩ := R.add_val _ _ p1 p hp1v hpv (le_trans hp1p (by norm_num))
  have hs1e := err_le _ _ _ (2 / 15) hs1e hp1p (by norm_num)
  have hs1b : |s1| < 2 ^ 31 := by
    rw [abs_le] at hs1e hp1p
    rw [abs_lt]
    constructor <;> linarith
  have hx1 := toInt_near R _ s1 hs1v hs1b
  set x1 : Int := M.toInt (M.add (M.mul (M.ofInt (x - p)) M.lit_0_92) (M.ofInt p)) with hx1def
  -- the way back
  have hd1Q : |((x1 : ℚ) - (p : ℚ)) - ((x : ℚ) - (p : ℚ)) * a| ≤ 6 / 5 := by
    rw [abs_le] at hs1e hp1e ⊢
    rw [abs_lt] at hx1
    constructor <;> linarith
  have hd1b : |(x1 : ℚ) - (p : ℚ)| ≤ 2 ^ 20 + 2 := by
    rw [abs_le] at hd1Q hda ⊢
    constructor <;> linarith
  have hd1 : |x1 - p| ≤ 2 ^ 24 := by
    have : |(x1 : ℚ) - (p : ℚ)| ≤ 2 ^ 24 := le_trans hd1b (by norm_num)
    exact_mod_cast this
  have hd1v := R.ofInt_val (x1 - p) hd1
  rw [Int.cast_sub] at hd1v
  have hd1vv : |((x1 : ℚ) - (p : ℚ)) * v| ≤ 2 ^ 21 := by
    have := abs_mul_le_mul ((x1 : ℚ) - (p : ℚ)) v (2 ^ 20 + 2) (9 / 8) hd1b hvabs
    refine le_trans this ?_
    norm_num
  obtain ⟨p2, hp2v, hp2e⟩ := R.mul_val _ _ _ v hd1v hv (le_trans hd1vv (by norm_num))
  have hp2e := err_le _ _ _ (1 / 7) hp2e hd1vv (by norm_num)
  have hp2p : |p2 + (p : ℚ)| ≤ 2 ^ 22 := by
    rw [abs_le] at hp2e hd1vv hpQ ⊢
    constructor <;> linarith
  obtain ⟨s2, hs2v, hs2e⟩ := R.add_val _ _ p2 p hp2v hpv (le_trans hp2p (by norm_num))
  have hs2e := err_le _ _ _ (13 / 50) hs2e hp2p (by norm_num)
  have hs2b : |s2| < 2 ^ 31 := by
    rw [abs_le] at hs2e hp2p
    rw [abs_lt]
    constructor <;> linarith
  have hx2 := toInt_near R _ s2 hs2v hs2b
  set x2 : Int := M.toInt (M.add (M.mul (M.ofInt (x1 - p)) (M.div (M.ofInt 1) M.lit_0_92))
    (M.ofInt p)) with hx2def
  -- the two nonlinear terms
  have k1 : |((x : ℚ) - (p : ℚ)) * (a * v - 1)| ≤ 1 / 8 := by
    have := abs_mul_le_mul ((x : ℚ) - (p : ℚ)) (a * v - 1) (2 ^ 20) (1 / 2 ^ 23) hdQ hav
    refine le_trans this ?_
    norm_num
  have k2 : |(((x1 : ℚ) - (p : ℚ)) - ((x : ℚ) - (p : ℚ)) * a) * v| ≤ 27 / 20 := by
    have := abs_mul_le_mul (((x1 : ℚ) - (p : ℚ)) - ((x : ℚ) - (p : ℚ)) * a) v (6 / 5) (9 / 8)
      hd1Q hvabs
    refine le_trans this ?_
    norm_num
  have hfin : |(x2 : ℚ) - (x : ℚ)| < 3 := by
    rw [abs_le] at k1 k2 hp2e hs2e
    rw [abs_lt] at hx2 ⊢
    constructor <;> linarith [k1.1, k1.2, k2.1, k2.2, hp2e.1, hp2e.2, hs2e.1, hs2e.2,
      hx2.1, hx2.2]
  have h5 : |x2 - x| < 3 := by exact_mod_cast hfin
  have h6 := abs_lt.mp h5
  rw [abs_le]
  constructor <;> omega

/-- One size through the round trip: a width (or height) of value `w0` that the first
zoom does not raise to `zoom_min` is not raised by the second zoom either, and comes
back within `w0/2^21`, in every model of rounded arithmetic. -/
theorem roundtrip_size {M : FloatOps} (R : FloatRound M) (zm w : M.F) (z w0 : ℚ)
    (hz : R.val zm = some z) (hz1 : 1 ≤ z) (hw : R.val w = some w0) (hwb : |w0| ≤ 2 ^ 24)
    (hnc : M.lt (M.mul w M.lit_0_92) zm = false) :
    M.lt (M.mul (M.mul w M.lit_0_92) (M.div (M.ofInt 1) M.lit_0_92)) zm = false ∧
    ∃ q, R.val (M.mul (M.mul w M.lit_0_92) (M.div (M.ofInt 1) M.lit_0_92)) = some q ∧
      |q - w0| ≤ w0 / 2 ^ 21 := by
  obtain ⟨a, v, ha, hv, a1, a2, hav, v1, v2⟩ := lit_val R
  have habs : |a| ≤ 1 := by rw [abs_le]; constructor <;> linarith
  have hvabs : |v| ≤ 9 / 8 := by rw [abs_le]; constructor <;> linarith
  have hA : |w0 * a| ≤ 2 ^ 24 := by
    have := abs_mul_le_mul w0 a (2 ^ 24) 1 hwb habs
    linarith
  obtain ⟨q1, hq1v, hq1e⟩ := R.mul_val _ _ w0 a hw ha (le_trans hA (by norm_num))
  have hzq : z ≤ q1 := by
    rw [R.lt_val _ _ q1 z hq1v hz] at hnc
    simpa using hnc
  -- the width is positive
  have hw0 : 0 ≤ w0 := by
    by_contra hneg
    push_neg at hneg
    have hneg1 : w0 * a < 0 := mul_neg_of_neg_of_pos hneg (by linarith)
    rw [abs_of_neg hneg1, abs_le] at hq1e
    have h1 := hq1e.2
    norm_num at h1
    linarith
  have hA0 : 0 ≤ w0 * a := mul_nonneg hw0 (by linarith)
  have hA1 : w0 * a ≤ 93 / 100 * w0 := by
    have := mul_le_mul_of_nonneg_left a2 hw0
    linarith
  rw [abs_of_nonneg hA0, abs_le] at hq1e
  have hw1 : 1 ≤ w0 := by
    have h1 := hq1e.2
    norm_num at h1
    linarith
  -- the second product
  have hq1b : |q1| ≤ 2 ^ 24 + 2 := by
    rw [abs_le] at hA ⊢
    have h1 := hq1e.1
    have h2 := hq1e.2
    norm_num at h1 h2 ⊢
    constructor <;> linarith
  have hB : |q1 * v| ≤ 2 ^ 100 := by
    have := abs_mul_le_mul q1 v (2 ^ 24 + 2) (9 / 8) hq1b hvabs
    refine le_trans this ?_
    norm_num
  obtain ⟨q2, hq2v, hq2e⟩ := R.mul_val _ _ q1 v hq1v hv hB
  have hq1pos : 0 ≤ q1 := by linarith
  have hB0 : 0 ≤ q1 * v := mul_nonneg hq1pos (by linarith)
  have hB1 : 53 / 50 * q1 ≤ q1 * v := by
    have := mul_le_mul_of_nonneg_left v1 hq1pos
    linarith
  rw [abs_of_nonneg hB0, abs_le] at hq2e
  have k1 : |w0 * (a * v - 1)| ≤ w0 * (1 / 2 ^ 23) :=
    abs_mul_le_mul w0 (a * v - 1) w0 (1 / 2 ^ 23) (by rw [abs_of_nonneg hw0]) hav
  have k2 : |(q1 - w0 * a) * v| ≤ (w0 * a / 2 ^ 24 + 1 / 2 ^ 149) * (9 / 8) :=
    abs_mul_le_mul (q1 - w0 * a) v _ (9 / 8) (abs_le.mpr hq1e) hvabs
  rw [abs_le] at k1 k2
  constructor
  · rw [R.lt_val _ _ q2 z hq2v hz]
    have h1 := hq2e.1
    norm_num at h1 ⊢
    linarith
  · refine ⟨q2, hq2v, ?_⟩
    rw [abs_le]
    have h1 := hq2e.1
    have h2 := hq2e.2
    have h3 := k1.1
    have h4 := k1.2
    have h5 := k2.1
    have h6 := k2.2
    norm_num at h1 h2 h3 h4 h5 h6 ⊢
    constructor <;> linarith

/-- The two loop bodies of the round trip on one client. -/
theorem zoom1_roundtrip {M : FloatOps} (R : FloatRound M) (cfg : Config M) (stik : Int)
    (px py : Int) (c : Client M) :
    (zoom1 cfg stik (M.div (M.ofInt 1) M.lit_0_92) px py
      (zoom1 cfg stik M.lit_0_92 px py c)).addr = c.addr ∧
    (zoom1 cfg stik (M.div (M.ofInt 1) M.lit_0_92) px py
      (zoom1 cfg stik M.lit_0_92 px py c)).win = c.win ∧
    (zoom1 cfg stik (M.div (M.ofInt 1) M.lit_0_92) px py
      (zoom1 cfg stik M.lit_0_92 px py c)).tags = c.tags ∧
    (meets c.tags stik = true →
      zoom1 cfg stik (M.div (M.ofInt 1) M.lit_0_92) px py
        (zoom1 cfg stik M.lit_0_92 px py c) = c) ∧
    (meets c.tags stik = false → |px| ≤ 2 ^ 20 → |c.x - px| ≤ 2 ^ 20 →
      |(zoom1 cfg stik (M.div (M.ofInt 1) M.lit_0_92) px py
        (zoom1 cfg stik M.lit_0_92 px py c)).x - c.x| ≤ 2) ∧
    (meets c.tags stik = false → |py| ≤ 2 ^ 20 → |c.y - py| ≤ 2 ^ 20 →
      |(zoom1 cfg stik (M.div (M.ofInt 1) M.lit_0_92) px py
        (zoom1 cfg stik M.lit_0_92 px py c)).y - c.y| ≤ 2) ∧
    (meets c.tags stik = false → ∀ z w : ℚ, R.val cfg.zoom_min = some z → 1 ≤ z →
      R.val c.w = some w → |w| ≤ 2 ^ 24 →
      M.lt (M.mul c.w M.lit_0_92) cfg.zoom_min = false →
      ∃ w2, R.val (zoom1 cfg stik (M.div (M.ofInt 1) M.lit_0_92) px py
        (zoom1 cfg stik M.lit_0_92 px py c)).w = some w2 ∧ |w2 - w| ≤ w / 2 ^ 21) ∧
    (meets c.tags stik = false → ∀ z h : ℚ, R.val cfg.zoom_min = some z → 1 ≤ z →
      R.val c.h = some h → |h| ≤ 2 ^ 24 →
      M.lt (M.mul c.h M.lit_0_92) cfg.zoom_min = false →
      ∃ h2, R.val (zoom1 cfg stik (M.div (M.ofInt 1) M.lit_0_92) px py
        (zoom1 cfg stik M.lit_0_92 px py c)).h = some h2 ∧ |h2 - h| ≤ h / 2 ^ 21) := by
  by_cases hm : meets c.tags stik = true
  · simp [zoom1, hm]
  · simp only [Bool.not_eq_true] at hm
    have e : zoom1 cfg stik (M.div (M.ofInt 1) M.lit_0_92) px py
        (zoom1 cfg stik M.lit_0_92 px py c) =
        zoomwindow cfg (M.div (M.ofInt 1) M.lit_0_92) px py
          (zoomwindow cfg M.lit_0_92 px py c) := by
      simp [zoom1, hm, zoomwindow]
    rw [e]
    refine ⟨rfl, rfl, rfl, fun h => by simp [hm] at h, ?_, ?_, ?_, ?_⟩
    · intro _ hp hx
      exact roundtrip_coord R c.x px hx hp
    · intro _ hp hy
      exact roundtrip_coord R c.y py hy hp
    · intro _ z w hz hz1 hw hwb hnc
      obtain ⟨h1, q, h2, h3⟩ := roundtrip_size R cfg.zoom_min c.w z w hz hz1 hw hwb hnc
      refine ⟨q, ?_, h3⟩
      simp only [zoomwindow, hnc, h1, Bool.false_eq_true, if_false]
      exact h2
    · intro _ z h hz hz1 hh hhb hnc
      obtain ⟨h1, q, h2, h3⟩ := roundtrip_size R cfg.zoom_min c.h z h hz hz1 hh hhb hnc
      refine ⟨q, ?_, h3⟩
      simp only [zoomwindow, hnc, h1, Bool.false_eq_true, if_false]
      exact h2

/-- C17, as the code has it, for every model of rounded `float` arithmetic: from a state
with a valid focus pointer, `zoom(clients, .92, px, py)` followed by
`zoom(clients, 1/.92, px, py)` returns, and client by client: a sticky client is
untouched; a non-sticky client keeps its tags; its `x` is back up to 2 pixels when
`|px| ≤ 2^20` and `|x - px| ≤ 2^20`, and so is its `y`; its width `w` is back up to
`w/2^21` when `zoom_min` is at least 1, `|w| ≤ 2^24` and the first zoom does not raise
the scaled width to `zoom_min`, and so is its height. -/
theorem zoom_roundtrip {M : FloatOps} (R : FloatRound M) (cfg : Config M) (s : State M)
    (px py : Int) (hok : FocusOK s) :
    ∃ s1 s2, zoom cfg M.lit_0_92 px py s = some s1 ∧
      zoom cfg (M.div (M.ofInt 1) M.lit_0_92) px py s1 = some s2 ∧
      s2.clients.length = s.clients.length ∧
      ∀ (i : Nat) (c : Client M), s.clients[i]? = some c →
        ∃ c2, s2.clients[i]? = some c2 ∧
          c2.addr = c.addr ∧ c2.win = c.win ∧ c2.tags = c.tags ∧
          (meets c.tags s.tags_stik = true → c2 = c) ∧
          (meets c.tags s.tags_stik = false → |px| ≤ 2 ^ 20 → |c.x - px| ≤ 2 ^ 20 →
            |c2.x - c.x| ≤ 2) ∧
          (meets c.tags s.tags_stik = false → |py| ≤ 2 ^ 20 → |c.y - py| ≤ 2 ^ 20 →
            |c2.y - c.y| ≤ 2) ∧
          (meets c.tags s.tags_stik = false → ∀ z w : ℚ, R.val cfg.zoom_min = some z →
            1 ≤ z → R.val c.w = some w → |w| ≤ 2 ^ 24 →
            M.lt (M.mul c.w M.lit_0_92) cfg.zoom_min = false →
            ∃ w2, R.val c2.w = some w2 ∧ |w2 - w| ≤ w / 2 ^ 21) ∧
          (meets c.tags s.tags_stik = false → ∀ z h : ℚ, R.val cfg.zoom_min = some z →
            1 ≤ z → R.val c.h = some h → |h| ≤ 2 ^ 24 →
            M.lt (M.mul c.h M.lit_0_92) cfg.zoom_min = false →
            ∃ h2, R.val c2.h = some h2 ∧ |h2 - h| ≤ h / 2 ^ 21) := by
  obtain ⟨u, hu⟩ := zoom_of_focusOK cfg M.lit_0_92 px py s hok
  have hok1 : FocusOK ({ s with
      clients := s.clients.map (zoom1 cfg s.tags_stik M.lit_0_92 px py)
      checks := s.checks.map (checkpoint_update1 px py M.lit_0_92)
      tags_urg := u } : State M) := by
    apply focusOK_of_same s
    · exact addrs_map _ (zoom1_addr cfg s.tags_stik _ px py) _
    · rfl
    · exact hok
  obtain ⟨v, hv⟩ := zoom_of_focusOK cfg (M.div (M.ofInt 1) M.lit_0_92) px py _ hok1
  refine ⟨_, _, hu, hv, by simp, ?_⟩
  intro i c hi
  refine ⟨zoom1 cfg s.tags_stik (M.div (M.ofInt 1) M.lit_0_92) px py
    (zoom1 cfg s.tags_stik M.lit_0_92 px py c), ?_,
    zoom1_roundtrip R cfg s.tags_stik px py c⟩
  simp [List.getElem?_map, hi]

/-- About the centre (10, 10), the round trip brings the first client of `stateA`, at
(100, 100) and 300 wide, back within 2 pixels of (100, 100) and within `300/2^21` of its
width. -/
theorem zoom_roundtrip_witness :
    ∃ s1 s2 c2, zoom cfgA ratFloat.lit_0_92 10 10 stateA = some s1 ∧
      zoom cfgA (ratFloat.div (ratFloat.ofInt 1) ratFloat.lit_0_92) 10 10 s1 = some s2 ∧
      s2.clients[0]? = some c2 ∧ |c2.x - 100| ≤ 2 ∧ |c2.y - 100| ≤ 2 ∧
      ∃ w2, ratRound.val c2.w = some w2 ∧ |w2 - 300| ≤ 300 / 2 ^ 21 := by
  obtain ⟨s1, s2, h1, h2, -, h3⟩ := zoom_roundtrip ratRound cfgA stateA 10 10 (by decide)
  obtain ⟨c2, h4, -, -, -, -, h5, h6, h7, -⟩ := h3 0 (clientAt 1 1) rfl
  refine ⟨s1, s2, c2, h1, h2, h4, h5 (by decide) (by decide) (by decide),
    h6 (by decide) (by decide) (by decide), ?_⟩
  exact h7 (by decide) 40 300 rfl (by norm_num) rfl (by norm_num) (by with_unfolding_all decide)

/-- When the first zoom raises the scaled width to `zoom_min`, the width after the round
trip is `zoom_min * (1/.92)` whatever it was before, in every model of rounded
arithmetic in which `zoom_min` has a value between 1 and `2^24`; its value is at least
`21/20` of that of `zoom_min`. -/
theorem zoomwindow_clamped {M : FloatOps} (R : FloatRound M) (cfg : Config M)
    (c : Client M) (px py : Int) (z : ℚ) (hz : R.val cfg.zoom_min = some z) (hz1 : 1 ≤ z)
    (hz2 : z ≤ 2 ^ 24) (hcl : M.lt (M.mul c.w M.lit_0_92) cfg.zoom_min = true) :
    (zoomwindow cfg (M.div (M.ofInt 1) M.lit_0_92) px py
      (zoomwindow cfg M.lit_0_92 px py c)).w =
        M.mul cfg.zoom_min (M.div (M.ofInt 1) M.lit_0_92) ∧
    ∃ q, R.val (M.mul cfg.zoom_min (M.div (M.ofInt 1) M.lit_0_92)) = some q ∧
      21 / 20 * z ≤ q := by
  obtain ⟨a, v, ha, hv, a1, a2, hav, v1, v2⟩ := lit_val R
  have hvabs : |v| ≤ 9 / 8 := by rw [abs_le]; constructor <;> linarith
  have hzabs : |z| ≤ 2 ^ 24 := by rw [abs_le]; constructor <;> linarith
  have hB : |z * v| ≤ 2 ^ 100 := by
    have := abs_mul_le_mul z v (2 ^ 24) (9 / 8) hzabs hvabs
    refine le_trans this ?_
    norm_num
  obtain ⟨q, hqv, hqe⟩ := R.mul_val _ _ z v hz hv hB
  have hB0 : 0 ≤ z * v := mul_nonneg (by linarith) (by linarith)
  have hB1 : 53 / 50 * z ≤ z * v := by
    have := mul_le_mul_of_nonneg_left v1 (by linarith : (0 : ℚ) ≤ z)
    linarith
  rw [abs_of_nonneg hB0, abs_le] at hqe
  have hq : 21 / 20 * z ≤ q := by
    have h1 := hqe.1
    norm_num at h1 ⊢
    linarith
  have hlt : M.lt (M.mul cfg.zoom_min (M.div (M.ofInt 1) M.lit_0_92)) cfg.zoom_min = false := by
    rw [R.lt_val _ _ q z hqv hz]
    simp only [decide_eq_false_iff_not, not_lt]
    linarith
  refine ⟨?_, q, hqv, hq⟩
  simp only [zoomwindow, hcl, if_true, hlt, Bool.false_eq_true, if_false]

set_option maxRecDepth 20000 in
/-- C17 fails as stated: with `zoom_min = 40`, a non-sticky client of width 10 has the
width 40 after `zoom(clients, .92, 0, 0)`, and after the following
`zoom(clients, 1/.92, 0, 0)` its width is `40 * (1/.92)`, between 43 and 44. -/
theorem zoom_roundtrip_clamped :
    stateSmall.tags_stik = 0 ∧
    stateSmall.clients.map (fun c => c.w) = [(10 : ℚ)] ∧
    (zoom cfgA ratFloat.lit_0_92 0 0 stateSmall).map
      (fun s => s.clients.map (fun c => c.w)) = some [(40 : ℚ)] ∧
    ((zoom cfgA ratFloat.lit_0_92 0 0 stateSmall).bind
      (zoom cfgA (ratFloat.div (ratFloat.ofInt 1) ratFloat.lit_0_92) 0 0)).map
        (fun s => s.clients.map
          (fun c => (ratFloat.lt (ratFloat.ofInt 43) c.w, ratFloat.lt c.w (ratFloat.ofInt 44)))) =
      some [(true, true)] := by
  refine ⟨by decide, by decide, ?_, ?_⟩
  · with_unfolding_all decide
  · with_unfolding_all decide

/-! ## C22: `animate` against a single `scrollwindows` -/

theorem draw_eq_drawUrg {M : FloatOps} (s t : State M) (h : draw s = some t) :
    t.tags_urg = drawUrg s := by
  unfold draw at h
  unfold drawUrg
  cases hf : s.focused with
  | none =>
    simp only [hf, Option.some.injEq] at h
    rw [← h]
  | some a =>
    simp only [hf] at h
    cases hl : lookup s.clients a with
    | none => simp [hl] at h
    | some c =>
      simp only [hl, Option.some.injEq] at h
      rw [← h]
      simp only [hl]

theorem drawUrg_congr {M : FloatOps} (s t : State M) (f : Client M → Client M)
    (hf : ∀ c, (f c).addr = c.addr) (ht : ∀ c, (f c).tags = c.tags)
    (h1 : t.clients = s.clients.map f) (h2 : t.focused = s.focused)
    (h3 : t.curtag = s.curtag) (h4 : t.tags_urg = s.tags_urg) : drawUrg t = drawUrg s := by
  unfold drawUrg
  rw [h1, h2, h3, h4]
  cases hfo : s.focused with
  | none => rfl
  | some a =>
    simp only [lookup_map f hf]
    cases hl : lookup s.clients a with
    | none => rfl
    | some c => simp [ht]

theorem scroll1_tags {M : FloatOps} (stik x y : Int) (c : Client M) :
    (scroll1 stik x y c).tags = c.tags := by
  unfold scroll1
  split <;> rfl

theorem drawUrg_idem {M : FloatOps} (s : State M) (u : Int) :
    drawUrg { s with tags_urg := drawUrg { s with tags_urg := u } } =
      drawUrg { s with tags_urg := u } := by
  unfold drawUrg
  cases hfo : s.focused with
  | none => exact land_lnot_idem _ _
  | some a =>
    cases hl : lookup s.clients a with
    | none => simp [hl]
    | some c =>
      simp only [hl]
      exact land_lnot_idem2 _ _ _

theorem scrollwindows_panned_urg {M : FloatOps} (s : State M) (X Y u x y : Int)
    (h : FocusOK s) :
    scrollwindows x y (panned s X Y u) =
      some (panned s (X + x) (Y + y) (drawUrg { s with tags_urg := u })) := by
  obtain ⟨v, hv⟩ := scrollwindows_panned s X Y u x y h
  have hu : v = drawUrg { s with tags_urg := u } := by
    have h1 := hv
    unfold scrollwindows at h1
    have h2 := draw_eq_drawUrg _ _ h1
    have h3 : (panned s (X + x) (Y + y) v).tags_urg = v := rfl
    rw [h3] at h2
    rw [h2]
    apply drawUrg_congr { s with tags_urg := u } _
      (fun c => scroll1 s.tags_stik x y (scroll1 s.tags_stik X Y c))
    · intro c; simp [scroll1_addr]
    · intro c; simp [scroll1_tags]
    · simp [checkpoint_update, panned, List.map_map, Function.comp]
    · rfl
    · rfl
    · rfl
  rw [hv, hu]

theorem animateLoop_urg {M : FloatOps} (speed : Nat) (s : State M) (hs : FocusOK s) :
    ∀ (n : Nat) (tx ty dx dy X Y u tx1 ty1 : Int) (r : State M),
      animateLoop speed n tx ty dx dy (panned s X Y u) = some (tx1, ty1, r) →
      ∃ X1 Y1 u1, r = panned s X1 Y1 u1 ∧
        drawUrg { s with tags_urg := u1 } = drawUrg { s with tags_urg := u } := by
  intro n
  induction n with
  | zero => intro tx ty dx dy X Y u tx1 ty1 r h; simp [animateLoop] at h
  | succ n ih =>
    intro tx ty dx dy X Y u tx1 ty1 r h
    unfold animateLoop at h
    by_cases hc : (tx.natAbs : Int) > speed ∨ (ty.natAbs : Int) > speed
    · simp only [hc, if_true, scrollwindows_panned_urg s X Y u dx dy hs] at h
      obtain ⟨X1, Y1, u1, h1, h2⟩ := ih _ _ _ _ _ _ _ _ _ _ h
      exact ⟨X1, Y1, u1, h1, by rw [h2, drawUrg_idem]⟩
    · simp only [hc, if_false, Option.some.injEq, Prod.mk.injEq] at h
      exact ⟨X, Y, u, h.2.2.symm, rfl⟩

theorem lookup_none_of_not_mem {M : FloatOps} (l : List (Client M)) (a : Nat)
    (h : a ∉ addrs l) : lookup l a = none := by
  cases hl : lookup l a with
  | none => rfl
  | some c =>
    obtain ⟨hc, hca⟩ := lookup_some l a c hl
    exact absurd (hca ▸ mem_addrs_of_mem l c hc) h

theorem scrollwindows_dangling {M : FloatOps} (x y : Int) (s : State M) (h : ¬ FocusOK s) :
    scrollwindows x y s = none := by
  unfold FocusOK at h
  push_neg at h
  obtain ⟨a, ha, hna⟩ := h
  have hna1 : a ∉ addrs (s.clients.map (scroll1 s.tags_stik x y)) := by
    rw [addrs_map _ (scroll1_addr s.tags_stik x y)]
    exact hna
  simp [scrollwindows, draw, checkpoint_update, ha, lookup_none_of_not_mem _ _ hna1]

theorem animate_dangling {M : FloatOps} (cfg : Config M) (tx ty : Int) (s : State M)
    (h : ¬ FocusOK s) : animate cfg tx ty s = none := by
  unfold animate
  by_cases ha : cfg.animations = true
  · simp only [ha, Bool.not_true, Bool.false_eq_true, if_false]
    have hfuel : animateFuel tx ty = (tx.natAbs + ty.natAbs + 2) + 1 := rfl
    rw [hfuel]
    unfold animateLoop
    by_cases hc : (tx.natAbs : Int) > cfg.animatespeed ∨ (ty.natAbs : Int) > cfg.animatespeed
    · simp only [hc, if_true, scrollwindows_dangling _ _ s h]
    · simp only [hc, if_false, scrollwindows_dangling _ _ s h]
  · simp only [Bool.not_eq_true] at ha
    simp only [ha, Bool.not_false, if_true]
    exact scrollwindows_dangling tx ty s h

theorem animate_urg {M : FloatOps} (cfg : Config M) (tx ty : Int) (s : State M)
    (hs : FocusOK s) : animate cfg tx ty s = some (panned s tx ty (drawUrg s)) := by
  have hsw : ∀ x y, scrollwindows x y s = some (panned s x y (drawUrg s)) := by
    intro x y
    have := scrollwindows_panned_urg s 0 0 s.tags_urg x y hs
    rw [panned_zero] at this
    simpa using this
  by_cases ha : cfg.animations = true
  · obtain ⟨v, hv⟩ := animate_eq_panned cfg tx ty s hs
    have hv1 := hv
    unfold animate at hv1
    simp only [ha, Bool.not_true, Bool.false_eq_true, if_false] at hv1
    cases hl : animateLoop cfg.animatespeed (animateFuel tx ty) tx ty
        (animStep cfg.animatespeed tx) (animStep cfg.animatespeed ty) s with
    | none => simp [hl] at hv1
    | some res =>
      obtain ⟨tx1, ty1, r⟩ := res
      simp only [hl] at hv1
      have hl1 := hl
      rw [← panned_zero s] at hl1
      obtain ⟨X1, Y1, u1, hr, hu⟩ := animateLoop_urg cfg.animatespeed s hs _ _ _ _ _ _ _ _ _ _ _ hl1
      rw [hr, scrollwindows_panned_urg s X1 Y1 u1 tx1 ty1 hs, hu] at hv1
      have hv2 := congrArg (Option.map State.tags_urg) hv1
      simp only [Option.map_some', Option.some.injEq] at hv2
      have hv3 : drawUrg { s with tags_urg := s.tags_urg } = v := hv2
      rw [hv, ← hv3]
  · simp only [Bool.not_eq_true] at ha
    unfold animate
    simp only [ha, Bool.not_false, if_true]
    exact hsw tx ty

/-- C22: for every target `(tx, ty)`, every step `animatespeed ≥ 0` and with animations on
or off, `animate(tx, ty)` gives the very state that the single call
`scrollwindows(clients, tx, ty)` gives; from a state with a valid focus pointer both
return, every non-sticky client is shifted by exactly `(tx, ty)` and every checkpoint
offset by exactly `(tx, ty)`. -/
theorem animate_eq_scrollwindows {M : FloatOps} (cfg : Config M) (tx ty : Int)
    (s : State M) :
    animate cfg tx ty s = scrollwindows tx ty s ∧
    (FocusOK s → ∃ s1, animate cfg tx ty s = some s1 ∧
      s1.clients = s.clients.map (scroll1 s.tags_stik tx ty) ∧
      (∀ c : Client M, meets c.tags s.tags_stik = false →
        scroll1 s.tags_stik tx ty c = { c with x := c.x + tx, y := c.y + ty }) ∧
      s1.checks = s.checks.map (fun cp => { cp with x := cp.x + tx, y := cp.y + ty })) := by
  by_cases hs : FocusOK s
  · have h1 := animate_urg cfg tx ty s hs
    have h2 := animate_urg { cfg with animations := false } tx ty s hs
    have h3 : animate { cfg with animations := false } tx ty s = scrollwindows tx ty s := by
      simp [animate]
    refine ⟨by rw [h1, ← h3, h2], fun _ => ⟨_, h1, rfl, ?_, rfl⟩⟩
    intro c hc
    simp [scroll1, hc]
  · exact ⟨by rw [animate_dangling cfg tx ty s hs, scrollwindows_dangling tx ty s hs],
      fun h => absurd h hs⟩

/-- With steps of 21, the animated pan by (-300, 40) of `stateA` ends in the state of
the single pan; the first client is at (-200, 140). -/
theorem animate_eq_scrollwindows_witness :
    ∃ s1, animate cfgA (-300) 40 stateA = some s1 ∧
      scrollwindows (-300) 40 stateA = some s1 ∧
      s1.clients.map (fun c => (c.x, c.y)) = [(-200, 140), (-200, 140)] := by
  obtain ⟨h1, h2⟩ := animate_eq_scrollwindows cfgA (-300) 40 stateA
  obtain ⟨s1, h3, h4, -, -⟩ := h2 (by decide)
  refine ⟨s1, h3, by rw [← h1]; exact h3, ?_⟩
  rw [h4]
  decide

/-! ## The keys of the checkpoint store -/

theorem checkpoint_update1_key {M : FloatOps} (x y : Int) (z : M.F) (cp : Checkpoint M) :
    (checkpoint_update1 x y z cp).key = cp.key := by
  unfold checkpoint_update1
  split <;> rfl

theorem keys_map {M : FloatOps} (f : Checkpoint M → Checkpoint M)
    (hf : ∀ cp, (f cp).key = cp.key) (l : List (Checkpoint M)) : keys (l.map f) = keys l := by
  simp [keys, List.map_map, Function.comp, hf]

theorem draw_checks {M : FloatOps} (s t : State M) (h : draw s = some t) :
    t.checks = s.checks := by
  rw [draw_frame s t h]

theorem scrollwindows_keys {M : FloatOps} (x y : Int) (s t : State M)
    (h : scrollwindows x y s = some t) : keys t.checks = keys s.checks := by
  unfold scrollwindows at h
  rw [draw_checks _ _ h]
  exact keys_map _ (checkpoint_update1_key x y _) _

theorem zoom_keys {M : FloatOps} (cfg : Config M) (f : M.F) (x y : Int) (s t : State M)
    (h : zoom cfg f x y s = some t) : keys t.checks = keys s.checks := by
  unfold zoom at h
  rw [draw_checks _ _ h]
  exact keys_map _ (checkpoint_update1_key x y _) _

theorem animateLoop_keys {M : FloatOps} (speed : Nat) :
    ∀ (n : Nat) (tx ty dx dy tx1 ty1 : Int) (s t : State M),
      animateLoop speed n tx ty dx dy s = some (tx1, ty1, t) →
      keys t.checks = keys s.checks := by
  intro n
  induction n with
  | zero => intro tx ty dx dy tx1 ty1 s t h; simp [animateLoop] at h
  | succ n ih =>
    intro tx ty dx dy tx1 ty1 s t h
    unfold animateLoop at h
    by_cases hc : (tx.natAbs : Int) > speed ∨ (ty.natAbs : Int) > speed
    · simp only [hc, if_true] at h
      cases hs : scrollwindows dx dy s with
      | none => simp [hs] at h
      | some s1 =>
        simp only [hs] at h
        rw [ih _ _ _ _ _ _ _ _ h, scrollwindows_keys dx dy s s1 hs]
    · simp only [hc, if_false, Option.some.injEq, Prod.mk.injEq] at h
      rw [h.2.2]

theorem animate_keys {M : FloatOps} (cfg : Config M) (tx ty : Int) (s t : State M)
    (h : animate cfg tx ty s = some t) : keys t.checks = keys s.checks := by
  unfold animate at h
  by_cases ha : cfg.animations = true
  · simp only [ha, Bool.not_true, Bool.false_eq_true, if_false] at h
    cases hl : animateLoop cfg.animatespeed (animateFuel tx ty) tx ty
        (animStep cfg.animatespeed tx) (animStep cfg.animatespeed ty) s with
    | none => simp [hl] at h
    | some res =>
      obtain ⟨tx1, ty1, r⟩ := res
      simp only [hl] at h
      rw [scrollwindows_keys _ _ _ _ h, animateLoop_keys _ _ _ _ _ _ _ _ _ _ hl]
  · simp only [Bool.not_eq_true] at ha
    simp only [ha, Bool.not_false, if_true] at h
    exact scrollwindows_keys tx ty s t h

theorem checkpoint_keys {M : FloatOps} (cfg : Config M) (k : Char) (s t : State M)
    (h : checkpoint cfg k s = some t) : keys t.checks = keys s.checks := by
  unfold checkpoint at h
  cases hf : findKey k s.checks with
  | none =>
    simp only [hf, Option.some.injEq] at h
    rw [h]
  | some cp =>
    simp only [hf] at h
    cases ha : animate cfg (-cp.x) (-cp.y) s with
    | none => simp [ha] at h
    | some s1 =>
      simp only [ha] at h
      cases hf1 : findKey k s1.checks with
      | none => simp [hf1] at h
      | some cp1 =>
        simp only [hf1] at h
        cases hz : zoom cfg (M.div (M.ofInt 1) cp1.zoom) 0 0 s1 with
        | none => simp [hz] at h
        | some s2 =>
          simp only [hz] at h
          have h12 : keys s2.checks = keys s.checks := by
            rw [zoom_keys _ _ _ _ _ _ hz, animate_keys _ _ _ _ _ ha]
          cases hr : recallFocus cfg s2.tags_hide s2.clients with
          | none =>
            simp only [hr] at h
            rw [draw_checks _ _ h]
            exact h12
          | some a =>
            simp only [hr] at h
            rw [draw_checks _ _ h]
            exact h12

theorem resetKey_keys {M : FloatOps} (k : Char) (l l1 : List (Checkpoint M))
    (h : resetKey k l = some l1) : keys l1 = keys l := by
  induction l generalizing l1 with
  | nil => simp [resetKey] at h
  | cons cp l ih =>
    unfold resetKey at h
    by_cases hk : cp.key = k
    · simp only [hk, if_true, Option.some.injEq] at h
      subst h
      simp [keys, hk]
    · simp only [hk, if_false] at h
      cases hr : resetKey k l with
      | none => simp [hr] at h
      | some l2 =>
        simp only [hr, Option.some.injEq] at h
        subst h
        have := ih l2 hr
        simp only [keys, List.map_cons] at this ⊢
        rw [this]

theorem resetKey_eq_none {M : FloatOps} (k : Char) (l : List (Checkpoint M))
    (h : resetKey k l = none) : k ∉ keys l := by
  induction l with
  | nil => simp [keys]
  | cons cp l ih =>
    unfold resetKey at h
    by_cases hk : cp.key = k
    · simp [hk] at h
    · simp only [hk, if_false] at h
      cases hr : resetKey k l with
      | none =>
        have := ih hr
        simp only [keys, List.map_cons, List.mem_cons, not_or] at this ⊢
        exact ⟨fun e => hk e.symm, this⟩
      | some l2 => simp [hr] at h

theorem checkpoint_set_keys {M : FloatOps} (k : Char) (s : State M)
    (h : (keys s.checks).Nodup) : (keys (checkpoint_set k s).checks).Nodup := by
  unfold checkpoint_set
  by_cases hk : k = '0'
  · simp only [hk, if_true]
    exact h
  · simp only [hk, if_false]
    cases hr : resetKey k s.checks with
    | none =>
      have := resetKey_eq_none k s.checks hr
      simp only [keys, List.map_cons] at this ⊢
      exact List.nodup_cons.mpr ⟨this, h⟩
    | some l =>
      show (keys l).Nodup
      rw [resetKey_keys k s.checks l hr]
      exact h

theorem checkpoint_init_keys {M : FloatOps} (cfg : Config M) (s : State M) :
    keys (checkpoint_init cfg { s with checks := [] }).checks =
      ['5', '4', '3', '2', '1', '0'] := by
  rfl

theorem applyStoreOp_keys {M : FloatOps} (cfg : Config M) (op : StoreOp M) (s t : State M)
    (h : applyStoreOp cfg op s = some t) (hn : (keys s.checks).Nodup) :
    (keys t.checks).Nodup := by
  cases op with
  | checkpoint_set k =>
    simp only [applyStoreOp, Option.some.injEq] at h
    rw [← h]
    exact checkpoint_set_keys k s hn
  | checkpoint_update x y z =>
    simp only [applyStoreOp, Option.some.injEq] at h
    rw [← h]
    show (keys (s.checks.map (checkpoint_update1 x y z))).Nodup
    rw [keys_map _ (checkpoint_update1_key x y z)]
    exact hn
  | checkpoint k =>
    simp only [applyStoreOp] at h
    rw [checkpoint_keys cfg k s t h]
    exact hn

theorem runStoreOps_keys {M : FloatOps} (cfg : Config M) (ops : List (StoreOp M))
    (s t : State M) (h : runStoreOps cfg ops s = some t) (hn : (keys s.checks).Nodup) :
    (keys t.checks).Nodup := by
  induction ops generalizing s with
  | nil =>
    simp only [runStoreOps, Option.some.injEq] at h
    rw [← h]
    exact hn
  | cons op ops ih =>
    unfold runStoreOps at h
    cases ha : applyStoreOp cfg op s with
    | none => simp [ha] at h
    | some s1 =>
      simp only [ha] at h
      exact ih s1 h (applyStoreOp_keys cfg op s s1 ha hn)

theorem findKey_unique {M : FloatOps} (k : Char) (l : List (Checkpoint M))
    (hn : (keys l).Nodup) (cp : Checkpoint M) (h : findKey k l = some cp) :
    cp ∈ l ∧ cp.key = k ∧ ∀ cp1 ∈ l, cp1.key = k → cp1 = cp := by
  induction l with
  | nil => simp [findKey] at h
  | cons c l ih =>
    simp only [keys, List.map_cons, List.nodup_cons] at hn
    unfold findKey at h
    by_cases hk : c.key = k
    · simp only [hk, if_true, Option.some.injEq] at h
      subst h
      refine ⟨List.mem_cons_self _ _, hk, ?_⟩
      intro cp1 h1 hk1
      rcases List.mem_cons.mp h1 with e | hm
      · exact e
      · exfalso
        apply hn.1
        rw [hk, ← hk1]
        exact List.mem_map_of_mem _ hm
    · simp only [hk, if_false] at h
      obtain ⟨h1, h2, h3⟩ := ih hn.2 h
      refine ⟨List.mem_cons_of_mem _ h1, h2, ?_⟩
      intro cp1 hm hk1
      rcases List.mem_cons.mp hm with e | hm1
      · exact absurd (e ▸ hk1) hk
      · exact h3 cp1 hm1 hk1

theorem findKey_of_mem {M : FloatOps} (k : Char) (l : List (Checkpoint M))
    (h : k ∈ keys l) : ∃ cp, findKey k l = some cp := by
  induction l with
  | nil => simp [keys] at h
  | cons c l ih =>
    by_cases hk : c.key = k
    · exact ⟨c, by simp [findKey, hk]⟩
    · simp only [keys, List.map_cons, List.mem_cons] at h
      rcases h with e | hm
      · exact absurd e.symm hk
      · obtain ⟨cp, hcp⟩ := ih hm
        exact ⟨cp, by simp [findKey, hk, hcp]⟩

/-! ## The recall on a state with a valid focus pointer -/

theorem findKey_map {M : FloatOps} (k : Char) (f : Checkpoint M → Checkpoint M)
    (hf : ∀ cp, (f cp).key = cp.key) (l : List (Checkpoint M)) :
    findKey k (l.map f) = (findKey k l).map f := by
  induction l with
  | nil => rfl
  | cons cp l ih =>
    by_cases hk : cp.key = k
    · simp [findKey, hk, hf]
    · simp [findKey, hk, hf, ih]

theorem checkpoint_of_focusOK {M : FloatOps} (cfg : Config M) (k : Char) (s : State M)
    (cp : Checkpoint M) (hs : FocusOK s) (hk : findKey k s.checks = some cp) :
    ∃ s1, checkpoint cfg k s = some s1 ∧
      s1.checks = (s.checks.map
          (fun c => { c with x := c.x + -cp.x, y := c.y + -cp.y })).map
        (checkpoint_update1 0 0 (M.div (M.ofInt 1) cp.zoom)) := by
  obtain ⟨v, hv⟩ := animate_eq_panned cfg (-cp.x) (-cp.y) s hs
  have hp := panned_focusOK s (-cp.x) (-cp.y) v hs
  have hk1 : findKey k (panned s (-cp.x) (-cp.y) v).checks =
      some { cp with x := cp.x + -cp.x, y := cp.y + -cp.y } := by
    show findKey k (s.checks.map _) = _
    rw [findKey_shift, hk]
    rfl
  obtain ⟨u, hu⟩ := zoom_of_focusOK cfg (M.div (M.ofInt 1) cp.zoom) 0 0 _ hp
  unfold checkpoint
  simp only [hk, hv, hk1, hu]
  have haddr : addrs ((panned s (-cp.x) (-cp.y) v).clients.map
      (zoom1 cfg (panned s (-cp.x) (-cp.y) v).tags_stik (M.div (M.ofInt 1) cp.zoom) 0 0)) =
      addrs s.clients := by
    rw [addrs_map _ (zoom1_addr cfg _ _ 0 0)]
    exact addrs_map _ (scroll1_addr s.tags_stik _ _) _
  cases hr : recallFocus cfg (panned s (-cp.x) (-cp.y) v).tags_hide
      ((panned s (-cp.x) (-cp.y) v).clients.map
        (zoom1 cfg (panned s (-cp.x) (-cp.y) v).tags_stik (M.div (M.ofInt 1) cp.zoom) 0 0)) with
  | none =>
    simp only []
    have hok : FocusOK ({ ({ panned s (-cp.x) (-cp.y) v with
        clients := (panned s (-cp.x) (-cp.y) v).clients.map
          (zoom1 cfg (panned s (-cp.x) (-cp.y) v).tags_stik (M.div (M.ofInt 1) cp.zoom) 0 0)
        checks := (panned s (-cp.x) (-cp.y) v).checks.map
          (checkpoint_update1 0 0 (M.div (M.ofInt 1) cp.zoom))
        tags_urg := u } : State M) with focused := s.focused } : State M) := by
      intro a ha
      show a ∈ addrs ((panned s (-cp.x) (-cp.y) v).clients.map _)
      rw [haddr]
      exact hs a ha
    obtain ⟨w, hw⟩ := draw_of_focusOK _ hok
    exact ⟨_, hw, rfl⟩
  | some a =>
    simp only []
    have hok : FocusOK (focusclient ({ panned s (-cp.x) (-cp.y) v with
        clients := (panned s (-cp.x) (-cp.y) v).clients.map
          (zoom1 cfg (panned s (-cp.x) (-cp.y) v).tags_stik (M.div (M.ofInt 1) cp.zoom) 0 0)
        checks := (panned s (-cp.x) (-cp.y) v).checks.map
          (checkpoint_update1 0 0 (M.div (M.ofInt 1) cp.zoom))
        tags_urg := u } : State M) (some a)) := by
      intro b hb
      have hb1 : a = b := by simpa [focusclient] using hb
      subst hb1
      exact recallFocus_mem cfg _ _ a hr
    obtain ⟨w, hw⟩ := draw_of_focusOK _ hok
    exact ⟨_, hw, rfl⟩

theorem checkpoint_total {M : FloatOps} (cfg : Config M) (k : Char) (s : State M)
    (hs : FocusOK s) : ∃ s1, checkpoint cfg k s = some s1 := by
  cases hk : findKey k s.checks with
  | none => exact ⟨s, by simp [checkpoint, hk]⟩
  | some cp =>
    obtain ⟨s1, h1, -⟩ := checkpoint_of_focusOK cfg k s cp hs hk
    exact ⟨s1, h1⟩

theorem runStoreOps_total {M : FloatOps} (cfg : Config M) (ops : List (StoreOp M))
    (s : State M) (hs : FocusOK s) : ∃ t, runStoreOps cfg ops s = some t := by
  induction ops generalizing s with
  | nil => exact ⟨s, rfl⟩
  | cons op ops ih =>
    cases op with
    | checkpoint_set k =>
      obtain ⟨t, ht⟩ := ih _ (checkpoint_set_pres k s hs).2
      exact ⟨t, by simpa [runStoreOps, applyStoreOp] using ht⟩
    | checkpoint_update x y z =>
      have hok : FocusOK (checkpoint_update x y z s) := focusOK_of_same s _ rfl rfl hs
      obtain ⟨t, ht⟩ := ih _ hok
      exact ⟨t, by simpa [runStoreOps, applyStoreOp] using ht⟩
    | checkpoint k =>
      obtain ⟨s1, h1⟩ := checkpoint_total cfg k s hs
      obtain ⟨t, ht⟩ := ih _ (checkpoint_pres cfg k s s1 hs h1).2
      exact ⟨t, by simpa [runStoreOps, applyStoreOp, h1] using ht⟩

/-! ## C23: no two checkpoints have the same key -/

/-- C23: in every store that `checkpoint_init` on the empty store followed by any sequence
of `checkpoint_set`, `checkpoint_update` and recall calls leaves, the keys are pairwise
different, and the checkpoint the search loop finds for a key is the only checkpoint of
the store with that key; from a state with a valid focus pointer every such sequence
returns. -/
theorem store_keys_unique {M : FloatOps} (cfg : Config M) (s0 : State M)
    (ops : List (StoreOp M)) :
    (∀ s, runStoreOps cfg ops (checkpoint_init cfg { s0 with checks := [] }) = some s →
      (keys s.checks).Nodup ∧
      ∀ k cp, findKey k s.checks = some cp →
        cp ∈ s.checks ∧ cp.key = k ∧ ∀ cp1 ∈ s.checks, cp1.key = k → cp1 = cp) ∧
    (FocusOK s0 →
      ∃ s, runStoreOps cfg ops (checkpoint_init cfg { s0 with checks := [] }) = some s) := by
  constructor
  · intro s hrun
    have h0 : (keys (checkpoint_init cfg { s0 with checks := [] }).checks).Nodup := by
      rw [checkpoint_init_keys]
      decide
    have hn := runStoreOps_keys cfg ops _ s hrun h0
    exact ⟨hn, fun k cp h => findKey_unique k s.checks hn cp h⟩
  · intro hs
    exact runStoreOps_total cfg ops _ (focusOK_of_same s0 _ rfl rfl hs)

/-- After `checkpoint_init`, setting the new key `'a'`, an update, a recall of `'a'`,
setting `'a'` and `'3'` again, the store of `stateA` has seven checkpoints with seven
different keys. -/
theorem store_keys_unique_witness :
    ∃ s, runStoreOps cfgA [StoreOp.checkpoint_set 'a', StoreOp.checkpoint_update 3 4 (2 : ℚ),
        StoreOp.checkpoint 'a', StoreOp.checkpoint_set 'a', StoreOp.checkpoint_set '3']
        (checkpoint_init cfgA { stateA with checks := [] }) = some s ∧
      (keys s.checks).Nodup ∧ keys s.checks = ['a', '5', '4', '3', '2', '1', '0'] := by
  obtain ⟨h1, h2⟩ := store_keys_unique cfgA stateA
    [StoreOp.checkpoint_set 'a', StoreOp.checkpoint_update 3 4 (2 : ℚ),
      StoreOp.checkpoint 'a', StoreOp.checkpoint_set 'a', StoreOp.checkpoint_set '3']
  obtain ⟨s, hs⟩ := h2 (by decide)
  refine ⟨s, hs, (h1 s hs).1, ?_⟩
  have hk : (runStoreOps cfgA [StoreOp.checkpoint_set 'a', StoreOp.checkpoint_update 3 4 (2 : ℚ),
      StoreOp.checkpoint 'a', StoreOp.checkpoint_set 'a', StoreOp.checkpoint_set '3']
      (checkpoint_init cfgA { stateA with checks := [] })).map (fun t => keys t.checks) =
      some ['a', '5', '4', '3', '2', '1', '0'] := by
    with_unfolding_all decide
  rw [hs] at hk
  simpa using hk

/-! ## C24: the offset of a checkpoint after its recall -/

theorem ratFloat_zeroScaled (f : ℚ) : zeroScaled ratFloat f = 0 := by
  show Int.tdiv ((((0 - 0 : Int) : ℚ) * f + ((0 : Int) : ℚ)).num)
    (((((0 - 0 : Int) : ℚ) * f + ((0 : Int) : ℚ)).den : Nat) : Int) = 0
  simp

/-- C24, as the code has it: from a state with a valid focus pointer, the recall of a key
`k` that the store holds returns, and afterwards the checkpoint found for `k` has the
offset (0, 0), whatever its offset was and with animations on or off, provided the factor
`f = 1/zoom` of the zoom that ends the recall is 1 or is a `float` for which
`(0 - 0)*f + 0` converts to the `int` 0 (every finite `f`). -/
theorem recall_zeroes_offset {M : FloatOps} (cfg : Config M) (k : Char) (s : State M)
    (cp : Checkpoint M) (hs : FocusOK s) (hk : findKey k s.checks = some cp)
    (hz : M.div (M.ofInt 1) cp.zoom = M.ofInt 1 ∨
      zeroScaled M (M.div (M.ofInt 1) cp.zoom) = 0) :
    ∃ s1 cp1, checkpoint cfg k s = some s1 ∧ findKey k s1.checks = some cp1 ∧
      cp1.x = 0 ∧ cp1.y = 0 := by
  obtain ⟨s1, h1, h2⟩ := checkpoint_of_focusOK cfg k s cp hs hk
  refine ⟨s1, checkpoint_update1 0 0 (M.div (M.ofInt 1) cp.zoom)
    { cp with x := cp.x + -cp.x, y := cp.y + -cp.y }, h1, ?_, ?_, ?_⟩
  · rw [h2, findKey_map k _ (checkpoint_update1_key 0 0 _), findKey_shift, hk]
    rfl
  · unfold checkpoint_update1
    by_cases hf : M.div (M.ofInt 1) cp.zoom = M.ofInt 1
    · simp [hf]
    · rcases hz with hz | hz
      · exact absurd hz hf
      · simp only [ne_eq, hf, not_false_eq_true, if_true, add_neg_cancel]
        exact hz
  · unfold checkpoint_update1
    by_cases hf : M.div (M.ofInt 1) cp.zoom = M.ofInt 1
    · simp [hf]
    · rcases hz with hz | hz
      · exact absurd hz hf
      · simp only [ne_eq, hf, not_false_eq_true, if_true, add_neg_cancel]
        exact hz

/-- In `stateChecks` the checkpoint `'1'` has the offset (7, -9) and the zoom 3; after
its recall its offset is (0, 0). -/
theorem recall_zeroes_offset_witness :
    ∃ s1 cp1, checkpoint cfgA '1' stateChecks = some s1 ∧
      findKey '1' s1.checks = some cp1 ∧ cp1.x = 0 ∧ cp1.y = 0 :=
  recall_zeroes_offset cfgA '1' stateChecks { x := 7, y := -9, zoom := (3 : ℚ), key := '1' }
    (by decide) rfl (Or.inr (ratFloat_zeroScaled _))

/-- C24 fails as stated: a checkpoint with zoom 0 and offset (3, 4) is recalled with the
factor `1/0`, which is not finite; `checkpoint_update` then stores the conversion of
`(0 - 0)*(1/0) + 0` to `int` in both offset fields, and that is not 0 (here `INT_MIN`). -/
theorem recall_zero_zoom_offset :
    (findKey '1' stateZeroZoom.checks).map (fun c => (c.x, c.y)) = some (3, 4) ∧
    ((checkpoint cfgE '1' stateZeroZoom).bind (fun s => findKey '1' s.checks)).map
      (fun c => (c.x, c.y)) = some (-2147483648, -2147483648) := by
  exact ⟨rfl, rfl⟩

/-! ## C21: the segment scan of `status` -/

theorem strchr_none (l : List Char) (ch : Char) : strchr l ch = none ↔ ch ∉ l := by
  induction l with
  | nil => simp [strchr]
  | cons d l ih =>
    by_cases hd : d = ch
    · simp [strchr, hd]
    · have hd1 : ¬ ch = d := fun e => hd e.symm
      simp [strchr, hd, hd1, ih]

theorem strchr_some (l : List Char) (ch : Char) (i : Nat) (h : strchr l ch = some i) :
    i < l.length ∧ l.drop i = ch :: l.drop (i + 1) ∧ ch ∉ l.take i := by
  induction l generalizing i with
  | nil => simp [strchr] at h
  | cons d l ih =>
    by_cases hd : d = ch
    · simp only [strchr, hd, if_true, Option.some.injEq] at h
      subst h
      simp [hd]
    · simp only [strchr, hd, if_false] at h
      cases hs : strchr l ch with
      | none => simp [hs] at h
      | some j =>
        simp only [hs, Option.map_some', Option.some.injEq] at h
        subst h
        obtain ⟨h1, h2, h3⟩ := ih j hs
        have hd1 : ¬ ch = d := fun e => hd e.symm
        refine ⟨by simpa using h1, by simpa using h2, ?_⟩
        simp [List.take_succ_cons, hd1, h3]

theorem statusStep_next (tw : List Char → Int) (c c1 : List Char) (b b1 : StatusBar)
    (h : statusStep tw c b = Scan.next c1 b1) :
    ((c1 = c ∧ b1 = b) ∨ c1.length < c.length) ∧ ∀ x ∈ c1, x ∈ c := by
  unfold statusStep at h
  by_cases h1 : c.head? = some '\n'
  · simp [h1] at h
  · simp only [h1, if_false] at h
    by_cases h2 : c.head? = some '\x7b'
    · simp only [h2, if_true] at h
      cases hs : strchr c.tail '\x7d' with
      | none => simp [hs] at h
      | some i =>
        simp only [hs, Scan.next.injEq] at h
        obtain ⟨hc, -⟩ := h
        subst hc
        cases c with
        | nil => simp at h2
        | cons d tl =>
          refine ⟨Or.inr ?_, ?_⟩
          · simp only [List.tail_cons, List.length_drop, List.length_cons]
            omega
          · intro x hx
            exact List.mem_cons_of_mem _ (List.mem_of_mem_drop hx)
    · simp only [h2, if_false] at h
      simp only [Scan.next.injEq] at h
      obtain ⟨hc, hb⟩ := h
      constructor
      · cases ht : (match strchr c '\x7b' with
            | some i => some i
            | none => strchr c '\n') with
        | none =>
          simp only [ht] at hc hb
          left
          exact ⟨by simpa using hc.symm, by simpa using hb.symm⟩
        | some i =>
          simp only [ht] at hc hb
          by_cases hi : i = 0
          · subst hi
            left
            exact ⟨by simpa using hc.symm, by simpa using hb.symm⟩
          · right
            have hlt : i < c.length := by
              cases hs : strchr c '\x7b' with
              | some j =>
                simp only [hs, Option.some.injEq] at ht
                subst ht
                exact (strchr_some c _ j hs).1
              | none =>
                simp only [hs] at ht
                exact (strchr_some c _ i ht).1
            rw [← hc, List.length_drop]
            omega
      · intro x hx
        rw [← hc] at hx
        exact List.mem_of_mem_drop hx

theorem statusLoop_mono (tw : List Char → Int) (n m : Nat) (c : List Char)
    (b r : StatusBar) (h : statusLoop tw n c b = some r) (hnm : n ≤ m) :
    statusLoop tw m c b = some r := by
  induction n generalizing m c b with
  | zero => simp [statusLoop] at h
  | succ n ih =>
    obtain ⟨m1, rfl⟩ : ∃ m1, m = m1 + 1 := ⟨m - 1, by omega⟩
    unfold statusLoop at h ⊢
    cases hs : statusStep tw c b with
    | exit b1 => simpa [hs] using h
    | fault => simp [hs] at h
    | next c1 b1 =>
      simp only [hs] at h ⊢
      exact ih m1 c1 b1 h (by omega)

theorem statusLoop_fuel (tw : List Char → Int) (n : Nat) (c : List Char)
    (b r : StatusBar) (h : statusLoop tw n c b = some r) :
    statusLoop tw (c.length + 1) c b = some r := by
  induction n generalizing c b with
  | zero => simp [statusLoop] at h
  | succ n ih =>
    have h0 := h
    unfold statusLoop at h
    cases hs : statusStep tw c b with
    | exit b1 =>
      simp only [hs] at h
      unfold statusLoop
      simpa [hs] using h
    | fault => simp [hs] at h
    | next c1 b1 =>
      simp only [hs] at h
      rcases (statusStep_next tw c c1 b b1 hs).1 with ⟨e1, e2⟩ | hlt
      · subst e1
        subst e2
        exact ih _ _ h
      · have h1 := ih c1 b1 h
        unfold statusLoop
        simp only [hs]
        exact statusLoop_mono tw _ _ c1 b1 r h1 (by omega)

theorem statusLoop_no_newline (tw : List Char → Int) (n : Nat) (c : List Char)
    (b : StatusBar) (hc : '\n' ∉ c) : statusLoop tw n c b = none := by
  induction n generalizing c b with
  | zero => rfl
  | succ n ih =>
    unfold statusLoop
    cases hs : statusStep tw c b with
    | exit b1 =>
      exfalso
      unfold statusStep at hs
      by_cases h1 : c.head? = some '\n'
      · exact hc (List.mem_of_mem_head? h1)
      · simp only [h1, if_false] at hs
        by_cases h2 : c.head? = some '\x7b'
        · simp only [h2, if_true] at hs
          cases hk : strchr c.tail '\x7d' with
          | none => simp [hk] at hs
          | some i => simp [hk] at hs
        · simp [h2] at hs
    | fault => rfl
    | next c1 b1 =>
      simp only []
      exact ih c1 b1 (fun hx => hc ((statusStep_next tw c c1 b b1 hs).2 _ hx))

theorem status_no_newline {M : FloatOps} (tw : List Char → Int) (msg : List Char)
    (s : State M) (h : '\n' ∉ msg) : status tw msg s = none := by
  unfold status
  rw [statusLoop_no_newline tw _ msg _ h]

theorem statusStep_stuck (tw : List Char → Int) (c : List Char) (b : StatusBar)
    (h1 : '\n' ∉ c) (h2 : '\x7b' ∉ c) : statusStep tw c b = Scan.next c b := by
  unfold statusStep
  have e1 : ¬ c.head? = some '\n' := fun e => h1 (List.mem_of_mem_head? e)
  have e2 : ¬ c.head? = some '\x7b' := fun e => h2 (List.mem_of_mem_head? e)
  simp [e1, e2, (strchr_none c _).mpr h1, (strchr_none c _).mpr h2]

theorem fgetsChars_take (k : Nat) (input : List Char) (h : '\n' ∉ input.take k) :
    fgetsChars k input = (input.take k, input.drop k) := by
  induction k generalizing input with
  | zero => cases input <;> rfl
  | succ k ih =>
    cases input with
    | nil => rfl
    | cons c rest =>
      simp only [List.take_succ_cons, List.mem_cons, not_or] at h
      have hc : ¬ c = '\n' := fun e => h.1 e.symm
      simp [fgetsChars, hc, ih rest h.2]

theorem fgets_cut {M : FloatOps} (tw : List Char → Int) (n : Nat) (input line rest : List Char)
    (s : State M) (h : '\n' ∉ input.take (n - 1)) (hf : fgets n input = some (line, rest)) :
    line = input.take (n - 1) ∧ status tw line s = none := by
  unfold fgets at hf
  by_cases he : input = []
  · simp [he] at hf
  · simp only [he, if_false, Option.some.injEq] at hf
    rw [fgetsChars_take _ _ h] at hf
    have hl : line = input.take (n - 1) := (congrArg Prod.fst hf).symm
    exact ⟨hl, status_no_newline tw line s (hl ▸ h)⟩

theorem strchr_append_mem (l m : List Char) (ch : Char) (h : ch ∈ l) :
    strchr (l ++ m) ch = strchr l ch := by
  induction l with
  | nil => simp at h
  | cons d l ih =>
    by_cases hd : d = ch
    · simp [strchr, hd]
    · have hm : ch ∈ l := by
        rcases List.mem_cons.mp h with e | e
        · exact absurd e.symm hd
        · exact e
      simp [strchr, hd, ih hm]

theorem strchr_append_not_mem (l m : List Char) (ch : Char) (h : ch ∉ l) :
    strchr (l ++ m) ch = (strchr m ch).map (fun i => i + l.length) := by
  induction l with
  | nil => simp
  | cons d l ih =>
    simp only [List.mem_cons, not_or] at h
    have hd : ¬ d = ch := fun e => h.1 e.symm
    show (if d = ch then some 0 else (strchr (l ++ m) ch).map (fun i => i + 1)) = _
    rw [if_neg hd, ih h.2]
    cases strchr m ch with
    | none => rfl
    | some j => simp [add_assoc]

theorem strchr_cons_ne (d : Char) (l : List Char) (ch : Char) (h : ¬ d = ch) :
    strchr (d :: l) ch = (strchr l ch).map (fun i => i + 1) := by
  simp [strchr, h]

theorem closedBraces_drop (l : List Char) (i : Nat) (h : closedBraces l) :
    closedBraces (l.drop i) := by
  induction i generalizing l with
  | zero => simpa using h
  | succ i ih =>
    cases l with
    | nil => simpa using h
    | cons d l => exact ih l h.2

theorem statusLoop_closed (tw : List Char → Int) :
    ∀ (n : Nat) (rest : List Char) (b : StatusBar), rest.length < n → '\n' ∉ rest →
      closedBraces rest → ∃ r, statusLoop tw n (rest ++ ['\n']) b = some r := by
  intro n
  induction n with
  | zero => intro rest b h; omega
  | succ n ih =>
    intro rest b hlen hnl hcb
    unfold statusLoop
    cases rest with
    | nil => exact ⟨b, by simp [statusStep]⟩
    | cons d tl =>
      simp only [List.mem_cons, not_or] at hnl
      have hd : ¬ d = '\n' := fun e => hnl.1 e.symm
      simp only [List.length_cons] at hlen
      by_cases hb : d = '\x7b'
      · have hin : '\x7d' ∈ tl := hcb.1 hb
        subst hb
        cases hs : strchr tl '\x7d' with
        | none => exact absurd hin ((strchr_none tl _).mp hs)
        | some i =>
          have hi := (strchr_some tl _ i hs).1
          have hstep : statusStep tw ('\x7b' :: tl ++ ['\n']) b =
              Scan.next (tl.drop (i + 1) ++ ['\n'])
                (if (tl ++ ['\n']).head? = some '#' then
                  { b with colour := some ((tl ++ ['\n']).take 7) } else b) := by
            simp only [statusStep, List.cons_append, List.head?_cons, List.tail_cons,
              Option.some.injEq, hd, if_false, if_true, strchr_append_mem tl _ _ hin, hs]
            rw [List.drop_append_of_le_length (by omega)]
          rw [hstep]
          simp only []
          apply ih
          · rw [List.length_drop]; omega
          · exact fun hx => hnl.2 (List.mem_of_mem_drop hx)
          · exact closedBraces_drop tl (i + 1) hcb.2
      · by_cases hin : '\x7b' ∈ tl
        · cases hs : strchr tl '\x7b' with
          | none => exact absurd hin ((strchr_none tl _).mp hs)
          | some i =>
            have hi := (strchr_some tl _ i hs).1
            have hstep : ∃ b1, statusStep tw (d :: tl ++ ['\n']) b =
                Scan.next (tl.drop i ++ ['\n']) b1 := by
              simp only [statusStep, List.cons_append, List.head?_cons,
                Option.some.injEq, hd, if_false, hb, strchr_cons_ne _ _ _ hb,
                strchr_append_mem tl _ _ hin, hs, Option.map_some', List.drop_succ_cons]
              rw [List.drop_append_of_le_length (by omega)]
              exact ⟨_, rfl⟩
            obtain ⟨b1, hb1⟩ := hstep
            rw [hb1]
            simp only []
            apply ih
            · rw [List.length_drop]; omega
            · exact fun hx => hnl.2 (List.mem_of_mem_drop hx)
            · exact closedBraces_drop tl i hcb.2
        · have hstep : ∃ b1, statusStep tw (d :: tl ++ ['\n']) b = Scan.next ([] ++ ['\n']) b1 := by
            have e1 : strchr ['\n'] '\x7b' = none := by decide
            have e2 : strchr ['\n'] '\n' = some 0 := by decide
            simp only [statusStep, List.cons_append, List.head?_cons,
              Option.some.injEq, hd, if_false, hb, strchr_cons_ne _ _ _ hb,
              strchr_cons_ne _ _ _ hd, strchr_append_not_mem tl _ _ hin,
              strchr_append_not_mem tl _ _ hnl.2, e1, e2, if_true, Option.map_some',
              Option.map_none', List.drop_succ_cons, zero_add]
            rw [List.drop_append_of_le_length (by omega)]
            simp only [List.drop_length, List.nil_append]
            exact ⟨_, rfl⟩
          obtain ⟨b1, hb1⟩ := hstep
          rw [hb1]
          simp only []
          apply ih
          · simp; omega
          · simp
          · trivial

/-- For a line that ends in its newline, has no other newline and closes every brace it
opens, `status` returns whenever the focus pointer is valid. -/
theorem status_closed {M : FloatOps} (tw : List Char → Int) (body : List Char) (s : State M)
    (hs : FocusOK s) (hnl : '\n' ∉ body) (hcb : closedBraces body) :
    ∃ b s1, status tw (body ++ ['\n']) s = some (b, s1) := by
  obtain ⟨r, hr⟩ := statusLoop_closed tw ((body ++ ['\n']).length + 1) body
    { statuswidth := 0, colour := none, drawn := [] }
    (by simp only [List.length_append, List.length_singleton]; omega) hnl hcb
  obtain ⟨u, hu⟩ := draw_of_focusOK s hs
  exact ⟨r, { s with tags_urg := u }, by unfold status; rw [hr]; simp only [hu]⟩

/-- On the line `ab{#ff0000}cd` with its newline, `status` returns: it has drawn `ab` at
x = 0 in the default colour and `cd` at x = 12 in the colour `#ff0000`, and
`statuswidth` is 24. -/
theorem status_example :
    (status width6 ['a', 'b', '\x7b', '#', 'f', 'f', '0', '0', '0', '0', '\x7d', 'c', 'd', '\n']
      stateA).map (fun r => r.1) =
      some { statuswidth := 24, colour := some ['#', 'f', 'f', '0', '0', '0', '0'],
             drawn := [(0, none, ['a', 'b']),
                       (12, some ['#', 'f', 'f', '0', '0', '0', '0'], ['c', 'd'])] } := by
  decide

/-- A brace that is never closed makes `strchr(c,'}')` return `NULL`: the round leaves
`c = NULL + 1` and `status` does not return, although the line ends in a newline. -/
theorem status_open_brace :
    statusStep width6 ['\x7b', 'a', '\n'] { statuswidth := 0, colour := none, drawn := [] } =
      Scan.fault ∧
    status width6 ['\x7b', 'a', '\n'] stateA = none := by
  decide

/-- C21 does not hold for the code. `fgets(line, max_status_line, inpipe)` cuts a line of
600 letters to its first 511 characters, without a newline. On that string every round of
the loop of `status` finds neither a brace nor a newline, draws nothing and leaves `c`
and the bar as they were, so the loop condition `*c != '\n'` holds for ever: the loop
returns for no amount of fuel, and `status` does not return. -/
theorem status_cut_line_hangs :
    (fgets max_status_line longLine).map Prod.fst = some (List.replicate 511 'a') ∧
    (∀ (tw : List Char → Int) (b : StatusBar),
      statusStep tw (List.replicate 511 'a') b = Scan.next (List.replicate 511 'a') b) ∧
    (∀ (tw : List Char → Int) (n : Nat) (b : StatusBar),
      statusLoop tw n (List.replicate 511 'a') b = none) ∧
    (∀ tw : List Char → Int, status tw (List.replicate 511 'a') stateA = none) := by
  have h1 : '\n' ∉ List.replicate 511 'a' := by
    intro h
    exact absurd (List.eq_of_mem_replicate h) (by decide)
  have h2 : '\x7b' ∉ List.replicate 511 'a' := by
    intro h
    exact absurd (List.eq_of_mem_replicate h) (by decide)
  refine ⟨?_, fun tw b => statusStep_stuck tw _ b h1 h2,
    fun tw n b => statusLoop_no_newline tw n _ b h1,
    fun tw => status_no_newline tw _ stateA h1⟩
  have ht : longLine.take (max_status_line - 1) = List.replicate 511 'a' := by
    show (List.replicate 600 'a' ++ ['\n']).take 511 = List.replicate 511 'a'
    rw [List.take_append_of_le_length (by rw [List.length_replicate]; omega),
      List.take_replicate]
    rfl
  have hne : ¬ longLine = [] := by
    intro h
    have := congrArg List.length h
    rw [longLine, List.length_append, List.length_replicate, List.length_singleton,
      List.length_nil] at this
    omega
  unfold fgets
  rw [if_neg hne, fgetsChars_take _ _ (by rw [ht]; exact h1), ht]
  rfl

end Scrollwm
